import Mathlib

/-!
Verification of the core logic of the Topological Minesweeper repository
(file GameCore.ts): the topology graph, the board state machine and the
three-tier deductive solver.  All definitions below are shallow embeddings
of the TypeScript source; loops are modelled with explicit fuel and the
random number generator of placeMines is an explicit stream parameter.
-/

/-- Embedding of the TypeScript union type TopologyType. -/
inductive TopologyType where
  | TORUS
  | SQUARE
deriving DecidableEq, Repr

/-- Embedding of the TypeScript union type CellStatus. -/
inductive CellStatus where
  | HIDDEN
  | OPENED
  | FLAGGED
deriving DecidableEq, Repr

/-- The eight (dy, dx) offsets enumerated by buildGraph, in the order of the
nested for loops (dy outer from -1 to 1, dx inner from -1 to 1, skipping
(0,0)). -/
def offsetList : List (Int × Int) :=
  [(-1,-1),(-1,0),(-1,1),(0,-1),(0,1),(1,-1),(1,0),(1,1)]

/-- One iteration of the inner loop body of Topology.buildGraph: resolve the
offset d = (dy, dx) from cell (x, y) to a neighbour index, or none when the
neighbour is discarded (SQUARE out of range).  TORUS wraps with
(n + size) % size exactly as the source does. -/
def resolveNeighbor (ty : TopologyType) (w h : Nat) (x y : Nat) (d : Int × Int) :
    Option Nat :=
  let nx : Int := (x : Int) + d.2
  let ny : Int := (y : Int) + d.1
  match ty with
  | .TORUS =>
      let nx2 := (nx + (w : Int)) % (w : Int)
      let ny2 := (ny + (h : Int)) % (h : Int)
      some (ny2 * (w : Int) + nx2).toNat
  | .SQUARE =>
      if nx < 0 ∨ (w : Int) ≤ nx ∨ ny < 0 ∨ (h : Int) ≤ ny then none
      else some (ny * (w : Int) + nx).toNat

/-- The neighbour list of cell i built by Topology.buildGraph
(coordinates recovered as x = i % w, y = i / w, as in toCoord). -/
def buildNeighbors (ty : TopologyType) (w h : Nat) (i : Nat) : List Nat :=
  offsetList.filterMap (resolveNeighbor ty w h (i % w) (i / w))

/-- Embedding of class Topology: width, height, kind and the adjacency list
materialised by buildGraph in the constructor. -/
structure Topology where
  width : Nat
  height : Nat
  type : TopologyType
  adjacencyList : List (List Nat)
deriving DecidableEq, Repr

/-- The Topology constructor: builds the adjacency graph once. -/
def Topology.build (w h : Nat) (ty : TopologyType) : Topology :=
  ⟨w, h, ty, (List.range (w * h)).map (buildNeighbors ty w h)⟩

/-- Topology.getNeighbors. -/
def Topology.getNeighbors (t : Topology) (i : Nat) : List Nat :=
  t.adjacencyList.getD i []

/-- Number of cells of the topology. -/
def Topology.size (t : Topology) : Nat := t.width * t.height

/-- Embedding of class Board: the three parallel arrays over one topology. -/
structure Board where
  topo : Topology
  mines : List Bool
  status : List CellStatus
  neighborMineCounts : List Int
deriving DecidableEq, Repr

/-- Number of cells of the board. -/
def Board.size (b : Board) : Nat := b.topo.width * b.topo.height

/-- The Board constructor: all cells hidden, no mines, counts zero. -/
def Board.new (t : Topology) : Board :=
  ⟨t, List.replicate t.size false, List.replicate t.size .HIDDEN,
    List.replicate t.size 0⟩

/-- Read mines[i]; out of range reads give false (undefined is falsy in the
source). -/
def mineAt (b : Board) (i : Nat) : Bool := b.mines.getD i false

/-- Test status[i] === st; out of range reads give false (undefined is not
equal to any status string in the source). -/
def statusIs (b : Board) (i : Nat) (st : CellStatus) : Bool :=
  decide (b.status.get? i = some st)

/-- Read neighborMineCounts[i]; the default -2 plays the role of undefined:
it is never a stored count and compares unequal to 0 and not greater
than 0, exactly as undefined does in the source comparisons. -/
def countAt (b : Board) (i : Nat) : Int := b.neighborMineCounts.getD i (-2)

/-- Board.calcNumbers: -1 on mine cells, otherwise the count of mines among
the neighbours (counted per adjacency-list entry, as the source loop does). -/
def Board.calcNumbers (b : Board) : Board :=
  { b with neighborMineCounts :=
      (List.range b.mines.length).map (fun i =>
        if b.mines.getD i false then (-1 : Int)
        else ((b.topo.getNeighbors i).countP (fun n => b.mines.getD n false) : Int)) }

/-- The while loop of Board.placeMines.  Arguments: remaining allowed draws
(the safety counter counts up to size * 20 in the source; here it counts
down), index of the next draw, mines placed so far, current mine array.
Returns the mine array, the number placed and the unused draws. -/
def placeMinesLoop (mineCount : Nat) (safeZone : List Nat) (rng : Nat → Nat) :
    Nat → Nat → Nat → List Bool → List Bool × Nat × Nat
  | 0, _, placed, mines => (mines, placed, 0)
  | rem+1, k, placed, mines =>
    if placed < mineCount then
      let idx := rng k
      if mines.getD idx false = false ∧ safeZone.contains idx = false then
        placeMinesLoop mineCount safeZone rng rem (k+1) (placed+1) (mines.set idx true)
      else
        placeMinesLoop mineCount safeZone rng rem (k+1) placed mines
    else (mines, placed, rem+1)

/-- Board.placeMines with its loop counters exposed: clears the mine array,
draws up to size * 20 random indices, placing mines outside the safe zone
({startIndex} together with its neighbours), then recomputes the numbers.
Returns the board, the number of mines placed, and the unused draws. -/
def Board.placeMinesFull (b : Board) (mineCount startIndex : Nat)
    (rng : Nat → Nat) : Board × Nat × Nat :=
  let size := b.size
  let safeZone := startIndex :: b.topo.getNeighbors startIndex
  let cleared := b.mines.map (fun _ => false)
  let r := placeMinesLoop mineCount safeZone rng (size * 20) 0 0 cleared
  (Board.calcNumbers { b with mines := r.1 }, r.2.1, r.2.2)

/-- Board.placeMines as the source exposes it (the board alone). -/
def Board.placeMines (b : Board) (mineCount startIndex : Nat)
    (rng : Nat → Nat) : Board :=
  (b.placeMinesFull mineCount startIndex rng).1

/-- The recursive Board.open, with fuel bounding the recursion depth.  With
fuel zero the call does nothing (sufficient fuel is established by the
termination theorem).  Returns the board and the Exploded flag. -/
def openGo : Nat → Board → Nat → Board × Bool
  | 0, b, _ => (b, false)
  | fuel+1, b, idx =>
    if statusIs b idx .HIDDEN = false then (b, false)
    else if mineAt b idx then ({ b with status := b.status.set idx .OPENED }, true)
    else
      let b1 : Board := { b with status := b.status.set idx .OPENED }
      if countAt b idx = 0 then
        ((b.topo.getNeighbors idx).foldl (fun acc n => (openGo fuel acc n).1) b1, false)
      else (b1, false)

/-- The flood part of open: open every cell of the list in order, ignoring
the returned flags, as the for loop in the source does. -/
def openFold (fuel : Nat) (b : Board) (ns : List Nat) : Board :=
  ns.foldl (fun acc n => (openGo fuel acc n).1) b

/-- Board.open with canonical fuel: one more than the number of status
entries, which the termination theorem shows is always sufficient. -/
def Board.openCell (b : Board) (idx : Nat) : Board × Bool :=
  openGo (b.status.length + 1) b idx

/-- Embedding of class Solver. -/
structure Solver where
  board : Board
  knownMines : List Nat
  knownSafe : List Nat
  isValidState : Bool
  totalMines : Int
deriving DecidableEq, Repr

/-- The Solver constructor. -/
def Solver.new (b : Board) (tm : Int) : Solver := ⟨b, [], [], true, tm⟩

/-- Solver.fromSnapshot: copies the board and both sets, resets
isValidState to true (the constructor sets it) and keeps totalMines. -/
def Solver.fromSnapshot (s : Solver) : Solver :=
  ⟨s.board, s.knownMines, s.knownSafe, true, s.totalMines⟩

/-- JavaScript Set.add: append the element unless already present
(insertion order preserved). -/
def sAdd (l : List Nat) (x : Nat) : List Nat :=
  if l.contains x then l else l ++ [x]

/-- The mine-marking loop of Tier 1: add each listed cell to knownMines,
recording whether anything changed. -/
def addMinesFold (km : List Nat) (changed : Bool) (ns : List Nat) :
    List Nat × Bool :=
  ns.foldl (fun p n => if p.1.contains n then p else (p.1 ++ [n], true))
    (km, changed)

/-- The safe-marking loop of Tier 1: add each listed cell to knownSafe
unless it is already known safe or known mine. -/
def addSafeFold (ks km : List Nat) (changed : Bool) (ns : List Nat) :
    List Nat × Bool :=
  ns.foldl (fun p n =>
      if p.1.contains n = false ∧ km.contains n = false then (p.1 ++ [n], true)
      else p)
    (ks, changed)

/-- The cell loop of Solver.solveBasicStep, with the early returns on
contradiction.  Returns the solver and the changed flag. -/
def basicStepGo (s : Solver) (changed : Bool) : List Nat → Solver × Bool
  | [] => (s, changed)
  | i :: rest =>
    if statusIs s.board i .OPENED ∧ countAt s.board i > 0 then
      let neighbors := s.board.topo.getNeighbors i
      let hiddenNs := neighbors.filter (fun n =>
        statusIs s.board n .HIDDEN ∧ s.knownSafe.contains n = false ∧
          s.knownMines.contains n = false)
      let kmc : Int := (neighbors.countP (fun n => s.knownMines.contains n) : Nat)
      if kmc > countAt s.board i then ({ s with isValidState := false }, false)
      else
        let remaining := countAt s.board i - kmc
        if remaining > (hiddenNs.length : Int) ∨ remaining < 0 then
          ({ s with isValidState := false }, false)
        else
          let p1 :=
            if remaining = (hiddenNs.length : Int) ∧ remaining > 0 then
              addMinesFold s.knownMines changed hiddenNs
            else (s.knownMines, changed)
          let p2 :=
            if remaining = 0 ∧ hiddenNs.length > 0 then
              addSafeFold s.knownSafe p1.1 p1.2 hiddenNs
            else (s.knownSafe, p1.2)
          basicStepGo { s with knownMines := p1.1, knownSafe := p2.1 } p2.2 rest
    else basicStepGo s changed rest

/-- Solver.solveBasicStep (Tier 1, local constraints). -/
def Solver.solveBasicStep (s : Solver) : Solver × Bool :=
  basicStepGo s false (List.range (s.board.topo.width * s.board.topo.height))

/-- Solver.solveGlobalLogic (Tier 2, global mine count). -/
def Solver.solveGlobalLogic (s : Solver) : Solver × Bool :=
  let size := s.board.topo.width * s.board.topo.height
  let unknowns := (List.range size).filter (fun i =>
    statusIs s.board i .HIDDEN ∧ s.knownSafe.contains i = false ∧
      s.knownMines.contains i = false)
  if unknowns.length = 0 then (s, false)
  else
    let minesLeft : Int := s.totalMines - (s.knownMines.length : Int)
    if minesLeft < 0 ∨ minesLeft > (unknowns.length : Int) then
      ({ s with isValidState := false }, false)
    else if minesLeft = (unknowns.length : Int) then
      ({ s with knownMines := unknowns.foldl sAdd s.knownMines }, true)
    else if minesLeft = 0 then
      ({ s with knownSafe := unknowns.foldl sAdd s.knownSafe }, true)
    else (s, false)

/-- The inner fixpoint loop of Tier 3: while (subChanged and isValidState)
{ subChanged := solveBasicStep; if subChanged then subChanged :=
solveGlobalLogic }, with fuel bounding the number of iterations. -/
def simLoop : Nat → Solver → Solver
  | 0, s => s
  | fuel+1, s =>
    if s.isValidState then
      let r1 := s.solveBasicStep
      if r1.2 then
        let r2 := r1.1.solveGlobalLogic
        if r2.2 then simLoop fuel r2.1 else r2.1
      else r1.1
    else s

/-- The frontier of Solver.solveDeepLogic: unknown hidden cells adjacent to
an opened numbered cell, collected in insertion order without duplicates
(a JavaScript Set). -/
def Solver.frontier (s : Solver) : List Nat :=
  let size := s.board.topo.width * s.board.topo.height
  (List.range size).foldl (fun acc i =>
    if statusIs s.board i .OPENED ∧ countAt s.board i > 0 then
      (s.board.topo.getNeighbors i).foldl (fun a n =>
        if statusIs s.board n .HIDDEN ∧ s.knownSafe.contains n = false ∧
            s.knownMines.contains n = false then sAdd a n
        else a) acc
    else acc) []

/-- The frontier loop of Solver.solveDeepLogic: for each frontier cell,
assume it is a mine and drive a snapshot to a fixpoint; a contradiction
proves it safe.  Otherwise assume it is safe; a contradiction proves it a
mine.  The fuel is passed to the inner fixpoint loops. -/
def deepGo (fuel : Nat) : Solver → Bool → List Nat → Solver × Bool
  | s, changed, [] => (s, changed)
  | s, changed, t :: rest =>
    let simMine :=
      simLoop fuel { s.fromSnapshot with knownMines := sAdd s.fromSnapshot.knownMines t }
    if simMine.isValidState = false ∧ s.knownSafe.contains t = false then
      deepGo fuel { s with knownSafe := sAdd s.knownSafe t } true rest
    else
      let simSafe :=
        simLoop fuel { s.fromSnapshot with knownSafe := sAdd s.fromSnapshot.knownSafe t }
      if simSafe.isValidState = false ∧ s.knownMines.contains t = false then
        deepGo fuel { s with knownMines := sAdd s.knownMines t } true rest
      else deepGo fuel s changed rest

/-- Solver.solveDeepLogic (Tier 3, contradiction search).  The inner
fixpoint loops can add at most 2 * size new elements, so fuel
2 * size + 2 always suffices (proved by the termination development). -/
def Solver.solveDeepLogic (s : Solver) : Solver × Bool :=
  let size := s.board.topo.width * s.board.topo.height
  deepGo (2 * size + 2) s false s.frontier

/-- The opening pass of checkSolvability: open every currently hidden known
safe cell, reporting whether any cell was opened. -/
def openSafeList (b : Board) (l : List Nat) : Board × Bool :=
  l.foldl (fun p n =>
    if statusIs p.1 n .HIDDEN then ((p.1.openCell n).1, true) else p) (b, false)

/-- The outer deduce-and-open loop of Solver.checkSolvability, with fuel
bounding the number of iterations. -/
def outerLoop : Nat → Solver → Solver
  | 0, s => s
  | fuel+1, s =>
    let r1 := s.solveBasicStep
    let r2 := if r1.2 then (r1.1, true) else r1.1.solveGlobalLogic
    let r3 := if r2.2 then (r2.1, true) else r2.1.solveDeepLogic
    let r4 := openSafeList r3.1.board r3.1.knownSafe
    let s4 := { r3.1 with board := r4.1 }
    if r3.2 ∨ r4.2 then outerLoop fuel s4 else s4

/-- Solver.checkSolvability with explicit outer fuel. -/
def checkSolvabilityF (fuel : Nat) (s : Solver) (startIndex : Nat) :
    Solver × Bool :=
  let s0 : Solver := { s with board := (s.board.openCell startIndex).1 }
  let size := s.board.topo.width * s.board.topo.height
  let s1 := outerLoop fuel s0
  (s1, (List.range size).all (fun i => mineAt s1.board i || statusIs s1.board i .OPENED))

/-- Solver.checkSolvability: open the start cell, run the tiers and open
newly known safe cells until a full pass makes no progress, then report
whether every non-mine cell is opened.  The outer loop makes progress on a
measure bounded by 3 * size, so fuel 3 * size + 2 always suffices (proved
by the termination development). -/
def Solver.checkSolvability (s : Solver) (startIndex : Nat) : Solver × Bool :=
  checkSolvabilityF (3 * (s.board.topo.width * s.board.topo.height) + 2) s startIndex

/-- One pass of checkSolvability's outer loop (the three tiers followed by
the opening of known safe cells), with the continue flag. -/
def outerBody (s : Solver) : Solver × Bool :=
  let r1 := s.solveBasicStep
  let r2 := if r1.2 then (r1.1, true) else r1.1.solveGlobalLogic
  let r3 := if r2.2 then (r2.1, true) else r2.1.solveDeepLogic
  let r4 := openSafeList r3.1.board r3.1.knownSafe
  ({ r3.1 with board := r4.1 }, decide (r3.2 ∨ r4.2))

/-- Total number of mines on the board (over the cell range). -/
def minesTotal (b : Board) : Nat :=
  (List.range b.size).countP (fun i => mineAt b i)

/-- The board with its mine array replaced (all other components shared):
used to state that the solver tiers never read the mine array. -/
def Board.withMines (b : Board) (m : List Bool) : Board := { b with mines := m }

/-- The solver with its board's mine array replaced. -/
def Solver.withMines (s : Solver) (m : List Bool) : Solver :=
  { s with board := s.board.withMines m }

/-- Every adjacency-list entry of a cell in range is itself in range. -/
def AdjWF (t : Topology) : Prop :=
  ∀ i < t.width * t.height, ∀ j ∈ t.getNeighbors i, j < t.width * t.height

/-- The cached neighbour counts agree with the mine array, as calcNumbers
computes them. -/
def CountsOK (b : Board) : Prop :=
  ∀ i < b.size, countAt b i =
    if mineAt b i then (-1 : Int)
    else ((b.topo.getNeighbors i).countP (fun n => mineAt b n) : Int)

/-- Every opened cell is a non-mine. -/
def OpenedSafe (b : Board) : Prop :=
  ∀ i < b.status.length, statusIs b i .OPENED = true → mineAt b i = false

/-- No cell is flagged. -/
def NoFlags (b : Board) : Prop :=
  ∀ i < b.status.length, statusIs b i .FLAGGED = false

/-- Every cell is hidden (a freshly generated board). -/
def AllHidden (b : Board) : Prop :=
  ∀ i < b.status.length, statusIs b i .HIDDEN = true

/-- The soundness invariant of a solver state: the board is well formed and
consistent, its opened cells are non-mines and none is flagged, totalMines
is the true mine count, every known mine is a mine, every known safe cell
is safe, and knownMines is a duplicate-free list of in-range cells. -/
structure Sound (s : Solver) : Prop where
  lensm : s.board.mines.length = s.board.size
  lenst : s.board.status.length = s.board.size
  adj : AdjWF s.board.topo
  counts : CountsOK s.board
  osafe : OpenedSafe s.board
  noflag : NoFlags s.board
  tm : s.totalMines = (minesTotal s.board : Int)
  km : ∀ i ∈ s.knownMines, mineAt s.board i = true
  ks : ∀ i ∈ s.knownSafe, mineAt s.board i = false
  kmnd : s.knownMines.Nodup
  kmlt : ∀ i ∈ s.knownMines, i < s.board.size

/-- One primitive state change performed by the checkSolvability loop: a
run of one of the three tiers, or the opening of a known safe cell. -/
inductive SolverStep : Solver → Solver → Prop where
  | basic (s : Solver) : SolverStep s s.solveBasicStep.1
  | global (s : Solver) : SolverStep s s.solveGlobalLogic.1
  | deep (s : Solver) : SolverStep s s.solveDeepLogic.1
  | openKnownSafe (s : Solver) (i : Nat) (h : i ∈ s.knownSafe) :
      SolverStep s { s with board := (s.board.openCell i).1 }

/-- All states the solver passes through while checkSolvability runs. -/
def SolverReach (s1 s2 : Solver) : Prop := Relation.ReflTransGen SolverStep s1 s2

/-- The solver state right after checkSolvability has opened the start
cell, before the first deduction pass. -/
def initialSolver (b : Board) (tm : Int) (startIndex : Nat) : Solver :=
  { Solver.new b tm with board := (b.openCell startIndex).1 }

/-- Transport relation between a board and the result of opening cells on
it starting from non-mine roots: everything except the status entries is
shared, the status length is preserved, every newly opened cell is a
non-mine, and no flag changes. -/
structure OpenOK (b0 b : Board) : Prop where
  topo : b.topo = b0.topo
  mines : b.mines = b0.mines
  counts : b.neighborMineCounts = b0.neighborMineCounts
  len : b.status.length = b0.status.length
  opened : ∀ i, statusIs b i CellStatus.OPENED = true →
    statusIs b0 i CellStatus.OPENED = true ∨ mineAt b0 i = false
  flag : ∀ i, statusIs b i CellStatus.FLAGGED = statusIs b0 i CellStatus.FLAGGED

/-- Number of hidden cells: the measure that Board.open strictly
decreases each time it actually opens a cell. -/
def hiddenCount (b : Board) : Nat :=
  b.status.countP (fun st => decide (st = CellStatus.HIDDEN))

/-- The solver-state predicate of the invariants claim: the two knowledge
sets are disjoint and knownMines does not exceed totalMines. -/
def SolverInv (s : Solver) : Prop :=
  (∀ i ∈ s.knownMines, i ∉ s.knownSafe) ∧
  (s.knownMines.length : Int) ≤ s.totalMines

/-- The well-formedness facts about a solver state that checkSolvability's
loop preserves and that drive its termination measure: status array sized
to the board, in-range adjacency, and duplicate-free in-range knowledge
sets. -/
structure LoopWF (s : Solver) : Prop where
  lenst : s.board.status.length = s.board.size
  adj : AdjWF s.board.topo
  kmnd : s.knownMines.Nodup
  ksnd : s.knownSafe.Nodup
  kmlt : ∀ i ∈ s.knownMines, i < s.board.size
  kslt : ∀ i ∈ s.knownSafe, i < s.board.size

/-- Combined size of the two knowledge sets (grows during deduction). -/
def setSum (s : Solver) : Nat := s.knownMines.length + s.knownSafe.length

/-- The termination measure of checkSolvability's outer loop: hidden cells
still to open plus the free capacity of each knowledge set. -/
def loopMeasure (s : Solver) : Nat :=
  hiddenCount s.board + (s.board.size - s.knownMines.length) +
    (s.board.size - s.knownSafe.length)

/-- A 2 x 1 SQUARE board whose first cell carries the mine: opening the
mine as the start cell derails the solver. -/
def bMineStart : Board :=
  Board.calcNumbers { Board.new (Topology.build 2 1 TopologyType.SQUARE) with
    mines := [true, false] }

/-- A mine-free 2 x 2 SQUARE board with consistent counts. -/
def bNoMines : Board :=
  Board.calcNumbers (Board.new (Topology.build 2 2 TopologyType.SQUARE))

/-- A 3 x 1 SQUARE board with two opened cells and a still-hidden mine;
its cached counts are consistent with its mine array. -/
def bThree : Board :=
  { Board.new (Topology.build 3 1 TopologyType.SQUARE) with
    mines := [false, false, true],
    status := [CellStatus.OPENED, CellStatus.OPENED, CellStatus.HIDDEN],
    neighborMineCounts := [0, 1, -1] }

/-! ### Basic list and board lemmas -/

theorem contains_iff_mem (l : List Nat) (x : Nat) : l.contains x = true ↔ x ∈ l := by
  simp

theorem getD_set_ne (l : List CellStatus) (i j : Nat) (v d : CellStatus) (h : i ≠ j) :
    (l.set i v).getD j d = l.getD j d := by
  show ((l.set i v).get? j).getD d = (l.get? j).getD d
  rw [List.get?_set_ne v l h]

theorem getD_set_ne_bool (l : List Bool) (i j : Nat) (v d : Bool) (h : i ≠ j) :
    (l.set i v).getD j d = l.getD j d := by
  show ((l.set i v).get? j).getD d = (l.get? j).getD d
  rw [List.get?_set_ne v l h]

theorem getD_map_range (n i : Nat) (f : Nat → Int) (d : Int) (h : i < n) :
    ((List.range n).map f).getD i d = f i := by
  show (((List.range n).map f).get? i).getD d = f i
  rw [List.get?_map]
  rw [List.get?_range h]
  rfl

theorem statusIs_iff (b : Board) (i : Nat) (st : CellStatus) :
    statusIs b i st = true ↔ b.status.get? i = some st := by
  simp [statusIs]

theorem statusIs_lt (b : Board) (i : Nat) (st : CellStatus)
    (h : statusIs b i st = true) : i < b.status.length := by
  rw [statusIs_iff] at h
  exact List.get?_eq_some.mp h |>.1

theorem statusIs_cases (b : Board) (i : Nat) (h : i < b.status.length) :
    statusIs b i .HIDDEN = true ∨ statusIs b i .OPENED = true ∨
      statusIs b i .FLAGGED = true := by
  rcases List.get?_eq_get h with hg
  cases hst : b.status.get ⟨i, h⟩ with
  | HIDDEN => exact Or.inl (by rw [statusIs_iff, hg, hst])
  | OPENED => exact Or.inr (Or.inl (by rw [statusIs_iff, hg, hst]))
  | FLAGGED => exact Or.inr (Or.inr (by rw [statusIs_iff, hg, hst]))

theorem countP_mono_mem (l : List Nat) (p q : Nat → Bool)
    (h : ∀ a ∈ l, p a = true → q a = true) : l.countP p ≤ l.countP q :=
  List.countP_mono_left h

theorem countP_split (l : List Nat) (p q : Nat → Bool) :
    l.countP p = l.countP (fun a => p a && q a) + l.countP (fun a => p a && !q a) := by
  induction l with
  | nil => simp
  | cons a t ih =>
    rw [List.countP_cons, List.countP_cons, List.countP_cons, ih]
    cases hp : p a <;> cases hq : q a <;> simp [hp, hq] <;> omega

theorem countP_congr_mem (l : List Nat) (p q : Nat → Bool)
    (h : ∀ a ∈ l, p a = q a) : l.countP p = l.countP q := by
  induction l with
  | nil => simp
  | cons a t ih =>
    rw [List.countP_cons, List.countP_cons]
    rw [h a (List.mem_cons_self a t), ih (fun x hx => h x (List.mem_cons_of_mem a hx))]

theorem countP_strict (l : List Nat) (p q : Nat → Bool)
    (hmono : ∀ a ∈ l, q a = true → p a = true) (x : Nat) (hx : x ∈ l)
    (hpx : p x = true) (hqx : q x = false) : l.countP q < l.countP p := by
  induction l with
  | nil => cases hx
  | cons a t ih =>
    rw [List.countP_cons, List.countP_cons]
    rcases List.mem_cons.mp hx with rfl | hxt
    · have := countP_mono_mem t q p (fun y hy => hmono y (List.mem_cons_of_mem x hy))
      rw [hpx, hqx]
      simp
      omega
    · by_cases hqa : q a = true
      · have hpa := hmono a (List.mem_cons_self a t) hqa
        have := ih (fun y hy hq => hmono y (List.mem_cons_of_mem a hy) hq) hxt
        rw [hpa, hqa]
        omega
      · rw [Bool.not_eq_true] at hqa
        have := ih (fun y hy hq => hmono y (List.mem_cons_of_mem a hy) hq) hxt
        rw [hqa]
        cases p a <;> simp <;> omega

theorem countP_range_one (n x : Nat) (hx : x < n) :
    (List.range n).countP (fun i => i == x) = 1 :=
  List.count_eq_one_of_mem (List.nodup_range n) (List.mem_range.mpr hx)

theorem countP_or_disjoint (l : List Nat) (p q : Nat → Bool)
    (h : ∀ a ∈ l, ¬(p a = true ∧ q a = true)) :
    l.countP (fun a => p a || q a) = l.countP p + l.countP q := by
  induction l with
  | nil => simp
  | cons a t ih =>
    rw [List.countP_cons, List.countP_cons, List.countP_cons]
    have ht := ih (fun x hx => h x (List.mem_cons_of_mem a hx))
    have ha := h a (List.mem_cons_self a t)
    cases hp : p a <;> cases hq : q a <;> simp [hp, hq] at ha ⊢ <;> omega

theorem countP_range_contains (n : Nat) (l : List Nat) (nd : l.Nodup)
    (hb : ∀ x ∈ l, x < n) :
    (List.range n).countP (fun i => l.contains i) = l.length := by
  induction l with
  | nil => simp [List.contains]
  | cons a t ih =>
    have hstep : (List.range n).countP (fun i => (a :: t).contains i) =
        (List.range n).countP (fun i => (i == a) || t.contains i) := rfl
    have hdisj : ∀ i ∈ List.range n, ¬((i == a) = true ∧ t.contains i = true) := by
      intro i _ hcon
      have h1 : i = a := by simpa using hcon.1
      subst h1
      exact (List.nodup_cons.mp nd).1 ((contains_iff_mem t i).mp hcon.2)
    rw [hstep, countP_or_disjoint _ _ _ hdisj,
      countP_range_one n a (hb a (List.mem_cons_self a t)),
      ih (List.nodup_cons.mp nd).2 (fun x hx => hb x (List.mem_cons_of_mem a hx))]
    simp [Nat.add_comm]

theorem getD_out {α : Type} (l : List α) (i : Nat) (d : α) (h : l.length ≤ i) :
    l.getD i d = d := by
  show (l.get? i).getD d = d
  rw [List.get?_eq_none.mpr h]
  rfl

theorem getD_map_range_poly {α : Type} (n i : Nat) (f : Nat → α) (d : α) (h : i < n) :
    ((List.range n).map f).getD i d = f i := by
  show (((List.range n).map f).get? i).getD d = f i
  rw [List.get?_map, List.get?_range h]
  rfl

/-! ### Claim C8: the open contract -/

/-- C8: open(idx) returns true exactly when status[idx] = HIDDEN and
mines[idx] = true, in which case status[idx] becomes OPENED; whenever
status[idx] is not HIDDEN (already opened, flagged, or out of range), open
returns false and leaves the whole board unchanged. -/
theorem openCell_contract (b : Board) (idx : Nat) :
    ((b.openCell idx).2 = true ↔
      (statusIs b idx .HIDDEN = true ∧ mineAt b idx = true)) ∧
    (statusIs b idx .HIDDEN = false → b.openCell idx = (b, false)) ∧
    ((b.openCell idx).2 = true → statusIs (b.openCell idx).1 idx .OPENED = true) := by
  unfold Board.openCell
  by_cases h1 : statusIs b idx .HIDDEN = false
  · rw [openGo]
    simp [h1]
  · have h1t : statusIs b idx .HIDDEN = true := by
      cases h : statusIs b idx .HIDDEN
      · exact absurd h h1
      · rfl
    have hlt : idx < b.status.length := statusIs_lt b idx .HIDDEN h1t
    by_cases h2 : mineAt b idx = true
    · rw [openGo]
      simp [h1, h1t, h2]
      rw [statusIs_iff]
      show (b.status.set idx CellStatus.OPENED).get? idx = some CellStatus.OPENED
      exact List.get?_set_eq_of_lt _ hlt
    · rw [openGo]
      by_cases h3 : countAt b idx = 0 <;> simp [h1, h1t, h2, h3]

/-- Witness for C8 at a concrete board. -/
theorem openCell_contract_witness :
    (let b : Board := ⟨Topology.build 2 1 .SQUARE, [true, false], [.HIDDEN, .OPENED], [-1, 1]⟩
     ((b.openCell 0).2 = true ↔ (statusIs b 0 .HIDDEN = true ∧ mineAt b 0 = true)) ∧
     (statusIs b 0 .HIDDEN = false → b.openCell 0 = (b, false)) ∧
     ((b.openCell 0).2 = true → statusIs (b.openCell 0).1 0 .OPENED = true)) :=
  openCell_contract ⟨Topology.build 2 1 .SQUARE, [true, false], [.HIDDEN, .OPENED], [-1, 1]⟩ 0

/-! ### Claim C4: the Tier 2 contradiction rule -/

/-- C4 counterexample: a solver state with U empty and
r = totalMines - knownMines.size = -1 < 0 on which solveGlobalLogic keeps
isValidState = true, because the source returns early when
unknownCells.length === 0, before the contradiction check. -/
theorem solveGlobalLogic_empty_cex :
    let b : Board := ⟨Topology.build 1 1 .SQUARE, [false], [.OPENED], [0]⟩
    let s : Solver := ⟨b, [0], [], true, 0⟩
    ((List.range (s.board.topo.width * s.board.topo.height)).filter (fun i =>
        statusIs s.board i .HIDDEN ∧ s.knownSafe.contains i = false ∧
          s.knownMines.contains i = false)).length = 0 ∧
    s.totalMines - (s.knownMines.length : Int) < 0 ∧
    s.solveGlobalLogic.1.isValidState = true ∧
    s.solveGlobalLogic = (s, false) := by
  decide

/-- C4 amended: solveGlobalLogic sets isValidState to false whenever the
set U of unknown hidden cells is nonempty and r < 0 or r > |U|; when U is
empty it returns false with no state change, even when r < 0. -/
theorem solveGlobalLogic_contradiction (s : Solver) :
    (((List.range (s.board.topo.width * s.board.topo.height)).filter (fun i =>
        statusIs s.board i .HIDDEN ∧ s.knownSafe.contains i = false ∧
          s.knownMines.contains i = false)).length = 0 →
      s.solveGlobalLogic = (s, false)) ∧
    (((List.range (s.board.topo.width * s.board.topo.height)).filter (fun i =>
        statusIs s.board i .HIDDEN ∧ s.knownSafe.contains i = false ∧
          s.knownMines.contains i = false)).length ≠ 0 →
      (s.totalMines - (s.knownMines.length : Int) < 0 ∨
        s.totalMines - (s.knownMines.length : Int) >
          ((((List.range (s.board.topo.width * s.board.topo.height)).filter (fun i =>
            statusIs s.board i .HIDDEN ∧ s.knownSafe.contains i = false ∧
              s.knownMines.contains i = false)).length : Nat) : Int)) →
      s.solveGlobalLogic.1.isValidState = false ∧ s.solveGlobalLogic.2 = false) := by
  constructor
  · intro h
    unfold Solver.solveGlobalLogic
    simp only [h]
    simp
  · intro h1 h2
    unfold Solver.solveGlobalLogic
    simp only [if_neg h1, if_pos h2]
    simp

/-- Witness for C4 at a concrete solver state (one hidden unknown cell and
totalMines = 5, so r = 5 > 1 = number of unknowns: contradiction is set). -/
theorem solveGlobalLogic_contradiction_witness :
    (((List.range 1).filter (fun i =>
        statusIs (⟨Topology.build 1 1 .SQUARE, [false], [.HIDDEN], [0]⟩ : Board) i .HIDDEN ∧
          ([] : List Nat).contains i = false ∧ ([] : List Nat).contains i = false)).length ≠ 0) ∧
    ((Solver.new (⟨Topology.build 1 1 .SQUARE, [false], [.HIDDEN], [0]⟩ : Board) 5).solveGlobalLogic.1.isValidState = false ∧
      (Solver.new (⟨Topology.build 1 1 .SQUARE, [false], [.HIDDEN], [0]⟩ : Board) 5).solveGlobalLogic.2 = false) := by
  constructor
  · decide
  · exact (solveGlobalLogic_contradiction
      (Solver.new (⟨Topology.build 1 1 .SQUARE, [false], [.HIDDEN], [0]⟩ : Board) 5)).2
      (by decide) (by decide)

/-! ### placeMines lemmas -/

theorem cleared_getD (l : List Bool) (j : Nat) :
    (l.map (fun _ => false)).getD j false = false := by
  show ((l.map (fun _ => false)).get? j).getD false = false
  rw [List.get?_map]
  cases l.get? j <;> rfl

theorem placeMinesLoop_safe (mc : Nat) (sz : List Nat) (rng : Nat → Nat) :
    ∀ rem k placed mines,
      (∀ j, sz.contains j = true → mines.getD j false = false) →
      ∀ j, sz.contains j = true →
        (placeMinesLoop mc sz rng rem k placed mines).1.getD j false = false := by
  intro rem
  induction rem with
  | zero => intro k placed mines hinv j hj; exact hinv j hj
  | succ rem ih =>
    intro k placed mines hinv j hj
    rw [placeMinesLoop]
    by_cases hp : placed < mc
    · simp only [if_pos hp]
      by_cases hc : mines.getD (rng k) false = false ∧ sz.contains (rng k) = false
      · simp only [if_pos hc]
        apply ih
        · intro j2 hj2
          have hne : rng k ≠ j2 := by
            intro hh
            rw [hh] at hc
            rw [hj2] at hc
            exact absurd hc.2 (by simp)
          rw [getD_set_ne_bool _ _ _ _ _ hne]
          exact hinv j2 hj2
        · exact hj
      · simp only [if_neg hc]
        exact ih k.succ placed mines hinv j hj
    · simp only [if_neg hp]
      exact hinv j hj

theorem placeMinesLoop_length (mc : Nat) (sz : List Nat) (rng : Nat → Nat) :
    ∀ rem k placed mines,
      (placeMinesLoop mc sz rng rem k placed mines).1.length = mines.length := by
  intro rem
  induction rem with
  | zero => intro k placed mines; rfl
  | succ rem ih =>
    intro k placed mines
    rw [placeMinesLoop]
    by_cases hp : placed < mc
    · simp only [if_pos hp]
      by_cases hc : mines.getD (rng k) false = false ∧ sz.contains (rng k) = false
      · simp only [if_pos hc]
        rw [ih]
        exact List.length_set mines (rng k) true
      · simp only [if_neg hc]
        exact ih k.succ placed mines
    · simp only [if_neg hp]

theorem countP_set_true (l : List Bool) :
    ∀ i, l.getD i false = false → i < l.length →
      (l.set i true).countP (fun x => x) = l.countP (fun x => x) + 1 := by
  induction l with
  | nil => intro i _ hlt; cases hlt
  | cons a t ih =>
    intro i hget hlt
    cases i with
    | zero =>
      have ha : a = false := hget
      subst ha
      simp [List.countP_cons]
    | succ i =>
      have hg : t.getD i false = false := hget
      have hl : i < t.length := Nat.lt_of_succ_lt_succ hlt
      show (a :: t.set i true).countP (fun x => x) = (a :: t).countP (fun x => x) + 1
      rw [List.countP_cons, List.countP_cons, ih i hg hl]
      omega

theorem placeMinesLoop_count (mc : Nat) (sz : List Nat) (rng : Nat → Nat) (L : Nat)
    (hrng : ∀ kk, rng kk < L) :
    ∀ rem k placed mines, mines.length = L →
      (placeMinesLoop mc sz rng rem k placed mines).1.countP (fun x => x) + placed =
        mines.countP (fun x => x) + (placeMinesLoop mc sz rng rem k placed mines).2.1 := by
  intro rem
  induction rem with
  | zero => intro k placed mines _; rfl
  | succ rem ih =>
    intro k placed mines hlen
    rw [placeMinesLoop]
    by_cases hp : placed < mc
    · simp only [if_pos hp]
      by_cases hc : mines.getD (rng k) false = false ∧ sz.contains (rng k) = false
      · simp only [if_pos hc]
        have hset : (mines.set (rng k) true).countP (fun x => x) =
            mines.countP (fun x => x) + 1 :=
          countP_set_true mines (rng k) hc.1 (hlen ▸ hrng k)
        have := ih (k+1) (placed+1) (mines.set (rng k) true)
          (by rw [List.length_set]; exact hlen)
        rw [hset] at this
        omega
      · simp only [if_neg hc]
        exact ih (k+1) placed mines hlen
    · simp only [if_neg hp]

theorem placeMinesLoop_placed_le (mc : Nat) (sz : List Nat) (rng : Nat → Nat) :
    ∀ rem k placed mines, placed ≤ mc →
      (placeMinesLoop mc sz rng rem k placed mines).2.1 ≤ mc := by
  intro rem
  induction rem with
  | zero => intro k placed mines h; exact h
  | succ rem ih =>
    intro k placed mines h
    rw [placeMinesLoop]
    by_cases hp : placed < mc
    · simp only [if_pos hp]
      by_cases hc : mines.getD (rng k) false = false ∧ sz.contains (rng k) = false
      · simp only [if_pos hc]
        exact ih k.succ (placed+1) _ hp
      · simp only [if_neg hc]
        exact ih k.succ placed mines h
    · simp only [if_neg hp]
      exact h

theorem placeMinesLoop_exhaust (mc : Nat) (sz : List Nat) (rng : Nat → Nat) :
    ∀ rem k placed mines,
      (placeMinesLoop mc sz rng rem k placed mines).2.1 < mc →
      (placeMinesLoop mc sz rng rem k placed mines).2.2 = 0 := by
  intro rem
  induction rem with
  | zero => intro k placed mines _; rfl
  | succ rem ih =>
    intro k placed mines h
    rw [placeMinesLoop] at h ⊢
    by_cases hp : placed < mc
    · simp only [if_pos hp] at h ⊢
      by_cases hc : mines.getD (rng k) false = false ∧ sz.contains (rng k) = false
      · simp only [if_pos hc] at h ⊢
        exact ih k.succ (placed+1) _ h
      · simp only [if_neg hc] at h ⊢
        exact ih k.succ placed mines h
    · simp only [if_neg hp] at h ⊢
      exact absurd h hp

theorem countP_range_getD (l : List Bool) :
    (List.range l.length).countP (fun i => l.getD i false) = l.countP (fun x => x) := by
  induction l with
  | nil => simp
  | cons a t ih =>
    show (List.range (t.length + 1)).countP (fun i => (a :: t).getD i false) = _
    rw [List.range_succ_eq_map, List.countP_cons, List.countP_map, List.countP_cons]
    have hcongr : (List.range t.length).countP ((fun i => (a :: t).getD i false) ∘ Nat.succ) =
        (List.range t.length).countP (fun i => t.getD i false) := by
      apply countP_congr_mem
      intro x _
      rfl
    rw [hcongr, ih]
    rfl

theorem getNeighbors_build (w h : Nat) (ty : TopologyType) (i : Nat) (hi : i < w * h) :
    (Topology.build w h ty).getNeighbors i = buildNeighbors ty w h i := by
  show ((List.range (w * h)).map (buildNeighbors ty w h)).getD i [] = _
  exact getD_map_range_poly (w * h) i (buildNeighbors ty w h) [] hi

theorem getNeighbors_build_len_le (w h : Nat) (ty : TopologyType) (i : Nat) :
    ((Topology.build w h ty).getNeighbors i).length ≤ 8 := by
  by_cases hi : i < w * h
  · rw [getNeighbors_build w h ty i hi]
    calc (buildNeighbors ty w h i).length
        ≤ offsetList.length := List.length_filterMap_le _ _
      _ = 8 := rfl
  · have : (Topology.build w h ty).getNeighbors i = [] := by
      show ((List.range (w * h)).map (buildNeighbors ty w h)).getD i [] = []
      apply getD_out
      simp [Nat.not_lt.mp hi]
    rw [this]
    simp

/-! ### Claim C6: safe first click -/

/-- C6: immediately after placeMines(mineCount, startIndex) under the
capacity precondition, the start cell and each of its neighbours carry no
mine (they form the safe zone skipped by the placement loop). -/
theorem placeMines_safe_first_click (b : Board) (mineCount startIndex : Nat)
    (rng : Nat → Nat)
    (hcap : mineCount ≤ b.size - (startIndex :: b.topo.getNeighbors startIndex).dedup.length) :
    mineAt (b.placeMines mineCount startIndex rng) startIndex = false ∧
    ∀ n ∈ b.topo.getNeighbors startIndex,
      mineAt (b.placeMines mineCount startIndex rng) n = false := by
  have key : ∀ j, (startIndex :: b.topo.getNeighbors startIndex).contains j = true →
      mineAt (b.placeMines mineCount startIndex rng) j = false := by
    intro j hj
    show ((placeMinesLoop mineCount (startIndex :: b.topo.getNeighbors startIndex) rng
      (b.size * 20) 0 0 (b.mines.map (fun _ => false))).1).getD j false = false
    apply placeMinesLoop_safe
    · intro j2 _
      exact cleared_getD b.mines j2
    · exact hj
  constructor
  · exact key startIndex ((contains_iff_mem _ _).mpr (List.mem_cons_self _ _))
  · intro n hn
    exact key n ((contains_iff_mem _ _).mpr (List.mem_cons_of_mem _ hn))

/-- Witness for C6 on a concrete 3x3 board, first click in the corner. -/
theorem placeMines_safe_first_click_witness :
    (let b := Board.new (Topology.build 3 3 .SQUARE)
     (1 ≤ b.size - (0 :: b.topo.getNeighbors 0).dedup.length) ∧
     (mineAt (b.placeMines 1 0 (fun _ => 8)) 0 = false ∧
      ∀ n ∈ b.topo.getNeighbors 0, mineAt (b.placeMines 1 0 (fun _ => 8)) n = false)) :=
  ⟨by decide,
    placeMines_safe_first_click (Board.new (Topology.build 3 3 .SQUARE)) 1 0
      (fun _ => 8) (by decide)⟩

/-! ### Claim C7: neighbour-count consistency -/

/-- C7: after placeMines completes, every mine cell stores the count -1 and
every non-mine cell stores the number of adjacency-list entries that carry
a mine, a value between 0 and 8. -/
theorem placeMines_counts (w h : Nat) (ty : TopologyType) (b : Board)
    (mineCount startIndex : Nat) (rng : Nat → Nat)
    (htopo : b.topo = Topology.build w h ty) (hlen : b.mines.length = b.size) :
    ∀ i < (b.placeMines mineCount startIndex rng).size,
      (mineAt (b.placeMines mineCount startIndex rng) i = true →
        countAt (b.placeMines mineCount startIndex rng) i = -1) ∧
      (mineAt (b.placeMines mineCount startIndex rng) i = false →
        countAt (b.placeMines mineCount startIndex rng) i =
          (((b.placeMines mineCount startIndex rng).topo.getNeighbors i).countP
            (fun n => mineAt (b.placeMines mineCount startIndex rng) n) : Int) ∧
        0 ≤ countAt (b.placeMines mineCount startIndex rng) i ∧
        countAt (b.placeMines mineCount startIndex rng) i ≤ 8) := by
  intro i hi
  set m : List Bool := (placeMinesLoop mineCount
    (startIndex :: b.topo.getNeighbors startIndex) rng (b.size * 20) 0 0
    (b.mines.map (fun _ => false))).1 with hm
  have hmlen : m.length = b.size := by
    rw [hm, placeMinesLoop_length, List.length_map]
    exact hlen
  have hb2 : b.placeMines mineCount startIndex rng =
      Board.calcNumbers { b with mines := m } := rfl
  have hsz : (b.placeMines mineCount startIndex rng).size = b.size := rfl
  rw [hsz] at hi
  have hcount : countAt (b.placeMines mineCount startIndex rng) i =
      (if m.getD i false then (-1 : Int)
        else (((b.topo.getNeighbors i)).countP (fun n => m.getD n false) : Int)) := by
    rw [hb2]
    show ((List.range m.length).map _).getD i (-2) = _
    rw [getD_map_range (m.length) i _ (-2) (by rw [hmlen]; exact hi)]
  have hmine : mineAt (b.placeMines mineCount startIndex rng) = fun j => m.getD j false := rfl
  constructor
  · intro hmt
    rw [hcount, if_pos (by rw [hmine] at hmt; exact hmt)]
  · intro hmf
    rw [hmine] at hmf
    have hmf2 : m.getD i false = false := hmf
    refine ⟨?_, ?_, ?_⟩
    · rw [hcount, if_neg (by rw [hmf2]; simp)]
      rfl
    · rw [hcount, if_neg (by rw [hmf2]; simp)]
      exact Int.ofNat_nonneg _
    · rw [hcount, if_neg (by rw [hmf2]; simp)]
      have h8 : ((b.topo.getNeighbors i)).length ≤ 8 := by
        rw [htopo]
        exact getNeighbors_build_len_le w h ty i
      have := List.countP_le_length (fun n => m.getD n false) (l := b.topo.getNeighbors i)
      omega

/-- Witness for C7 on a concrete 3x3 board with one mine placed. -/
theorem placeMines_counts_witness :
    (let b := Board.new (Topology.build 3 3 .SQUARE)
     ∀ i < (b.placeMines 1 4 (fun _ => 8)).size,
      (mineAt (b.placeMines 1 4 (fun _ => 8)) i = true →
        countAt (b.placeMines 1 4 (fun _ => 8)) i = -1) ∧
      (mineAt (b.placeMines 1 4 (fun _ => 8)) i = false →
        countAt (b.placeMines 1 4 (fun _ => 8)) i =
          (((b.placeMines 1 4 (fun _ => 8)).topo.getNeighbors i).countP
            (fun n => mineAt (b.placeMines 1 4 (fun _ => 8)) n) : Int) ∧
        0 ≤ countAt (b.placeMines 1 4 (fun _ => 8)) i ∧
        countAt (b.placeMines 1 4 (fun _ => 8)) i ≤ 8)) :=
  placeMines_counts 3 3 .SQUARE (Board.new (Topology.build 3 3 .SQUARE)) 1 4
    (fun _ => 8) rfl (by decide)

/-! ### Claim C3: placeMines bounded-attempt behaviour -/

set_option maxRecDepth 10000 in
/-- C3 counterexample: on a 3x3 SQUARE board with the capacity precondition
satisfied (capacity 5, mineCount 1) and a draw stream that always hits the
safe zone, placeMines exhausts all 20 * 9 = 180 draws and returns normally
with 0 of the requested 1 mines placed; no PlacementInfeasible error exists
in the code. -/
theorem placeMines_no_error_cex :
    (let b := Board.new (Topology.build 3 3 .SQUARE)
     (1 ≤ b.size - (0 :: b.topo.getNeighbors 0).dedup.length) ∧
     (b.placeMinesFull 1 0 (fun _ => 0)).2.1 = 0 ∧
     (b.placeMinesFull 1 0 (fun _ => 0)).2.2 = 0 ∧
     minesTotal (b.placeMinesFull 1 0 (fun _ => 0)).1 = 0 ∧
     (0 : Nat) ≠ 1) := by
  decide

/-- C3 amended: placeMines never signals an error.  It places at most
mineCount mines, every placed mine is a distinct cell outside the safe
zone, the number of true cells equals the reported placed count, and
whenever it returns with fewer than mineCount mines placed it has
exhausted every one of its 20 * W * H draws. -/
theorem placeMines_amended (b : Board) (mineCount startIndex : Nat)
    (rng : Nat → Nat) (hlen : b.mines.length = b.size)
    (hrng : ∀ k, rng k < b.size) :
    (b.placeMinesFull mineCount startIndex rng).2.1 ≤ mineCount ∧
    minesTotal (b.placeMinesFull mineCount startIndex rng).1 =
      (b.placeMinesFull mineCount startIndex rng).2.1 ∧
    (∀ j, (startIndex :: b.topo.getNeighbors startIndex).contains j = true →
      mineAt (b.placeMinesFull mineCount startIndex rng).1 j = false) ∧
    ((b.placeMinesFull mineCount startIndex rng).2.1 < mineCount →
      (b.placeMinesFull mineCount startIndex rng).2.2 = 0) := by
  set sz := startIndex :: b.topo.getNeighbors startIndex with hsz
  set cleared : List Bool := b.mines.map (fun _ => false) with hcl
  have hclen : cleared.length = b.size := by
    rw [hcl, List.length_map]; exact hlen
  have hr1len : (placeMinesLoop mineCount sz rng (b.size * 20) 0 0 cleared).1.length = b.size := by
    rw [placeMinesLoop_length]; exact hclen
  refine ⟨?_, ?_, ?_, ?_⟩
  · exact placeMinesLoop_placed_le mineCount sz rng (b.size * 20) 0 0 cleared
      (Nat.zero_le _)
  · show (List.range (Board.calcNumbers _).size).countP _ = _
    have hcc : cleared.countP (fun x => x) = 0 := by
      rw [List.countP_eq_zero]
      intro a ha
      rcases List.mem_map.mp ha with ⟨x, _, hx⟩
      simp [hx.symm]
    have hcnt := placeMinesLoop_count mineCount sz rng b.size hrng (b.size * 20) 0 0
      cleared hclen
    rw [hcc] at hcnt
    have hrange : (List.range b.size).countP
        (fun i => (placeMinesLoop mineCount sz rng (b.size * 20) 0 0 cleared).1.getD i false) =
        (placeMinesLoop mineCount sz rng (b.size * 20) 0 0 cleared).1.countP (fun x => x) := by
      have := countP_range_getD (placeMinesLoop mineCount sz rng (b.size * 20) 0 0 cleared).1
      rw [hr1len] at this
      exact this
    calc (List.range (Board.calcNumbers { b with mines :=
          (placeMinesLoop mineCount sz rng (b.size * 20) 0 0 cleared).1 }).size).countP
          (fun i => mineAt (b.placeMinesFull mineCount startIndex rng).1 i)
        = (List.range b.size).countP
          (fun i => (placeMinesLoop mineCount sz rng (b.size * 20) 0 0 cleared).1.getD i false) := rfl
      _ = (placeMinesLoop mineCount sz rng (b.size * 20) 0 0 cleared).1.countP (fun x => x) := hrange
      _ = (placeMinesLoop mineCount sz rng (b.size * 20) 0 0 cleared).2.1 := by omega
  · intro j hj
    show (placeMinesLoop mineCount sz rng (b.size * 20) 0 0 cleared).1.getD j false = false
    apply placeMinesLoop_safe
    · intro j2 _
      exact cleared_getD b.mines j2
    · exact hj
  · intro hless
    exact placeMinesLoop_exhaust mineCount sz rng (b.size * 20) 0 0 cleared hless

/-- Witness for C3 amended on a concrete 3x3 board that succeeds. -/
theorem placeMines_amended_witness :
    (let b := Board.new (Topology.build 3 3 .SQUARE)
     (b.placeMinesFull 2 0 (fun k => 2 * k % 9)).2.1 ≤ 2 ∧
     minesTotal (b.placeMinesFull 2 0 (fun k => 2 * k % 9)).1 =
       (b.placeMinesFull 2 0 (fun k => 2 * k % 9)).2.1 ∧
     (∀ j, (0 :: b.topo.getNeighbors 0).contains j = true →
       mineAt (b.placeMinesFull 2 0 (fun k => 2 * k % 9)).1 j = false) ∧
     ((b.placeMinesFull 2 0 (fun k => 2 * k % 9)).2.1 < 2 →
       (b.placeMinesFull 2 0 (fun k => 2 * k % 9)).2.2 = 0)) :=
  placeMines_amended (Board.new (Topology.build 3 3 .SQUARE)) 2 0
    (fun k => 2 * k % 9) (by decide) (fun k => Nat.mod_lt _ (by decide))

/-! ### Claim C10: the deduction tiers never read the mine array -/

theorem withMines_board (s : Solver) (m : List Bool) :
    (s.withMines m).board = s.board.withMines m := rfl

theorem statusIs_withMines (b : Board) (m : List Bool) (i : Nat) (st : CellStatus) :
    statusIs (b.withMines m) i st = statusIs b i st := rfl

theorem countAt_withMines (b : Board) (m : List Bool) (i : Nat) :
    countAt (b.withMines m) i = countAt b i := rfl

theorem withMines_knownMines (s : Solver) (m : List Bool) :
    (s.withMines m).knownMines = s.knownMines := rfl

theorem withMines_knownSafe (s : Solver) (m : List Bool) :
    (s.withMines m).knownSafe = s.knownSafe := rfl

theorem withMines_isValidState (s : Solver) (m : List Bool) :
    (s.withMines m).isValidState = s.isValidState := rfl

theorem withMines_totalMines (s : Solver) (m : List Bool) :
    (s.withMines m).totalMines = s.totalMines := rfl

theorem withMines_topo (s : Solver) (m : List Bool) :
    (s.withMines m).board.topo = s.board.topo := rfl

theorem withMines_statusIs (s : Solver) (m : List Bool) (i : Nat) (st : CellStatus) :
    statusIs (s.withMines m).board i st = statusIs s.board i st := rfl

theorem withMines_countAt (s : Solver) (m : List Bool) (i : Nat) :
    countAt (s.withMines m).board i = countAt s.board i := rfl

theorem withMines_update_sets (s : Solver) (m : List Bool) (x y : List Nat) :
    ({ s.withMines m with knownMines := x, knownSafe := y } : Solver) =
      ({ s with knownMines := x, knownSafe := y } : Solver).withMines m := rfl

theorem withMines_update_km (s : Solver) (m : List Bool) (x : List Nat) :
    ({ s.withMines m with knownMines := x } : Solver) =
      ({ s with knownMines := x } : Solver).withMines m := rfl

theorem withMines_update_ks (s : Solver) (m : List Bool) (y : List Nat) :
    ({ s.withMines m with knownSafe := y } : Solver) =
      ({ s with knownSafe := y } : Solver).withMines m := rfl

theorem withMines_update_invalid (s : Solver) (m : List Bool) :
    ({ s.withMines m with isValidState := false } : Solver) =
      ({ s with isValidState := false } : Solver).withMines m := rfl

theorem basicStepGo_withMines (m : List Bool) :
    ∀ (l : List Nat) (s : Solver) (changed : Bool),
      basicStepGo (s.withMines m) changed l =
        ((basicStepGo s changed l).1.withMines m, (basicStepGo s changed l).2) := by
  intro l
  induction l with
  | nil => intro s changed; rfl
  | cons i rest ih =>
    intro s changed
    simp only [basicStepGo]
    simp only [withMines_statusIs, withMines_countAt, withMines_topo,
      withMines_knownMines, withMines_knownSafe, withMines_update_sets,
      withMines_update_invalid]
    split_ifs <;> first | rfl | exact ih _ _

theorem fromSnapshot_withMines (s : Solver) (m : List Bool) :
    (s.withMines m).fromSnapshot = s.fromSnapshot.withMines m := rfl

theorem solveBasicStep_withMines (s : Solver) (m : List Bool) :
    (s.withMines m).solveBasicStep =
      (s.solveBasicStep.1.withMines m, s.solveBasicStep.2) := by
  show basicStepGo (s.withMines m) false
      (List.range ((s.withMines m).board.topo.width * (s.withMines m).board.topo.height)) = _
  rw [withMines_topo]
  exact basicStepGo_withMines m _ s false

theorem solveGlobalLogic_withMines (s : Solver) (m : List Bool) :
    (s.withMines m).solveGlobalLogic =
      (s.solveGlobalLogic.1.withMines m, s.solveGlobalLogic.2) := by
  simp only [Solver.solveGlobalLogic]
  simp only [withMines_statusIs, withMines_topo, withMines_knownMines,
    withMines_knownSafe, withMines_totalMines, withMines_update_invalid,
    withMines_update_km, withMines_update_ks]
  split_ifs <;> rfl

theorem frontier_withMines (s : Solver) (m : List Bool) :
    (s.withMines m).frontier = s.frontier := by
  simp only [Solver.frontier]
  simp only [withMines_statusIs, withMines_topo, withMines_knownMines,
    withMines_knownSafe, withMines_countAt]

theorem simLoop_withMines (m : List Bool) :
    ∀ (fuel : Nat) (s : Solver),
      simLoop fuel (s.withMines m) = (simLoop fuel s).withMines m := by
  intro fuel
  induction fuel with
  | zero => intro s; rfl
  | succ fuel ih =>
    intro s
    simp only [simLoop]
    rw [withMines_isValidState]
    by_cases hv : s.isValidState = true
    · simp only [if_pos hv, solveBasicStep_withMines]
      by_cases h1 : s.solveBasicStep.2 = true
      · simp only [h1, if_pos trivial, solveGlobalLogic_withMines]
        by_cases h2 : s.solveBasicStep.1.solveGlobalLogic.2 = true
        · simp only [h2, if_pos trivial]
          exact ih _
        · simp only [eq_self_iff_true, h2]
          simp [h2]
      · simp only [h1]
        simp [h1]
    · simp only [if_neg hv]

theorem deepGo_withMines (m : List Bool) (fuel : Nat) :
    ∀ (l : List Nat) (s : Solver) (changed : Bool),
      deepGo fuel (s.withMines m) changed l =
        ((deepGo fuel s changed l).1.withMines m, (deepGo fuel s changed l).2) := by
  intro l
  induction l with
  | nil => intro s changed; rfl
  | cons t rest ih =>
    intro s changed
    simp only [deepGo]
    have e1 : ({ (s.withMines m).fromSnapshot with
        knownMines := sAdd (s.withMines m).fromSnapshot.knownMines t } : Solver) =
        ({ s.fromSnapshot with
          knownMines := sAdd s.fromSnapshot.knownMines t } : Solver).withMines m := rfl
    rw [e1, simLoop_withMines, withMines_isValidState, withMines_knownSafe]
    by_cases c1 : (simLoop fuel { s.fromSnapshot with
        knownMines := sAdd s.fromSnapshot.knownMines t }).isValidState = false ∧
        s.knownSafe.contains t = false
    · rw [if_pos c1, if_pos c1]
      exact ih ({ s with knownSafe := sAdd s.knownSafe t } : Solver) true
    · rw [if_neg c1, if_neg c1]
      have e3 : ({ (s.withMines m).fromSnapshot with
          knownSafe := sAdd (s.withMines m).fromSnapshot.knownSafe t } : Solver) =
          ({ s.fromSnapshot with
            knownSafe := sAdd s.fromSnapshot.knownSafe t } : Solver).withMines m := rfl
      rw [e3, simLoop_withMines, withMines_isValidState, withMines_knownMines]
      by_cases c2 : (simLoop fuel { s.fromSnapshot with
          knownSafe := sAdd s.fromSnapshot.knownSafe t }).isValidState = false ∧
          s.knownMines.contains t = false
      · rw [if_pos c2, if_pos c2]
        exact ih ({ s with knownMines := sAdd s.knownMines t } : Solver) true
      · rw [if_neg c2, if_neg c2]
        exact ih s changed

theorem solveDeepLogic_withMines (s : Solver) (m : List Bool) :
    (s.withMines m).solveDeepLogic =
      (s.solveDeepLogic.1.withMines m, s.solveDeepLogic.2) := by
  show deepGo (2 * ((s.withMines m).board.topo.width * (s.withMines m).board.topo.height) + 2)
      (s.withMines m) false (s.withMines m).frontier = _
  rw [withMines_topo, frontier_withMines]
  exact deepGo_withMines m _ s.frontier s false

/-- C10: mine-array noninterference of the deduction tiers.  Two solver
states over boards that agree on topology, status and neighbour counts but
carry arbitrary mine arrays, with equal knownMines, knownSafe,
isValidState and totalMines, produce identical knownMines, knownSafe,
isValidState and return values under solveBasicStep, solveGlobalLogic and
solveDeepLogic: the deduction logic never reads the mine array. -/
theorem solver_tiers_mines_noninterference (s1 s2 : Solver)
    (ht : s1.board.topo = s2.board.topo) (hs : s1.board.status = s2.board.status)
    (hc : s1.board.neighborMineCounts = s2.board.neighborMineCounts)
    (hkm : s1.knownMines = s2.knownMines) (hks : s1.knownSafe = s2.knownSafe)
    (hv : s1.isValidState = s2.isValidState) (htm : s1.totalMines = s2.totalMines) :
    (s1.solveBasicStep.1.knownMines = s2.solveBasicStep.1.knownMines ∧
     s1.solveBasicStep.1.knownSafe = s2.solveBasicStep.1.knownSafe ∧
     s1.solveBasicStep.1.isValidState = s2.solveBasicStep.1.isValidState ∧
     s1.solveBasicStep.2 = s2.solveBasicStep.2) ∧
    (s1.solveGlobalLogic.1.knownMines = s2.solveGlobalLogic.1.knownMines ∧
     s1.solveGlobalLogic.1.knownSafe = s2.solveGlobalLogic.1.knownSafe ∧
     s1.solveGlobalLogic.1.isValidState = s2.solveGlobalLogic.1.isValidState ∧
     s1.solveGlobalLogic.2 = s2.solveGlobalLogic.2) ∧
    (s1.solveDeepLogic.1.knownMines = s2.solveDeepLogic.1.knownMines ∧
     s1.solveDeepLogic.1.knownSafe = s2.solveDeepLogic.1.knownSafe ∧
     s1.solveDeepLogic.1.isValidState = s2.solveDeepLogic.1.isValidState ∧
     s1.solveDeepLogic.2 = s2.solveDeepLogic.2) := by
  have hb : s2 = s1.withMines s2.board.mines := by
    rcases s1 with ⟨⟨t1, m1, st1, c1⟩, km1, ks1, v1, tm1⟩
    rcases s2 with ⟨⟨t2, m2, st2, c2⟩, km2, ks2, v2, tm2⟩
    simp only at ht hs hc hkm hks hv htm
    simp [Solver.withMines, Board.withMines, ht, hs, hc, hkm, hks, hv, htm]
  rw [hb, solveBasicStep_withMines, solveGlobalLogic_withMines,
    solveDeepLogic_withMines]
  exact ⟨⟨rfl, rfl, rfl, rfl⟩, ⟨rfl, rfl, rfl, rfl⟩, ⟨rfl, rfl, rfl, rfl⟩⟩

/-- Witness for C10: two concrete 2x1 boards differing only in mines. -/
theorem solver_tiers_mines_noninterference_witness :
    (let s1 : Solver := Solver.new ⟨Topology.build 2 1 .SQUARE, [true, false], [.OPENED, .HIDDEN], [1, 1]⟩ 1
     let s2 : Solver := Solver.new ⟨Topology.build 2 1 .SQUARE, [false, true], [.OPENED, .HIDDEN], [1, 1]⟩ 1
     (s1.solveBasicStep.1.knownMines = s2.solveBasicStep.1.knownMines ∧
      s1.solveBasicStep.1.knownSafe = s2.solveBasicStep.1.knownSafe ∧
      s1.solveBasicStep.1.isValidState = s2.solveBasicStep.1.isValidState ∧
      s1.solveBasicStep.2 = s2.solveBasicStep.2) ∧
     (s1.solveGlobalLogic.1.knownMines = s2.solveGlobalLogic.1.knownMines ∧
      s1.solveGlobalLogic.1.knownSafe = s2.solveGlobalLogic.1.knownSafe ∧
      s1.solveGlobalLogic.1.isValidState = s2.solveGlobalLogic.1.isValidState ∧
      s1.solveGlobalLogic.2 = s2.solveGlobalLogic.2) ∧
     (s1.solveDeepLogic.1.knownMines = s2.solveDeepLogic.1.knownMines ∧
      s1.solveDeepLogic.1.knownSafe = s2.solveDeepLogic.1.knownSafe ∧
      s1.solveDeepLogic.1.isValidState = s2.solveDeepLogic.1.isValidState ∧
      s1.solveDeepLogic.2 = s2.solveDeepLogic.2)) :=
  solver_tiers_mines_noninterference
    (Solver.new ⟨Topology.build 2 1 .SQUARE, [true, false], [.OPENED, .HIDDEN], [1, 1]⟩ 1)
    (Solver.new ⟨Topology.build 2 1 .SQUARE, [false, true], [.OPENED, .HIDDEN], [1, 1]⟩ 1)
    rfl rfl rfl rfl rfl rfl rfl

/-! ### Claim C5: adjacency invariants -/

theorem filterMap_some_eq_map {α β : Type} (g : α → β) :
    ∀ l : List α, l.filterMap (fun a => some (g a)) = l.map g := by
  intro l
  induction l with
  | nil => rfl
  | cons a t ih => simp [List.filterMap_cons, ih]

theorem nodup_filterMap {α β : Type} (f : α → Option β) :
    ∀ l : List α, l.Nodup →
      (∀ a1 ∈ l, ∀ a2 ∈ l, ∀ b, f a1 = some b → f a2 = some b → a1 = a2) →
      (l.filterMap f).Nodup := by
  intro l
  induction l with
  | nil => intro _ _; simp
  | cons a t ih =>
    intro nd inj
    rw [List.filterMap_cons]
    cases hfa : f a with
    | none =>
      exact ih (List.nodup_cons.mp nd).2 (fun a1 h1 a2 h2 b e1 e2 =>
        inj a1 (List.mem_cons_of_mem a h1) a2 (List.mem_cons_of_mem a h2) b e1 e2)
    | some b =>
      rw [List.nodup_cons]
      constructor
      · intro hmem
        rcases List.mem_filterMap.mp hmem with ⟨a2, ha2, he⟩
        have ha : a = a2 :=
          inj a (List.mem_cons_self a t) a2 (List.mem_cons_of_mem a ha2) b hfa he
        rw [ha] at nd
        exact (List.nodup_cons.mp nd).1 ha2
      · exact ih (List.nodup_cons.mp nd).2 (fun a1 h1 a2 h2 bb e1 e2 =>
          inj a1 (List.mem_cons_of_mem a h1) a2 (List.mem_cons_of_mem a h2) bb e1 e2)

theorem offset_bounds : ∀ d ∈ offsetList,
    -1 ≤ d.1 ∧ d.1 ≤ 1 ∧ -1 ≤ d.2 ∧ d.2 ≤ 1 ∧ ¬(d.1 = 0 ∧ d.2 = 0) := by
  decide

theorem offsetList_nodup : offsetList.Nodup := by decide

theorem neg_mem_offsetList (d : Int × Int) (hd : d ∈ offsetList) :
    (-d.1, -d.2) ∈ offsetList := by
  simp only [offsetList] at hd
  rcases List.mem_cons.mp hd with h|hd <;>
    [skip; rcases List.mem_cons.mp hd with h|hd] <;>
    [skip; skip; rcases List.mem_cons.mp hd with h|hd] <;>
    [skip; skip; skip; rcases List.mem_cons.mp hd with h|hd] <;>
    [skip; skip; skip; skip; rcases List.mem_cons.mp hd with h|hd] <;>
    [skip; skip; skip; skip; skip; rcases List.mem_cons.mp hd with h|hd] <;>
    [skip; skip; skip; skip; skip; skip; rcases List.mem_cons.mp hd with h|hd] <;>
    [skip; skip; skip; skip; skip; skip; skip;
      rcases List.mem_cons.mp hd with h|hd] <;>
    first
      | (subst h; decide)
      | (simp only [List.not_mem_nil] at hd)

theorem int_pair_decomp (w nx1 ny1 nx2 ny2 : Int) (hw : 0 < w)
    (h1 : 0 ≤ nx1) (h2 : nx1 < w) (h3 : 0 ≤ nx2) (h4 : nx2 < w)
    (heq : ny1 * w + nx1 = ny2 * w + nx2) : nx1 = nx2 ∧ ny1 = ny2 := by
  have e1 : (ny1 * w + nx1) % w = nx1 := by
    rw [Int.add_comm, Int.mul_comm, Int.add_mul_emod_self_left,
      Int.emod_eq_of_lt h1 h2]
  have e2 : (ny2 * w + nx2) % w = nx2 := by
    rw [Int.add_comm, Int.mul_comm, Int.add_mul_emod_self_left,
      Int.emod_eq_of_lt h3 h4]
  have hx : nx1 = nx2 := by rw [← e1, ← e2, heq]
  refine ⟨hx, ?_⟩
  have hmul : ny1 * w = ny2 * w := by omega
  exact mul_right_cancel₀ (by omega) hmul

theorem emod_shift_inj (w x a b : Int) (hw : 3 ≤ w) (ha1 : -1 ≤ a) (ha2 : a ≤ 1)
    (hb1 : -1 ≤ b) (hb2 : b ≤ 1)
    (h : (x + a + w) % w = (x + b + w) % w) : a = b := by
  have h0 : ((x + a + w) - (x + b + w)) % w = 0 :=
    Int.emod_eq_emod_iff_emod_sub_eq_zero.mp h
  have h1 : (a - b) % w = 0 := by
    have e : (x + a + w) - (x + b + w) = a - b := by ring
    rw [e] at h0
    exact h0
  have hdvd : w ∣ (a - b) := Int.dvd_of_emod_eq_zero h1
  have habs : |a - b| < w := by
    rw [abs_lt]
    omega
  have := Int.eq_zero_of_abs_lt_dvd hdvd habs
  omega

theorem resolveNeighbor_torus (w h x y : Nat) (d : Int × Int) :
    resolveNeighbor .TORUS w h x y d =
      some (((((y:Int) + d.1 + h) % h) * w + (((x:Int) + d.2 + w) % w)).toNat) := rfl

theorem resolveNeighbor_square (w h x y : Nat) (d : Int × Int) :
    resolveNeighbor .SQUARE w h x y d =
      if (x:Int) + d.2 < 0 ∨ (w:Int) ≤ (x:Int) + d.2 ∨ (y:Int) + d.1 < 0 ∨
          (h:Int) ≤ (y:Int) + d.1 then none
      else some ((((y:Int) + d.1) * (w:Int) + ((x:Int) + d.2)).toNat) := rfl

theorem idx_toNat_facts (w hgt : Nat) (nx ny : Int) (hw : 0 < w)
    (h1 : 0 ≤ nx) (h2 : nx < w) (h3 : 0 ≤ ny) (h4 : ny < hgt) :
    (ny * w + nx).toNat < w * hgt ∧
    (((ny * w + nx).toNat : Nat) : Int) = ny * w + nx ∧
    ((((ny * w + nx).toNat % w : Nat)) : Int) = nx ∧
    ((((ny * w + nx).toNat / w : Nat)) : Int) = ny := by
  have hmn : 0 ≤ ny * w := mul_nonneg h3 (by omega)
  have hnn : 0 ≤ ny * w + nx := by omega
  have hcast : (((ny * w + nx).toNat : Nat) : Int) = ny * w + nx :=
    Int.toNat_of_nonneg hnn
  have hbig : ny * w + nx < (w : Int) * hgt := by
    have hstep : ny * w ≤ (hgt - 1) * w :=
      mul_le_mul_of_nonneg_right (by omega) (by omega)
    have : (hgt - 1 : Int) * w = hgt * w - w := by ring
    have hcomm : (w : Int) * hgt = hgt * w := by ring
    omega
  refine ⟨?_, hcast, ?_, ?_⟩
  · have := (Int.toNat_lt hnn).mpr (by push_cast; exact hbig)
    exact this
  · have e : ((((ny * w + nx).toNat % w : Nat)) : Int) =
        (((ny * w + nx).toNat : Nat) : Int) % (w : Int) := rfl
    rw [e, hcast, Int.add_comm, Int.mul_comm, Int.add_mul_emod_self_left,
      Int.emod_eq_of_lt h1 h2]
  · have e : ((((ny * w + nx).toNat / w : Nat)) : Int) =
        (((ny * w + nx).toNat : Nat) : Int) / (w : Int) := rfl
    rw [e, hcast, Int.add_comm]
    rw [Int.add_mul_ediv_right nx ny (by omega : (w:Int) ≠ 0)]
    rw [Int.ediv_eq_zero_of_lt h1 h2]
    omega

theorem getNeighbors_build_out (w hgt : Nat) (ty : TopologyType) (i : Nat)
    (hi : ¬ i < w * hgt) :
    (Topology.build w hgt ty).getNeighbors i = [] := by
  show ((List.range (w * hgt)).map (buildNeighbors ty w hgt)).getD i [] = []
  apply getD_out
  simp [Nat.not_lt.mp hi]

theorem mem_getNeighbors_build (w hgt : Nat) (ty : TopologyType) (i j : Nat)
    (hi : i < w * hgt) :
    (j ∈ (Topology.build w hgt ty).getNeighbors i ↔
      ∃ d ∈ offsetList, resolveNeighbor ty w hgt (i % w) (i / w) d = some j) := by
  rw [getNeighbors_build w hgt ty i hi]
  simp [buildNeighbors, List.mem_filterMap]

theorem toNat_inj_nonneg (a b : Int) (ha : 0 ≤ a) (hb : 0 ≤ b)
    (h : a.toNat = b.toNat) : a = b := by
  rw [← Int.toNat_of_nonneg ha, ← Int.toNat_of_nonneg hb, h]

theorem cell_coords (w hgt i : Nat) (hi : i < w * hgt) :
    0 < w ∧ 0 < hgt ∧ i % w < w ∧ i / w < hgt ∧ (i / w) * w + i % w = i := by
  have hw : 0 < w := by
    rcases Nat.eq_zero_or_pos w with rfl | hw
    · simp at hi
    · exact hw
  have hh : 0 < hgt := by
    rcases Nat.eq_zero_or_pos hgt with rfl | hh
    · simp at hi
    · exact hh
  refine ⟨hw, hh, Nat.mod_lt _ hw, ?_, ?_⟩
  · exact (Nat.div_lt_iff_lt_mul hw).mpr (by rw [Nat.mul_comm hgt w]; exact hi)
  · have hdm := Nat.div_add_mod i w
    rw [Nat.mul_comm (i / w) w]
    exact hdm

theorem mem_getNeighbors_build_lt (w hgt : Nat) (ty : TopologyType) (i j : Nat)
    (hj : j ∈ (Topology.build w hgt ty).getNeighbors i) : j < w * hgt := by
  by_cases hi : i < w * hgt
  · obtain ⟨hw, hh, hx, hy, hrec⟩ := cell_coords w hgt i hi
    rcases (mem_getNeighbors_build w hgt ty i j hi).mp hj with ⟨d, hd, hres⟩
    cases ty with
    | TORUS =>
      rw [resolveNeighbor_torus] at hres
      have h2 := Option.some.inj hres
      have hnx1 : 0 ≤ (((i % w : Nat):Int) + d.2 + w) % w :=
        Int.emod_nonneg _ (by omega)
      have hnx2 : (((i % w : Nat):Int) + d.2 + w) % w < w :=
        Int.emod_lt_of_pos _ (by omega)
      have hny1 : 0 ≤ (((i / w : Nat):Int) + d.1 + hgt) % hgt :=
        Int.emod_nonneg _ (by omega)
      have hny2 : (((i / w : Nat):Int) + d.1 + hgt) % hgt < hgt :=
        Int.emod_lt_of_pos _ (by omega)
      have := (idx_toNat_facts w hgt _ _ hw hnx1 hnx2 hny1 hny2).1
      rw [h2] at this
      exact this
    | SQUARE =>
      rw [resolveNeighbor_square] at hres
      by_cases hc : ((i % w : Nat):Int) + d.2 < 0 ∨ (w:Int) ≤ ((i % w : Nat):Int) + d.2 ∨
          ((i / w : Nat):Int) + d.1 < 0 ∨ (hgt:Int) ≤ ((i / w : Nat):Int) + d.1
      · rw [if_pos hc] at hres
        exact absurd hres (by simp)
      · rw [if_neg hc] at hres
        have h2 := Option.some.inj hres
        push_neg at hc
        have := (idx_toNat_facts w hgt (((i % w : Nat):Int) + d.2)
          (((i / w : Nat):Int) + d.1) hw (by omega) (by omega) (by omega) (by omega)).1
        rw [h2] at this
        exact this
  · rw [getNeighbors_build_out w hgt ty i hi] at hj
    cases hj

theorem adjWF_build (w hgt : Nat) (ty : TopologyType) :
    AdjWF (Topology.build w hgt ty) := by
  intro i _ j hj
  exact mem_getNeighbors_build_lt w hgt ty i j hj

theorem mem_getNeighbors_symm_dir (w hgt : Nat) (ty : TopologyType) (a b : Nat)
    (hb : b ∈ (Topology.build w hgt ty).getNeighbors a) :
    a ∈ (Topology.build w hgt ty).getNeighbors b := by
  by_cases ha : a < w * hgt
  · obtain ⟨hw, hh, hx, hy, hrec⟩ := cell_coords w hgt a ha
    have hblt : b < w * hgt := mem_getNeighbors_build_lt w hgt ty a b hb
    rcases (mem_getNeighbors_build w hgt ty a b ha).mp hb with ⟨d, hd, hres⟩
    apply (mem_getNeighbors_build w hgt ty b a hblt).mpr
    refine ⟨(-d.1, -d.2), neg_mem_offsetList d hd, ?_⟩
    have hacast : (((a / w : Nat):Int)) * w + ((a % w : Nat):Int) = (a : Int) := by
      have h1 : (((a / w) * w + a % w : Nat) : Int) = (a : Int) := by
        rw [hrec]
      rw [Nat.cast_add, Nat.cast_mul] at h1
      exact h1
    cases ty with
    | TORUS =>
      rw [resolveNeighbor_torus] at hres
      have h2 := Option.some.inj hres
      have hnx1 : 0 ≤ (((a % w : Nat):Int) + d.2 + w) % w :=
        Int.emod_nonneg _ (by omega)
      have hnx2 : (((a % w : Nat):Int) + d.2 + w) % w < w :=
        Int.emod_lt_of_pos _ (by omega)
      have hny1 : 0 ≤ (((a / w : Nat):Int) + d.1 + hgt) % hgt :=
        Int.emod_nonneg _ (by omega)
      have hny2 : (((a / w : Nat):Int) + d.1 + hgt) % hgt < hgt :=
        Int.emod_lt_of_pos _ (by omega)
      obtain ⟨hlt, hcast, hmod, hdiv⟩ :=
        idx_toNat_facts w hgt _ _ hw hnx1 hnx2 hny1 hny2
      rw [h2] at hmod hdiv
      rw [resolveNeighbor_torus]
      apply congrArg some
      have ex : (((b % w : Nat):Int) + (-d.1, -d.2).2 + w) % w = ((a % w : Nat):Int) := by
        show (((b % w : Nat):Int) + (-d.2) + w) % w = ((a % w : Nat):Int)
        rw [hmod]
        have e1 : (((a % w : Nat):Int) + d.2 + w) % w + -d.2 + w =
            (((a % w : Nat):Int) + d.2 + w) % w + (w + -d.2) := by ring
        rw [e1, Int.emod_add_emod]
        have e2 : ((a % w : Nat):Int) + d.2 + w + (w + -d.2) =
            ((a % w : Nat):Int) + w * 2 := by ring
        rw [e2, Int.add_mul_emod_self_left,
          Int.emod_eq_of_lt (Int.natCast_nonneg _) (by exact_mod_cast hx)]
      have ey : (((b / w : Nat):Int) + (-d.1, -d.2).1 + hgt) % hgt = ((a / w : Nat):Int) := by
        show (((b / w : Nat):Int) + (-d.1) + hgt) % hgt = ((a / w : Nat):Int)
        rw [hdiv]
        have e1 : (((a / w : Nat):Int) + d.1 + hgt) % hgt + -d.1 + hgt =
            (((a / w : Nat):Int) + d.1 + hgt) % hgt + (hgt + -d.1) := by ring
        rw [e1, Int.emod_add_emod]
        have e2 : ((a / w : Nat):Int) + d.1 + hgt + (hgt + -d.1) =
            ((a / w : Nat):Int) + hgt * 2 := by ring
        rw [e2, Int.add_mul_emod_self_left,
          Int.emod_eq_of_lt (Int.natCast_nonneg _) (by exact_mod_cast hy)]
      rw [ex, ey, hacast]
      exact Int.toNat_natCast a
    | SQUARE =>
      rw [resolveNeighbor_square] at hres
      by_cases hc : ((a % w : Nat):Int) + d.2 < 0 ∨ (w:Int) ≤ ((a % w : Nat):Int) + d.2 ∨
          ((a / w : Nat):Int) + d.1 < 0 ∨ (hgt:Int) ≤ ((a / w : Nat):Int) + d.1
      · rw [if_pos hc] at hres
        exact absurd hres (by simp)
      · rw [if_neg hc] at hres
        have h2 := Option.some.inj hres
        push_neg at hc
        obtain ⟨hlt, hcast, hmod, hdiv⟩ := idx_toNat_facts w hgt
          (((a % w : Nat):Int) + d.2) (((a / w : Nat):Int) + d.1) hw
          (by omega) (by omega) (by omega) (by omega)
        rw [h2] at hmod hdiv
        rw [resolveNeighbor_square]
        have hnot : ¬(((b % w : Nat):Int) + (-d.1, -d.2).2 < 0 ∨
            (w:Int) ≤ ((b % w : Nat):Int) + (-d.1, -d.2).2 ∨
            ((b / w : Nat):Int) + (-d.1, -d.2).1 < 0 ∨
            (hgt:Int) ≤ ((b / w : Nat):Int) + (-d.1, -d.2).1) := by
          show ¬(((b % w : Nat):Int) + -d.2 < 0 ∨
            (w:Int) ≤ ((b % w : Nat):Int) + -d.2 ∨
            ((b / w : Nat):Int) + -d.1 < 0 ∨
            (hgt:Int) ≤ ((b / w : Nat):Int) + -d.1)
          push_neg
          have hb1 : ((b % w : Nat):Int) = ((a % w : Nat):Int) + d.2 := hmod
          have hb2 : ((b / w : Nat):Int) = ((a / w : Nat):Int) + d.1 := hdiv
          have ha1 : 0 ≤ ((a % w : Nat):Int) := Int.natCast_nonneg _
          have ha2 : ((a % w : Nat):Int) < (w:Int) := by exact_mod_cast hx
          have ha3 : 0 ≤ ((a / w : Nat):Int) := Int.natCast_nonneg _
          have ha4 : ((a / w : Nat):Int) < (hgt:Int) := by exact_mod_cast hy
          refine ⟨by omega, by omega, by omega, by omega⟩
        rw [if_neg hnot]
        apply congrArg some
        show ((((b / w : Nat):Int) + -d.1) * w + (((b % w : Nat):Int) + -d.2)).toNat = a
        rw [hmod, hdiv]
        have e : (((a / w : Nat):Int) + d.1 + -d.1) * w +
            (((a % w : Nat):Int) + d.2 + -d.2) =
            (((a / w : Nat):Int)) * w + ((a % w : Nat):Int) := by ring
        rw [e, hacast]
        exact Int.toNat_natCast a
  · rw [getNeighbors_build_out w hgt ty a ha] at hb
    cases hb

theorem nodup_build_torus (w hgt : Nat) (hw : 3 ≤ w) (hh : 3 ≤ hgt) (i : Nat) :
    ((Topology.build w hgt .TORUS).getNeighbors i).Nodup := by
  by_cases hi : i < w * hgt
  · rw [getNeighbors_build w hgt .TORUS i hi]
    apply nodup_filterMap _ _ offsetList_nodup
    intro d1 h1 d2 h2 b e1 e2
    rw [resolveNeighbor_torus] at e1 e2
    have t1 := Option.some.inj e1
    have t2 := Option.some.inj e2
    obtain ⟨b11, b12, b13, b14, _⟩ := offset_bounds d1 h1
    obtain ⟨b21, b22, b23, b24, _⟩ := offset_bounds d2 h2
    have hnx1a : 0 ≤ (((i % w : Nat):Int) + d1.2 + w) % w := Int.emod_nonneg _ (by omega)
    have hnx1b : (((i % w : Nat):Int) + d1.2 + w) % w < w := Int.emod_lt_of_pos _ (by omega)
    have hny1a : 0 ≤ (((i / w : Nat):Int) + d1.1 + hgt) % hgt := Int.emod_nonneg _ (by omega)
    have hny1b : (((i / w : Nat):Int) + d1.1 + hgt) % hgt < hgt := Int.emod_lt_of_pos _ (by omega)
    have hnx2a : 0 ≤ (((i % w : Nat):Int) + d2.2 + w) % w := Int.emod_nonneg _ (by omega)
    have hnx2b : (((i % w : Nat):Int) + d2.2 + w) % w < w := Int.emod_lt_of_pos _ (by omega)
    have hny2a : 0 ≤ (((i / w : Nat):Int) + d2.1 + hgt) % hgt := Int.emod_nonneg _ (by omega)
    have hny2b : (((i / w : Nat):Int) + d2.1 + hgt) % hgt < hgt := Int.emod_lt_of_pos _ (by omega)
    have hE : (((i / w : Nat):Int) + d1.1 + hgt) % hgt * w + (((i % w : Nat):Int) + d1.2 + w) % w =
        (((i / w : Nat):Int) + d2.1 + hgt) % hgt * w + (((i % w : Nat):Int) + d2.2 + w) % w := by
      apply toNat_inj_nonneg
      · have := mul_nonneg hny1a (by omega : (0:Int) ≤ w)
        omega
      · have := mul_nonneg hny2a (by omega : (0:Int) ≤ w)
        omega
      · rw [t1, t2]
    obtain ⟨hxeq, hyeq⟩ := int_pair_decomp (w:Int) _ _ _ _ (by omega)
      hnx1a hnx1b hnx2a hnx2b hE
    have hd2 : d1.2 = d2.2 := emod_shift_inj (w:Int) ((i % w : Nat):Int) d1.2 d2.2
      (by omega) b13 b14 b23 b24 hxeq
    have hd1 : d1.1 = d2.1 := emod_shift_inj (hgt:Int) ((i / w : Nat):Int) d1.1 d2.1
      (by omega) b11 b12 b21 b22 hyeq
    obtain ⟨a1, a2⟩ := d1
    obtain ⟨c1, c2⟩ := d2
    simp only at hd1 hd2
    rw [hd1, hd2]
  · rw [getNeighbors_build_out w hgt _ i hi]
    exact List.nodup_nil

theorem nodup_build_square (w hgt : Nat) (i : Nat) :
    ((Topology.build w hgt .SQUARE).getNeighbors i).Nodup := by
  by_cases hi : i < w * hgt
  · obtain ⟨hw, hh, hx, hy, hrec⟩ := cell_coords w hgt i hi
    rw [getNeighbors_build w hgt .SQUARE i hi]
    apply nodup_filterMap _ _ offsetList_nodup
    intro d1 h1 d2 h2 b e1 e2
    rw [resolveNeighbor_square] at e1 e2
    by_cases hc1 : ((i % w : Nat):Int) + d1.2 < 0 ∨ (w:Int) ≤ ((i % w : Nat):Int) + d1.2 ∨
        ((i / w : Nat):Int) + d1.1 < 0 ∨ (hgt:Int) ≤ ((i / w : Nat):Int) + d1.1
    · rw [if_pos hc1] at e1
      exact absurd e1 (by simp)
    by_cases hc2 : ((i % w : Nat):Int) + d2.2 < 0 ∨ (w:Int) ≤ ((i % w : Nat):Int) + d2.2 ∨
        ((i / w : Nat):Int) + d2.1 < 0 ∨ (hgt:Int) ≤ ((i / w : Nat):Int) + d2.1
    · rw [if_pos hc2] at e2
      exact absurd e2 (by simp)
    rw [if_neg hc1] at e1
    rw [if_neg hc2] at e2
    have t1 := Option.some.inj e1
    have t2 := Option.some.inj e2
    push_neg at hc1 hc2
    have hE : (((i / w : Nat):Int) + d1.1) * w + (((i % w : Nat):Int) + d1.2) =
        (((i / w : Nat):Int) + d2.1) * w + (((i % w : Nat):Int) + d2.2) := by
      apply toNat_inj_nonneg
      · have := mul_nonneg (by omega : (0:Int) ≤ ((i / w : Nat):Int) + d1.1)
          (by omega : (0:Int) ≤ (w:Int))
        omega
      · have := mul_nonneg (by omega : (0:Int) ≤ ((i / w : Nat):Int) + d2.1)
          (by omega : (0:Int) ≤ (w:Int))
        omega
      · rw [t1, t2]
    obtain ⟨hxeq, hyeq⟩ := int_pair_decomp (w:Int) _ _ _ _ (by omega)
      (by omega) (by omega) (by omega) (by omega) hE
    obtain ⟨a1, a2⟩ := d1
    obtain ⟨c1, c2⟩ := d2
    simp only at hxeq hyeq
    have : a2 = c2 := by omega
    have : a1 = c1 := by omega
    subst this
    rw [show a2 = c2 by omega]
  · rw [getNeighbors_build_out w hgt _ i hi]
    exact List.nodup_nil

theorem not_self_mem_build_torus (w hgt : Nat) (hw : 3 ≤ w) (hh : 3 ≤ hgt) (i : Nat) :
    i ∉ (Topology.build w hgt .TORUS).getNeighbors i := by
  intro hmem
  by_cases hi : i < w * hgt
  · obtain ⟨hw0, hh0, hx, hy, hrec⟩ := cell_coords w hgt i hi
    rcases (mem_getNeighbors_build w hgt .TORUS i i hi).mp hmem with ⟨d, hd, hres⟩
    rw [resolveNeighbor_torus] at hres
    have h2 := Option.some.inj hres
    obtain ⟨b1, b2, b3, b4, b5⟩ := offset_bounds d hd
    have hnxa : 0 ≤ (((i % w : Nat):Int) + d.2 + w) % w := Int.emod_nonneg _ (by omega)
    have hnxb : (((i % w : Nat):Int) + d.2 + w) % w < w := Int.emod_lt_of_pos _ (by omega)
    have hnya : 0 ≤ (((i / w : Nat):Int) + d.1 + hgt) % hgt := Int.emod_nonneg _ (by omega)
    have hnyb : (((i / w : Nat):Int) + d.1 + hgt) % hgt < hgt := Int.emod_lt_of_pos _ (by omega)
    obtain ⟨hlt, hcast, hmod, hdiv⟩ := idx_toNat_facts w hgt _ _ hw0 hnxa hnxb hnya hnyb
    rw [h2] at hmod hdiv
    have hx0 : (((i % w : Nat):Int) + 0 + w) % w = ((i % w : Nat):Int) := by
      have e : ((i % w : Nat):Int) + 0 + w = ((i % w : Nat):Int) + w * 1 := by ring
      rw [e, Int.add_mul_emod_self_left,
        Int.emod_eq_of_lt (Int.natCast_nonneg _) (by exact_mod_cast hx)]
    have hy0 : (((i / w : Nat):Int) + 0 + hgt) % hgt = ((i / w : Nat):Int) := by
      have e : ((i / w : Nat):Int) + 0 + hgt = ((i / w : Nat):Int) + hgt * 1 := by ring
      rw [e, Int.add_mul_emod_self_left,
        Int.emod_eq_of_lt (Int.natCast_nonneg _) (by exact_mod_cast hy)]
    have hxeq : (((i % w : Nat):Int) + d.2 + w) % w = (((i % w : Nat):Int) + 0 + w) % w := by
      rw [hx0]
      exact hmod.symm
    have hyeq : (((i / w : Nat):Int) + d.1 + hgt) % hgt = (((i / w : Nat):Int) + 0 + hgt) % hgt := by
      rw [hy0]
      exact hdiv.symm
    have hd2 : d.2 = 0 := emod_shift_inj (w:Int) ((i % w : Nat):Int) d.2 0
      (by omega) b3 b4 (by omega) (by omega) hxeq
    have hd1 : d.1 = 0 := emod_shift_inj (hgt:Int) ((i / w : Nat):Int) d.1 0
      (by omega) b1 b2 (by omega) (by omega) hyeq
    exact b5 ⟨hd1, hd2⟩
  · rw [getNeighbors_build_out w hgt _ i hi] at hmem
    cases hmem

theorem not_self_mem_build_square (w hgt : Nat) (i : Nat) :
    i ∉ (Topology.build w hgt .SQUARE).getNeighbors i := by
  intro hmem
  by_cases hi : i < w * hgt
  · obtain ⟨hw0, hh0, hx, hy, hrec⟩ := cell_coords w hgt i hi
    rcases (mem_getNeighbors_build w hgt .SQUARE i i hi).mp hmem with ⟨d, hd, hres⟩
    rw [resolveNeighbor_square] at hres
    obtain ⟨b1, b2, b3, b4, b5⟩ := offset_bounds d hd
    by_cases hc : ((i % w : Nat):Int) + d.2 < 0 ∨ (w:Int) ≤ ((i % w : Nat):Int) + d.2 ∨
        ((i / w : Nat):Int) + d.1 < 0 ∨ (hgt:Int) ≤ ((i / w : Nat):Int) + d.1
    · rw [if_pos hc] at hres
      exact absurd hres (by simp)
    · rw [if_neg hc] at hres
      have h2 := Option.some.inj hres
      push_neg at hc
      obtain ⟨hlt, hcast, hmod, hdiv⟩ := idx_toNat_facts w hgt
        (((i % w : Nat):Int) + d.2) (((i / w : Nat):Int) + d.1) hw0
        (by omega) (by omega) (by omega) (by omega)
      rw [h2] at hmod hdiv
      exact b5 ⟨by omega, by omega⟩
  · rw [getNeighbors_build_out w hgt _ i hi] at hmem
    cases hmem

theorem length_build_torus (w hgt : Nat) (i : Nat) (hi : i < w * hgt) :
    ((Topology.build w hgt .TORUS).getNeighbors i).length = 8 := by
  rw [getNeighbors_build w hgt .TORUS i hi]
  show (offsetList.filterMap (resolveNeighbor .TORUS w hgt (i % w) (i / w))).length = 8
  have e : resolveNeighbor .TORUS w hgt (i % w) (i / w) = fun d =>
      some ((((((i / w : Nat)):Int) + d.1 + hgt) % hgt * w +
        ((((i % w : Nat)):Int) + d.2 + w) % w).toNat) :=
    funext (fun d => resolveNeighbor_torus w hgt (i % w) (i / w) d)
  rw [e, filterMap_some_eq_map]
  simp [offsetList]

theorem length_build_square_ge (w hgt : Nat) (hw : 2 ≤ w) (hh : 2 ≤ hgt) (i : Nat)
    (hi : i < w * hgt) :
    3 ≤ ((Topology.build w hgt .SQUARE).getNeighbors i).length := by
  obtain ⟨hw0, hh0, hx, hy, hrec⟩ := cell_coords w hgt i hi
  set dxv : Int := if i % w = 0 then 1 else -1 with hdxv
  set dyv : Int := if i / w = 0 then 1 else -1 with hdyv
  have hdx0 : dxv ≠ 0 := by rw [hdxv]; split_ifs <;> norm_num
  have hdy0 : dyv ≠ 0 := by rw [hdyv]; split_ifs <;> norm_num
  have hxb : 0 ≤ ((i % w : Nat):Int) + dxv ∧ ((i % w : Nat):Int) + dxv < w := by
    rw [hdxv]
    split_ifs with h0
    · rw [h0]
      constructor <;> [norm_num; exact_mod_cast (by omega : (1:Nat) < w)]
    · have h1 : 1 ≤ i % w := Nat.one_le_iff_ne_zero.mpr h0
      have h2 : ((i % w : Nat):Int) < w := by exact_mod_cast hx
      have h3 : (1:Int) ≤ ((i % w : Nat):Int) := by exact_mod_cast h1
      constructor <;> omega
  have hyb : 0 ≤ ((i / w : Nat):Int) + dyv ∧ ((i / w : Nat):Int) + dyv < hgt := by
    rw [hdyv]
    split_ifs with h0
    · rw [h0]
      constructor <;> [norm_num; exact_mod_cast (by omega : (1:Nat) < hgt)]
    · have h1 : 1 ≤ i / w := Nat.one_le_iff_ne_zero.mpr h0
      have h2 : ((i / w : Nat):Int) < hgt := by exact_mod_cast hy
      have h3 : (1:Int) ≤ ((i / w : Nat):Int) := by exact_mod_cast h1
      constructor <;> omega
  have hxc : ((i % w : Nat):Int) < w := by exact_mod_cast hx
  have hyc : ((i / w : Nat):Int) < hgt := by exact_mod_cast hy
  have hmem1 : (0, dxv) ∈ offsetList := by
    rw [hdxv]
    split_ifs <;> decide
  have hmem2 : (dyv, 0) ∈ offsetList := by
    rw [hdyv]
    split_ifs <;> decide
  have hmem3 : (dyv, dxv) ∈ offsetList := by
    rw [hdxv, hdyv]
    split_ifs <;> decide
  have hres : ∀ dy dx : Int, 0 ≤ ((i % w : Nat):Int) + dx →
      ((i % w : Nat):Int) + dx < w → 0 ≤ ((i / w : Nat):Int) + dy →
      ((i / w : Nat):Int) + dy < hgt →
      resolveNeighbor .SQUARE w hgt (i % w) (i / w) (dy, dx) =
        some (((((i / w : Nat):Int) + dy) * w + (((i % w : Nat):Int) + dx)).toNat) := by
    intro dy dx c1 c2 c3 c4
    rw [resolveNeighbor_square]
    rw [if_neg (by push_neg; exact ⟨c1, c2, c3, c4⟩)]
  have hz : (0:Int) = 0 := rfl
  have j1mem : ((((i / w : Nat):Int) + 0) * w + (((i % w : Nat):Int) + dxv)).toNat ∈
      (Topology.build w hgt .SQUARE).getNeighbors i := by
    apply (mem_getNeighbors_build w hgt .SQUARE i _ hi).mpr
    exact ⟨(0, dxv), hmem1, hres 0 dxv hxb.1 hxb.2 (by omega) (by omega)⟩
  have j2mem : ((((i / w : Nat):Int) + dyv) * w + (((i % w : Nat):Int) + 0)).toNat ∈
      (Topology.build w hgt .SQUARE).getNeighbors i := by
    apply (mem_getNeighbors_build w hgt .SQUARE i _ hi).mpr
    exact ⟨(dyv, 0), hmem2, hres dyv 0 (by omega) (by omega) hyb.1 hyb.2⟩
  have j3mem : ((((i / w : Nat):Int) + dyv) * w + (((i % w : Nat):Int) + dxv)).toNat ∈
      (Topology.build w hgt .SQUARE).getNeighbors i := by
    apply (mem_getNeighbors_build w hgt .SQUARE i _ hi).mpr
    exact ⟨(dyv, dxv), hmem3, hres dyv dxv hxb.1 hxb.2 hyb.1 hyb.2⟩
  have hdec : ∀ ny1 nx1 ny2 nx2 : Int, 0 ≤ nx1 → nx1 < w → 0 ≤ nx2 → nx2 < w →
      0 ≤ ny1 → 0 ≤ ny2 →
      (ny1 * w + nx1).toNat = (ny2 * w + nx2).toNat → nx1 = nx2 ∧ ny1 = ny2 := by
    intro ny1 nx1 ny2 nx2 c1 c2 c3 c4 c5 c6 heq
    have hE : ny1 * (w:Int) + nx1 = ny2 * w + nx2 := by
      apply toNat_inj_nonneg
      · have := mul_nonneg c5 (by omega : (0:Int) ≤ w)
        omega
      · have := mul_nonneg c6 (by omega : (0:Int) ≤ w)
        omega
      · exact heq
    exact int_pair_decomp (w:Int) _ _ _ _ (by omega) c1 c2 c3 c4 hE
  have hne12 : ((((i / w : Nat):Int) + 0) * w + (((i % w : Nat):Int) + dxv)).toNat ≠
      ((((i / w : Nat):Int) + dyv) * w + (((i % w : Nat):Int) + 0)).toNat := by
    intro hcon
    obtain ⟨e1, e2⟩ := hdec _ _ _ _ hxb.1 hxb.2 (by omega) (by omega)
      (by omega) (by omega) hcon
    exact hdx0 (by omega)
  have hne13 : ((((i / w : Nat):Int) + 0) * w + (((i % w : Nat):Int) + dxv)).toNat ≠
      ((((i / w : Nat):Int) + dyv) * w + (((i % w : Nat):Int) + dxv)).toNat := by
    intro hcon
    obtain ⟨e1, e2⟩ := hdec _ _ _ _ hxb.1 hxb.2 hxb.1 hxb.2
      (by omega) (by omega) hcon
    exact hdy0 (by omega)
  have hne23 : ((((i / w : Nat):Int) + dyv) * w + (((i % w : Nat):Int) + 0)).toNat ≠
      ((((i / w : Nat):Int) + dyv) * w + (((i % w : Nat):Int) + dxv)).toNat := by
    intro hcon
    obtain ⟨e1, e2⟩ := hdec _ _ _ _ (by omega) (by omega) hxb.1 hxb.2
      (by omega) (by omega) hcon
    exact hdx0 (by omega)
  have hsub : [((((i / w : Nat):Int) + 0) * w + (((i % w : Nat):Int) + dxv)).toNat,
      ((((i / w : Nat):Int) + dyv) * w + (((i % w : Nat):Int) + 0)).toNat,
      ((((i / w : Nat):Int) + dyv) * w + (((i % w : Nat):Int) + dxv)).toNat] ⊆
      (Topology.build w hgt .SQUARE).getNeighbors i := by
    intro z hz2
    rcases List.mem_cons.mp hz2 with rfl | hz2
    · exact j1mem
    rcases List.mem_cons.mp hz2 with rfl | hz2
    · exact j2mem
    rcases List.mem_cons.mp hz2 with rfl | hz2
    · exact j3mem
    cases hz2
  have hnd : ([((((i / w : Nat):Int) + 0) * w + (((i % w : Nat):Int) + dxv)).toNat,
      ((((i / w : Nat):Int) + dyv) * w + (((i % w : Nat):Int) + 0)).toNat,
      ((((i / w : Nat):Int) + dyv) * w + (((i % w : Nat):Int) + dxv)).toNat] : List Nat).Nodup := by
    refine List.nodup_cons.mpr ⟨?_, List.nodup_cons.mpr ⟨?_, List.nodup_singleton _⟩⟩
    · intro hmem
      rcases List.mem_cons.mp hmem with h | h
      · exact hne12 h
      · rcases List.mem_cons.mp h with h | h
        · exact hne13 h
        · cases h
    · intro hmem
      rcases List.mem_cons.mp hmem with h | h
      · exact hne23 h
      · cases h
  have := (List.subperm_of_subset hnd hsub).length_le
  simpa using this

/-- C5 counterexample: for the 1x1 SQUARE topology (width ≥ 1, height ≥ 1)
the adjacency list of cell 0 is empty, so the claimed bound
3 ≤ adjacency-list length fails. -/
theorem adjacency_invariants_cex :
    ¬ (3 ≤ ((Topology.build 1 1 .SQUARE).getNeighbors 0).length) := by
  decide

/-- C5 amended: for SQUARE topologies with width and height at least 2, and
TORUS topologies with width and height at least 3 (the degenerate sizes
below these wrap a cell onto itself or onto a duplicated neighbour), every
cell index in range has between 3 and 8 neighbours, the neighbour relation
is symmetric, no adjacency list contains its own cell, and no adjacency
list contains duplicates. -/
theorem adjacency_invariants_amended (w hgt : Nat) (ty : TopologyType)
    (hbound : (ty = .SQUARE ∧ 2 ≤ w ∧ 2 ≤ hgt) ∨ (ty = .TORUS ∧ 3 ≤ w ∧ 3 ≤ hgt)) :
    (∀ i < w * hgt, 3 ≤ ((Topology.build w hgt ty).getNeighbors i).length ∧
      ((Topology.build w hgt ty).getNeighbors i).length ≤ 8) ∧
    (∀ i j : Nat, j ∈ (Topology.build w hgt ty).getNeighbors i ↔
      i ∈ (Topology.build w hgt ty).getNeighbors j) ∧
    (∀ i : Nat, i ∉ (Topology.build w hgt ty).getNeighbors i) ∧
    (∀ i : Nat, ((Topology.build w hgt ty).getNeighbors i).Nodup) := by
  refine ⟨?_, ?_, ?_, ?_⟩
  · intro i hi
    constructor
    · rcases hbound with ⟨hty, hw, hh⟩ | ⟨hty, hw, hh⟩
      · subst hty
        exact length_build_square_ge w hgt hw hh i hi
      · subst hty
        rw [length_build_torus w hgt i hi]
        omega
    · exact getNeighbors_build_len_le w hgt ty i
  · intro i j
    exact ⟨mem_getNeighbors_symm_dir w hgt ty i j, mem_getNeighbors_symm_dir w hgt ty j i⟩
  · intro i
    rcases hbound with ⟨hty, hw, hh⟩ | ⟨hty, hw, hh⟩
    · subst hty
      exact not_self_mem_build_square w hgt i
    · subst hty
      exact not_self_mem_build_torus w hgt hw hh i
  · intro i
    rcases hbound with ⟨hty, hw, hh⟩ | ⟨hty, hw, hh⟩
    · subst hty
      exact nodup_build_square w hgt i
    · subst hty
      exact nodup_build_torus w hgt hw hh i

/-- Witness for C5 amended at the 4x3 TORUS topology. -/
theorem adjacency_invariants_amended_witness :
    ((TopologyType.TORUS = TopologyType.SQUARE ∧ 2 ≤ 4 ∧ 2 ≤ 3) ∨
      (TopologyType.TORUS = TopologyType.TORUS ∧ 3 ≤ 4 ∧ 3 ≤ 3)) ∧
    ((∀ i < 4 * 3, 3 ≤ ((Topology.build 4 3 .TORUS).getNeighbors i).length ∧
      ((Topology.build 4 3 .TORUS).getNeighbors i).length ≤ 8) ∧
    (∀ i j : Nat, j ∈ (Topology.build 4 3 .TORUS).getNeighbors i ↔
      i ∈ (Topology.build 4 3 .TORUS).getNeighbors j) ∧
    (∀ i : Nat, i ∉ (Topology.build 4 3 .TORUS).getNeighbors i) ∧
    (∀ i : Nat, ((Topology.build 4 3 .TORUS).getNeighbors i).Nodup)) :=
  ⟨by decide, adjacency_invariants_amended 4 3 .TORUS (by decide)⟩

/-! ### Claims C1 and C9: solver soundness and invariants -/

theorem nodup_append_one (l : List Nat) (x : Nat) (h1 : l.Nodup) (h2 : x ∉ l) :
    (l ++ [x]).Nodup := by
  simp [List.nodup_append, h1, h2]

theorem sAdd_mem (l : List Nat) (x z : Nat) :
    z ∈ sAdd l x ↔ z ∈ l ∨ z = x := by
  unfold sAdd
  split_ifs with h
  · constructor
    · intro hz; exact Or.inl hz
    · intro hz
      rcases hz with hz | rfl
      · exact hz
      · exact (contains_iff_mem l z).mp h
  · simp [List.mem_append]

theorem sAdd_nodup (l : List Nat) (x : Nat) (h : l.Nodup) : (sAdd l x).Nodup := by
  unfold sAdd
  split_ifs with hc
  · exact h
  · exact nodup_append_one l x h (fun hm => by
      rw [(contains_iff_mem l x).mpr hm] at hc
      exact hc rfl)

theorem addMinesFold_facts (ns : List Nat) :
    ∀ km changed,
      (∀ x ∈ (addMinesFold km changed ns).1, x ∈ km ∨ x ∈ ns) ∧
      (km.Nodup → (addMinesFold km changed ns).1.Nodup) ∧
      (∀ x ∈ km, x ∈ (addMinesFold km changed ns).1) := by
  induction ns with
  | nil => intro km changed; exact ⟨fun x hx => Or.inl hx, fun h => h, fun x hx => hx⟩
  | cons n rest ih =>
    intro km changed
    by_cases hc : km.contains n
    · have e : addMinesFold km changed (n :: rest) = addMinesFold km changed rest := by
        unfold addMinesFold
        rw [List.foldl_cons]
        congr 1
        show (if km.contains n = true then (km, changed) else (km ++ [n], true)) = (km, changed)
        rw [if_pos hc]
      rw [e]
      obtain ⟨f1, f2, f3⟩ := ih km changed
      exact ⟨fun x hx => (f1 x hx).imp id (List.mem_cons_of_mem n), f2, f3⟩
    · have e : addMinesFold km changed (n :: rest) = addMinesFold (km ++ [n]) true rest := by
        unfold addMinesFold
        rw [List.foldl_cons]
        congr 1
        show (if km.contains n = true then (km, changed) else (km ++ [n], true)) = (km ++ [n], true)
        rw [if_neg hc]
      rw [e]
      obtain ⟨f1, f2, f3⟩ := ih (km ++ [n]) true
      refine ⟨?_, ?_, ?_⟩
      · intro x hx
        rcases f1 x hx with hx2 | hx2
        · rcases List.mem_append.mp hx2 with hx3 | hx3
          · exact Or.inl hx3
          · rcases List.mem_singleton.mp hx3 with rfl
            exact Or.inr (List.mem_cons_self _ _)
        · exact Or.inr (List.mem_cons_of_mem n hx2)
      · intro hnd
        exact f2 (nodup_append_one km n hnd (fun hm => by
          rw [(contains_iff_mem km n).mpr hm] at hc
          exact hc rfl))
      · intro x hx
        exact f3 x (List.mem_append.mpr (Or.inl hx))

theorem addSafeFold_facts (ns : List Nat) (km : List Nat) :
    ∀ ks changed,
      (∀ x ∈ (addSafeFold ks km changed ns).1,
        x ∈ ks ∨ (x ∈ ns ∧ km.contains x = false)) ∧
      (ks.Nodup → (addSafeFold ks km changed ns).1.Nodup) ∧
      (∀ x ∈ ks, x ∈ (addSafeFold ks km changed ns).1) := by
  induction ns with
  | nil => intro ks changed; exact ⟨fun x hx => Or.inl hx, fun h => h, fun x hx => hx⟩
  | cons n rest ih =>
    intro ks changed
    by_cases hc : ks.contains n = false ∧ km.contains n = false
    · have e : addSafeFold ks km changed (n :: rest) = addSafeFold (ks ++ [n]) km true rest := by
        unfold addSafeFold
        rw [List.foldl_cons]
        congr 1
        show (if ks.contains n = false ∧ km.contains n = false then (ks ++ [n], true)
          else (ks, changed)) = (ks ++ [n], true)
        rw [if_pos hc]
      rw [e]
      obtain ⟨f1, f2, f3⟩ := ih (ks ++ [n]) true
      refine ⟨?_, ?_, ?_⟩
      · intro x hx
        rcases f1 x hx with hx2 | hx2
        · rcases List.mem_append.mp hx2 with hx3 | hx3
          · exact Or.inl hx3
          · rcases List.mem_singleton.mp hx3 with rfl
            exact Or.inr ⟨List.mem_cons_self _ _, hc.2⟩
        · exact Or.inr ⟨List.mem_cons_of_mem n hx2.1, hx2.2⟩
      · intro hnd
        apply f2
        apply nodup_append_one ks n hnd
        intro hm
        rw [(contains_iff_mem ks n).mpr hm] at hc
        exact absurd hc.1 (by simp)
      · intro x hx
        exact f3 x (List.mem_append.mpr (Or.inl hx))
    · have e : addSafeFold ks km changed (n :: rest) = addSafeFold ks km changed rest := by
        unfold addSafeFold
        rw [List.foldl_cons]
        congr 1
        show (if ks.contains n = false ∧ km.contains n = false then (ks ++ [n], true)
          else (ks, changed)) = (ks, changed)
        rw [if_neg hc]
      rw [e]
      obtain ⟨f1, f2, f3⟩ := ih ks changed
      exact ⟨fun x hx => (f1 x hx).imp id (fun h => ⟨List.mem_cons_of_mem n h.1, h.2⟩), f2, f3⟩

theorem foldl_sAdd_facts (ns : List Nat) :
    ∀ l, (∀ x ∈ ns.foldl sAdd l, x ∈ l ∨ x ∈ ns) ∧
      (l.Nodup → (ns.foldl sAdd l).Nodup) ∧
      (∀ x ∈ l, x ∈ ns.foldl sAdd l) := by
  induction ns with
  | nil => intro l; exact ⟨fun x hx => Or.inl hx, fun h => h, fun x hx => hx⟩
  | cons n rest ih =>
    intro l
    rw [List.foldl_cons]
    obtain ⟨f1, f2, f3⟩ := ih (sAdd l n)
    refine ⟨?_, ?_, ?_⟩
    · intro x hx
      rcases f1 x hx with hx2 | hx2
      · rcases (sAdd_mem l n x).mp hx2 with hx3 | rfl
        · exact Or.inl hx3
        · exact Or.inr (List.mem_cons_self _ _)
      · exact Or.inr (List.mem_cons_of_mem n hx2)
    · intro hnd
      exact f2 (sAdd_nodup l n hnd)
    · intro x hx
      exact f3 x ((sAdd_mem l n x).mpr (Or.inl hx))

theorem Sound.updateSets (s : Solver) (hs : Sound s) (km2 ks2 : List Nat)
    (hkm : ∀ x ∈ km2, mineAt s.board x = true)
    (hks : ∀ x ∈ ks2, mineAt s.board x = false)
    (hnd : km2.Nodup) (hlt : ∀ x ∈ km2, x < s.board.size) :
    Sound { s with knownMines := km2, knownSafe := ks2 } :=
  ⟨hs.lensm, hs.lenst, hs.adj, hs.counts, hs.osafe, hs.noflag, hs.tm,
    hkm, hks, hnd, hlt⟩

theorem Sound.updateValid (s : Solver) (hs : Sound s) (v : Bool) :
    Sound { s with isValidState := v } :=
  ⟨hs.lensm, hs.lenst, hs.adj, hs.counts, hs.osafe, hs.noflag, hs.tm,
    hs.km, hs.ks, hs.kmnd, hs.kmlt⟩

theorem Sound.fromSnapshot (s : Solver) (hs : Sound s) : Sound s.fromSnapshot :=
  ⟨hs.lensm, hs.lenst, hs.adj, hs.counts, hs.osafe, hs.noflag, hs.tm,
    hs.km, hs.ks, hs.kmnd, hs.kmlt⟩

theorem statusIs_hidden_of_mine (s : Solver) (hs : Sound s) (n : Nat)
    (hn : n < s.board.size) (hm : mineAt s.board n = true) :
    statusIs s.board n .HIDDEN = true := by
  have hlen : n < s.board.status.length := by rw [hs.lenst]; exact hn
  rcases statusIs_cases s.board n hlen with h | h | h
  · exact h
  · have := hs.osafe n hlen h
    rw [this] at hm
    cases hm
  · have := hs.noflag n hlen
    rw [this] at h
    cases h

theorem basicStepGo_sound (l : List Nat) :
    ∀ s changed, Sound s →
      Sound (basicStepGo s changed l).1 ∧
      (basicStepGo s changed l).1.isValidState = s.isValidState ∧
      (basicStepGo s changed l).1.board = s.board ∧
      (basicStepGo s changed l).1.totalMines = s.totalMines := by
  induction l with
  | nil => intro s changed hs; exact ⟨hs, rfl, rfl, rfl⟩
  | cons i rest ih =>
    intro s changed hs
    simp only [basicStepGo]
    by_cases hguard : statusIs s.board i .OPENED = true ∧ countAt s.board i > 0
    case neg =>
      rw [if_neg hguard]
      exact ih s changed hs
    case pos =>
    rw [if_pos hguard]
    have hiLT : i < s.board.status.length := statusIs_lt _ _ _ hguard.1
    have hiSZ : i < s.board.size := by rw [← hs.lenst]; exact hiLT
    have hmi : mineAt s.board i = false := hs.osafe i hiLT hguard.1
    have hcnt : countAt s.board i =
        (((s.board.topo.getNeighbors i).countP (fun n => mineAt s.board n) : Nat) : Int) := by
      have h0 := hs.counts i hiSZ
      rw [hmi] at h0
      simpa using h0
    have hpkm : ∀ n ∈ s.board.topo.getNeighbors i,
        s.knownMines.contains n = true → mineAt s.board n = true :=
      fun n _ hc => hs.km n ((contains_iff_mem _ _).mp hc)
    have hk1 : (s.board.topo.getNeighbors i).countP (fun n => s.knownMines.contains n) ≤
        (s.board.topo.getNeighbors i).countP (fun n => mineAt s.board n) :=
      countP_mono_mem _ _ _ hpkm
    have hsplit := countP_split (s.board.topo.getNeighbors i)
      (fun n => mineAt s.board n) (fun n => s.knownMines.contains n)
    have hcongr1 : (s.board.topo.getNeighbors i).countP
        (fun n => mineAt s.board n && s.knownMines.contains n) =
        (s.board.topo.getNeighbors i).countP (fun n => s.knownMines.contains n) := by
      apply countP_congr_mem
      intro n hn
      cases hc : s.knownMines.contains n
      · simp [hc]
      · simp [hc, hpkm n hn hc]
    have hhidchar : ∀ n ∈ s.board.topo.getNeighbors i,
        (mineAt s.board n && !(s.knownMines.contains n)) =
        ((decide (statusIs s.board n .HIDDEN = true ∧ s.knownSafe.contains n = false ∧
          s.knownMines.contains n = false)) && mineAt s.board n) := by
      intro n hn
      cases hm : mineAt s.board n
      · simp
      · cases hk : s.knownMines.contains n
        · have hnlt : n < s.board.size := hs.adj i hiSZ n hn
          have hhid : statusIs s.board n .HIDDEN = true :=
            statusIs_hidden_of_mine s hs n hnlt hm
          have hnks : s.knownSafe.contains n = false := by
            cases hcc : s.knownSafe.contains n
            · rfl
            · have h0 := hs.ks n ((contains_iff_mem _ _).mp hcc)
              rw [h0] at hm
              cases hm
          have hnks2 : n ∉ s.knownSafe := by
            intro hmem
            rw [(contains_iff_mem _ _).mpr hmem] at hnks
            simp at hnks
          have hnk2 : n ∉ s.knownMines := by
            intro hmem
            rw [(contains_iff_mem _ _).mpr hmem] at hk
            simp at hk
          simp [hhid, hnks2, hnk2, hk]
        · simp [hk]
    have hcongr2 : (s.board.topo.getNeighbors i).countP
        (fun n => mineAt s.board n && !(s.knownMines.contains n)) =
        (s.board.topo.getNeighbors i).countP
        (fun n => (decide (statusIs s.board n .HIDDEN = true ∧
          s.knownSafe.contains n = false ∧ s.knownMines.contains n = false)) &&
          mineAt s.board n) :=
      countP_congr_mem _ _ _ hhidchar
    have hmono2 : (s.board.topo.getNeighbors i).countP
        (fun n => (decide (statusIs s.board n .HIDDEN = true ∧
          s.knownSafe.contains n = false ∧ s.knownMines.contains n = false)) &&
          mineAt s.board n) ≤
        (s.board.topo.getNeighbors i).countP
        (fun n => decide (statusIs s.board n .HIDDEN = true ∧
          s.knownSafe.contains n = false ∧ s.knownMines.contains n = false)) := by
      apply countP_mono_mem
      intro n _ hcc
      rw [Bool.and_eq_true] at hcc
      exact hcc.1
    have hsplit2 := countP_split (s.board.topo.getNeighbors i)
      (fun n => decide (statusIs s.board n .HIDDEN = true ∧
        s.knownSafe.contains n = false ∧ s.knownMines.contains n = false))
      (fun n => mineAt s.board n)
    have hlenfilter : ((s.board.topo.getNeighbors i).filter (fun n =>
        decide (statusIs s.board n .HIDDEN = true ∧ s.knownSafe.contains n = false ∧
          s.knownMines.contains n = false))).length =
        (s.board.topo.getNeighbors i).countP (fun n =>
        decide (statusIs s.board n .HIDDEN = true ∧ s.knownSafe.contains n = false ∧
          s.knownMines.contains n = false)) :=
      (List.countP_eq_length_filter _ _).symm
    split_ifs with h2 h3 c1 c2 c2
    · exfalso
      rw [hcnt] at h2
      have h2n : (s.board.topo.getNeighbors i).countP (fun n => mineAt s.board n) <
          (s.board.topo.getNeighbors i).countP (fun n => s.knownMines.contains n) := by
        exact_mod_cast h2
      omega
    · exfalso
      rcases h3 with h3 | h3
      · rw [hcnt] at h3
        rw [hlenfilter] at h3
        have h3n : (s.board.topo.getNeighbors i).countP (fun n =>
            decide (statusIs s.board n .HIDDEN = true ∧ s.knownSafe.contains n = false ∧
              s.knownMines.contains n = false)) <
            (s.board.topo.getNeighbors i).countP (fun n => mineAt s.board n) -
            (s.board.topo.getNeighbors i).countP (fun n => s.knownMines.contains n) := by
          omega
        omega
      · rw [hcnt] at h3
        omega
    · exfalso
      rw [hcnt] at c1 c2
      rw [hlenfilter] at c1
      omega
    · -- mines branch: c1 holds, c2 fails
      have hallm : ∀ n ∈ (s.board.topo.getNeighbors i).filter (fun n =>
          decide (statusIs s.board n .HIDDEN = true ∧ s.knownSafe.contains n = false ∧
            s.knownMines.contains n = false)), mineAt s.board n = true := by
        intro n hn
        rw [List.mem_filter] at hn
        have hzero : (s.board.topo.getNeighbors i).countP (fun n =>
            decide (statusIs s.board n .HIDDEN = true ∧ s.knownSafe.contains n = false ∧
              s.knownMines.contains n = false) && !(mineAt s.board n)) = 0 := by
          rw [hcnt] at c1
          rw [hlenfilter] at c1
          have c1n : (s.board.topo.getNeighbors i).countP (fun n => mineAt s.board n) -
              (s.board.topo.getNeighbors i).countP (fun n => s.knownMines.contains n) =
              (s.board.topo.getNeighbors i).countP (fun n =>
                decide (statusIs s.board n .HIDDEN = true ∧ s.knownSafe.contains n = false ∧
                  s.knownMines.contains n = false)) := by
            have := c1.1
            omega
          omega
        rw [List.countP_eq_zero] at hzero
        have := hzero n hn.1
        cases hmn : mineAt s.board n
        · exfalso
          apply this
          rw [hn.2, hmn]
          rfl
        · rfl
      obtain ⟨f1, f2, f3⟩ := addMinesFold_facts _ s.knownMines changed
      apply ih
      apply Sound.updateSets s hs
      · intro x hx
        rcases f1 x hx with hx2 | hx2
        · exact hs.km x hx2
        · exact hallm x hx2
      · exact hs.ks
      · exact f2 hs.kmnd
      · intro x hx
        rcases f1 x hx with hx2 | hx2
        · exact hs.kmlt x hx2
        · rw [List.mem_filter] at hx2
          exact hs.adj i hiSZ x hx2.1
    · -- safe branch: c1 fails, c2 holds
      have hallsafe : ∀ n ∈ (s.board.topo.getNeighbors i).filter (fun n =>
          decide (statusIs s.board n .HIDDEN = true ∧ s.knownSafe.contains n = false ∧
            s.knownMines.contains n = false)), mineAt s.board n = false := by
        intro n hn
        rw [List.mem_filter] at hn
        have hzero : (s.board.topo.getNeighbors i).countP (fun n =>
            decide (statusIs s.board n .HIDDEN = true ∧ s.knownSafe.contains n = false ∧
              s.knownMines.contains n = false) && mineAt s.board n) = 0 := by
          rw [hcnt] at c2
          have c2n : (s.board.topo.getNeighbors i).countP (fun n => mineAt s.board n) =
              (s.board.topo.getNeighbors i).countP (fun n => s.knownMines.contains n) := by
            have := c2.1
            omega
          omega
        rw [List.countP_eq_zero] at hzero
        have := hzero n hn.1
        cases hmn : mineAt s.board n
        · rfl
        · exfalso
          apply this
          rw [hn.2, hmn]
          rfl
      obtain ⟨g1, g2, g3⟩ := addSafeFold_facts _ s.knownMines s.knownSafe _
      apply ih
      apply Sound.updateSets s hs
      · intro x hx
        exact hs.km x hx
      · intro x hx
        rcases g1 x hx with hx2 | hx2
        · exact hs.ks x hx2
        · exact hallsafe x hx2.1
      · exact hs.kmnd
      · intro x hx
        exact hs.kmlt x hx
    · -- neither branch
      apply ih
      exact hs

theorem solveBasicStep_sound (s : Solver) (hs : Sound s) :
    Sound s.solveBasicStep.1 ∧ s.solveBasicStep.1.isValidState = s.isValidState ∧
    s.solveBasicStep.1.board = s.board ∧ s.solveBasicStep.1.totalMines = s.totalMines :=
  basicStepGo_sound _ s false hs

theorem solveGlobalLogic_sound (s : Solver) (hs : Sound s) :
    Sound s.solveGlobalLogic.1 ∧ s.solveGlobalLogic.1.isValidState = s.isValidState ∧
    s.solveGlobalLogic.1.board = s.board ∧ s.solveGlobalLogic.1.totalMines = s.totalMines := by
  have hsz : s.board.topo.width * s.board.topo.height = s.board.size := rfl
  have hKM : (List.range s.board.size).countP (fun n => s.knownMines.contains n) =
      s.knownMines.length :=
    countP_range_contains s.board.size s.knownMines hs.kmnd hs.kmlt
  have hpkm : ∀ n, s.knownMines.contains n = true → mineAt s.board n = true :=
    fun n hc => hs.km n ((contains_iff_mem _ _).mp hc)
  have hsplit := countP_split (List.range s.board.size)
    (fun n => mineAt s.board n) (fun n => s.knownMines.contains n)
  have hcongr1 : (List.range s.board.size).countP
      (fun n => mineAt s.board n && s.knownMines.contains n) =
      (List.range s.board.size).countP (fun n => s.knownMines.contains n) := by
    apply countP_congr_mem
    intro n _
    cases hc : s.knownMines.contains n
    · simp [hc]
    · simp [hc, hpkm n hc]
  have hchar : ∀ n ∈ List.range s.board.size,
      (mineAt s.board n && !(s.knownMines.contains n)) =
      ((decide (statusIs s.board n .HIDDEN = true ∧ s.knownSafe.contains n = false ∧
        s.knownMines.contains n = false)) && mineAt s.board n) := by
    intro n hn
    cases hm : mineAt s.board n
    · simp
    · cases hk : s.knownMines.contains n
      · have hnlt : n < s.board.size := List.mem_range.mp hn
        have hhid : statusIs s.board n .HIDDEN = true :=
          statusIs_hidden_of_mine s hs n hnlt hm
        have hnks : s.knownSafe.contains n = false := by
          cases hcc : s.knownSafe.contains n
          · rfl
          · have h0 := hs.ks n ((contains_iff_mem _ _).mp hcc)
            rw [h0] at hm
            cases hm
        have hnks2 : n ∉ s.knownSafe := by
          intro hmem
          rw [(contains_iff_mem _ _).mpr hmem] at hnks
          simp at hnks
        have hnk2 : n ∉ s.knownMines := by
          intro hmem
          rw [(contains_iff_mem _ _).mpr hmem] at hk
          simp at hk
        simp [hhid, hnks2, hnk2, hk]
      · simp [hk]
  have hcongr2 := countP_congr_mem (List.range s.board.size) _ _ hchar
  have hmono2 : (List.range s.board.size).countP
      (fun n => (decide (statusIs s.board n .HIDDEN = true ∧
        s.knownSafe.contains n = false ∧ s.knownMines.contains n = false)) &&
        mineAt s.board n) ≤
      (List.range s.board.size).countP
      (fun n => decide (statusIs s.board n .HIDDEN = true ∧
        s.knownSafe.contains n = false ∧ s.knownMines.contains n = false)) := by
    apply countP_mono_mem
    intro n _ hcc
    rw [Bool.and_eq_true] at hcc
    exact hcc.1
  have hsplit2 := countP_split (List.range s.board.size)
    (fun n => decide (statusIs s.board n .HIDDEN = true ∧
      s.knownSafe.contains n = false ∧ s.knownMines.contains n = false))
    (fun n => mineAt s.board n)
  have hlenfilter : ((List.range s.board.size).filter (fun n =>
      decide (statusIs s.board n .HIDDEN = true ∧ s.knownSafe.contains n = false ∧
        s.knownMines.contains n = false))).length =
      (List.range s.board.size).countP (fun n =>
      decide (statusIs s.board n .HIDDEN = true ∧ s.knownSafe.contains n = false ∧
        s.knownMines.contains n = false)) :=
    (List.countP_eq_length_filter _ _).symm
  have htm2 : s.totalMines =
      ((List.range s.board.size).countP (fun n => mineAt s.board n) : Int) := hs.tm
  simp only [Solver.solveGlobalLogic]
  rw [hsz]
  split_ifs with hempty hbad heq hzero
  · exact ⟨hs, rfl, rfl, rfl⟩
  · exfalso
    rcases hbad with hbad | hbad
    · rw [htm2] at hbad
      rw [← hKM] at hbad
      omega
    · rw [htm2] at hbad
      rw [← hKM] at hbad
      rw [hlenfilter] at hbad
      omega
  · -- minesLeft = number of unknowns: every unknown is a mine
    have hallm : ∀ n ∈ (List.range s.board.size).filter (fun n =>
        decide (statusIs s.board n .HIDDEN = true ∧ s.knownSafe.contains n = false ∧
          s.knownMines.contains n = false)), mineAt s.board n = true := by
      intro n hn
      rw [List.mem_filter] at hn
      have hzero2 : (List.range s.board.size).countP (fun n =>
          decide (statusIs s.board n .HIDDEN = true ∧ s.knownSafe.contains n = false ∧
            s.knownMines.contains n = false) && !(mineAt s.board n)) = 0 := by
        rw [htm2] at heq
        rw [← hKM] at heq
        rw [hlenfilter] at heq
        omega
      rw [List.countP_eq_zero] at hzero2
      have h0 := hzero2 n hn.1
      cases hmn : mineAt s.board n
      · exfalso
        apply h0
        rw [hn.2, hmn]
        rfl
      · rfl
    obtain ⟨f1, f2, f3⟩ := foldl_sAdd_facts _ s.knownMines
    refine ⟨?_, rfl, rfl, rfl⟩
    apply Sound.updateSets s hs
    · intro x hx
      rcases f1 x hx with hx2 | hx2
      · exact hs.km x hx2
      · exact hallm x hx2
    · exact hs.ks
    · exact f2 hs.kmnd
    · intro x hx
      rcases f1 x hx with hx2 | hx2
      · exact hs.kmlt x hx2
      · rw [List.mem_filter] at hx2
        exact List.mem_range.mp hx2.1
  · -- minesLeft = 0: every unknown is safe
    have hallsafe : ∀ n ∈ (List.range s.board.size).filter (fun n =>
        decide (statusIs s.board n .HIDDEN = true ∧ s.knownSafe.contains n = false ∧
          s.knownMines.contains n = false)), mineAt s.board n = false := by
      intro n hn
      rw [List.mem_filter] at hn
      have hzero2 : (List.range s.board.size).countP (fun n =>
          decide (statusIs s.board n .HIDDEN = true ∧ s.knownSafe.contains n = false ∧
            s.knownMines.contains n = false) && mineAt s.board n) = 0 := by
        rw [htm2] at hzero
        rw [← hKM] at hzero
        omega
      rw [List.countP_eq_zero] at hzero2
      have h0 := hzero2 n hn.1
      cases hmn : mineAt s.board n
      · rfl
      · exfalso
        apply h0
        rw [hn.2, hmn]
        rfl
    obtain ⟨f1, f2, f3⟩ := foldl_sAdd_facts _ s.knownSafe
    refine ⟨?_, rfl, rfl, rfl⟩
    apply Sound.updateSets s hs
    · exact hs.km
    · intro x hx
      rcases f1 x hx with hx2 | hx2
      · exact hs.ks x hx2
      · exact hallsafe x hx2
    · exact hs.kmnd
    · exact hs.kmlt
  · exact ⟨hs, rfl, rfl, rfl⟩

theorem simLoop_sound (fuel : Nat) : ∀ s, Sound s →
    Sound (simLoop fuel s) ∧ (simLoop fuel s).isValidState = s.isValidState ∧
    (simLoop fuel s).board = s.board := by
  induction fuel with
  | zero => intro s hs; exact ⟨hs, rfl, rfl⟩
  | succ fuel ih =>
    intro s hs
    rw [simLoop]
    by_cases hv : s.isValidState = true
    case neg =>
      rw [if_neg hv]
      exact ⟨hs, rfl, rfl⟩
    case pos =>
    rw [if_pos hv]
    obtain ⟨hs1, hv1, hb1, _⟩ := solveBasicStep_sound s hs
    by_cases hc1 : s.solveBasicStep.2 = true
    · rw [if_pos hc1]
      obtain ⟨hs2, hv2, hb2, _⟩ := solveGlobalLogic_sound s.solveBasicStep.1 hs1
      by_cases hc2 : s.solveBasicStep.1.solveGlobalLogic.2 = true
      · rw [if_pos hc2]
        obtain ⟨hs3, hv3, hb3⟩ := ih _ hs2
        exact ⟨hs3, by rw [hv3, hv2, hv1], by rw [hb3, hb2, hb1]⟩
      · rw [if_neg hc2]
        exact ⟨hs2, by rw [hv2, hv1], by rw [hb2, hb1]⟩
    · rw [if_neg hc1]
      exact ⟨hs1, hv1, hb1⟩

theorem foldl_preserve_mem {α : Type} (Q : Nat → Prop) :
    ∀ (l : List α) (f : List Nat → α → List Nat),
      (∀ acc a, a ∈ l → (∀ t ∈ acc, Q t) → ∀ t ∈ f acc a, Q t) →
      ∀ acc, (∀ t ∈ acc, Q t) → ∀ t ∈ l.foldl f acc, Q t := by
  intro l
  induction l with
  | nil => intro f _ acc h; exact h
  | cons a rest ih =>
    intro f hf acc h
    rw [List.foldl_cons]
    exact ih f (fun acc2 a2 ha2 => hf acc2 a2 (List.mem_cons_of_mem _ ha2)) (f acc a)
      (hf acc a (List.mem_cons_self _ _) h)

theorem frontier_facts (s : Solver) (hadj : AdjWF s.board.topo) :
    ∀ t ∈ s.frontier, t < s.board.size ∧ s.knownMines.contains t = false ∧
      s.knownSafe.contains t = false := by
  unfold Solver.frontier
  apply foldl_preserve_mem
  · intro acc i hi hacc t ht
    by_cases hguard : statusIs s.board i .OPENED = true ∧ countAt s.board i > 0
    · rw [if_pos hguard] at ht
      revert t ht
      apply foldl_preserve_mem
      · intro acc2 n hn hacc2 t ht2
        by_cases hin : statusIs s.board n .HIDDEN = true ∧ s.knownSafe.contains n = false ∧
            s.knownMines.contains n = false
        · rw [if_pos hin] at ht2
          rcases (sAdd_mem _ _ _).mp ht2 with ht3 | rfl
          · exact hacc2 t ht3
          · exact ⟨hadj i (List.mem_range.mp hi) t hn, hin.2.2, hin.2.1⟩
        · rw [if_neg hin] at ht2
          exact hacc2 t ht2
      · exact hacc
    · rw [if_neg hguard] at ht
      exact hacc t ht
  · intro t ht
    cases ht

theorem deepGo_sound (fuel : Nat) (l : List Nat) :
    ∀ s changed, Sound s → (∀ t ∈ l, t < s.board.size) →
      Sound (deepGo fuel s changed l).1 ∧
      (deepGo fuel s changed l).1.board = s.board ∧
      (deepGo fuel s changed l).1.isValidState = s.isValidState := by
  induction l with
  | nil => intro s changed hs _; exact ⟨hs, rfl, rfl⟩
  | cons t rest ih =>
    intro s changed hs hlt
    simp only [deepGo]
    have hrest : ∀ x ∈ rest, x < s.board.size :=
      fun x hx => hlt x (List.mem_cons_of_mem _ hx)
    by_cases hm : mineAt s.board t = true
    · have hsm : Sound { s.fromSnapshot with
          knownMines := sAdd s.fromSnapshot.knownMines t } := by
        apply Sound.updateSets s.fromSnapshot (Sound.fromSnapshot s hs)
        · intro x hx
          rcases (sAdd_mem _ _ _).mp hx with hx2 | rfl
          · exact hs.km x hx2
          · exact hm
        · exact hs.ks
        · exact sAdd_nodup _ _ hs.kmnd
        · intro x hx
          rcases (sAdd_mem _ _ _).mp hx with hx2 | rfl
          · exact hs.kmlt x hx2
          · exact hlt _ (List.mem_cons_self _ _)
      have hvm := (simLoop_sound fuel _ hsm).2.1
      have hvm2 : (simLoop fuel { s.fromSnapshot with
          knownMines := sAdd s.fromSnapshot.knownMines t }).isValidState = true := by
        rw [hvm]
        rfl
      have hc1 : ¬((simLoop fuel { s.fromSnapshot with
          knownMines := sAdd s.fromSnapshot.knownMines t }).isValidState = false ∧
          s.knownSafe.contains t = false) := by
        intro hcon
        rw [hvm2] at hcon
        exact absurd hcon.1 (by simp)
      rw [if_neg hc1]
      by_cases hc2 : (simLoop fuel { s.fromSnapshot with
          knownSafe := sAdd s.fromSnapshot.knownSafe t }).isValidState = false ∧
          s.knownMines.contains t = false
      · rw [if_pos hc2]
        have hsound : Sound { s with knownMines := sAdd s.knownMines t } := by
          apply Sound.updateSets s hs
          · intro x hx
            rcases (sAdd_mem _ _ _).mp hx with hx2 | rfl
            · exact hs.km x hx2
            · exact hm
          · exact hs.ks
          · exact sAdd_nodup _ _ hs.kmnd
          · intro x hx
            rcases (sAdd_mem _ _ _).mp hx with hx2 | rfl
            · exact hs.kmlt x hx2
            · exact hlt _ (List.mem_cons_self _ _)
        exact ih _ true hsound hrest
      · rw [if_neg hc2]
        exact ih s changed hs hrest
    · have hmf : mineAt s.board t = false := by
        cases hq : mineAt s.board t
        · rfl
        · exact absurd hq hm
      by_cases hc1 : (simLoop fuel { s.fromSnapshot with
          knownMines := sAdd s.fromSnapshot.knownMines t }).isValidState = false ∧
          s.knownSafe.contains t = false
      · rw [if_pos hc1]
        have hsound : Sound { s with knownSafe := sAdd s.knownSafe t } := by
          apply Sound.updateSets s hs
          · exact hs.km
          · intro x hx
            rcases (sAdd_mem _ _ _).mp hx with hx2 | rfl
            · exact hs.ks x hx2
            · exact hmf
          · exact hs.kmnd
          · exact hs.kmlt
        exact ih _ true hsound hrest
      · rw [if_neg hc1]
        have hss : Sound { s.fromSnapshot with
            knownSafe := sAdd s.fromSnapshot.knownSafe t } := by
          apply Sound.updateSets s.fromSnapshot (Sound.fromSnapshot s hs)
          · exact hs.km
          · intro x hx
            rcases (sAdd_mem _ _ _).mp hx with hx2 | rfl
            · exact hs.ks x hx2
            · exact hmf
          · exact hs.kmnd
          · exact hs.kmlt
        have hvs := (simLoop_sound fuel _ hss).2.1
        have hvs2 : (simLoop fuel { s.fromSnapshot with
            knownSafe := sAdd s.fromSnapshot.knownSafe t }).isValidState = true := by
          rw [hvs]
          rfl
        have hc2 : ¬((simLoop fuel { s.fromSnapshot with
            knownSafe := sAdd s.fromSnapshot.knownSafe t }).isValidState = false ∧
            s.knownMines.contains t = false) := by
          intro hcon
          rw [hvs2] at hcon
          exact absurd hcon.1 (by simp)
        rw [if_neg hc2]
        exact ih s changed hs hrest

theorem solveDeepLogic_sound (s : Solver) (hs : Sound s) :
    Sound s.solveDeepLogic.1 ∧ s.solveDeepLogic.1.board = s.board ∧
    s.solveDeepLogic.1.isValidState = s.isValidState := by
  have hf := frontier_facts s hs.adj
  exact deepGo_sound _ s.frontier s false hs (fun t ht => (hf t ht).1)

/-! ### Opening cells preserves soundness (non-mine roots) -/

theorem statusIs_set_ne (b : Board) (idx : Nat) (st : CellStatus) (i : Nat)
    (st2 : CellStatus) (h : idx ≠ i) :
    statusIs { b with status := b.status.set idx st } i st2 = statusIs b i st2 := by
  show decide ((b.status.set idx st).get? i = some st2) = _
  rw [List.get?_set_ne st b.status h]
  rfl

theorem statusIs_set_self (b : Board) (idx : Nat) (h : idx < b.status.length)
    (st st2 : CellStatus) :
    statusIs { b with status := b.status.set idx st } idx st2 =
      decide (st = st2) := by
  show decide ((b.status.set idx st).get? idx = some st2) = _
  rw [List.get?_set_eq_of_lt st h]
  simp

theorem openOK_refl (b : Board) : OpenOK b b :=
  ⟨rfl, rfl, rfl, rfl, fun _ h => Or.inl h, fun _ => rfl⟩

theorem openGo_ok (b0 : Board) (hst : b0.status.length = b0.size)
    (hc : CountsOK b0) :
    ∀ fuel b idx, OpenOK b0 b → mineAt b0 idx = false →
      OpenOK b0 (openGo fuel b idx).1 := by
  intro fuel
  induction fuel with
  | zero => intro b idx hb _; exact hb
  | succ fuel ih =>
    intro b idx hb hm0
    simp only [openGo]
    by_cases h1 : statusIs b idx CellStatus.HIDDEN = false
    · rw [if_pos h1]
      exact hb
    · rw [if_neg h1]
      have hh : statusIs b idx CellStatus.HIDDEN = true := by
        cases hq : statusIs b idx CellStatus.HIDDEN
        · exact absurd hq h1
        · rfl
      have hlt : idx < b.status.length := statusIs_lt b idx _ hh
      have hmb : mineAt b idx = false := by
        show b.mines.getD idx false = false
        rw [hb.mines]
        exact hm0
      rw [if_neg (by rw [hmb]; exact Bool.false_ne_true)]
      have hgf : statusIs b idx CellStatus.FLAGGED = false := by
        have hgx := (statusIs_iff b idx CellStatus.HIDDEN).mp hh
        show decide (b.status.get? idx = some CellStatus.FLAGGED) = false
        rw [hgx]
        rfl
      have hb1 : OpenOK b0 { b with status := b.status.set idx CellStatus.OPENED } := by
        refine ⟨hb.topo, hb.mines, hb.counts, ?_, ?_, ?_⟩
        · show (b.status.set idx CellStatus.OPENED).length = _
          rw [List.length_set]
          exact hb.len
        · intro i hi
          by_cases hii : idx = i
          · subst hii
            exact Or.inr hm0
          · rw [statusIs_set_ne b idx _ i _ hii] at hi
            exact hb.opened i hi
        · intro i
          by_cases hii : idx = i
          · subst hii
            rw [statusIs_set_self b idx hlt CellStatus.OPENED CellStatus.FLAGGED]
            rw [← hb.flag idx, hgf]
            rfl
          · rw [statusIs_set_ne b idx _ i _ hii]
            exact hb.flag i
      by_cases h0 : countAt b idx = 0
      · rw [if_pos h0]
        have hidx0 : idx < b0.size := by
          rw [← hst, ← hb.len]
          exact hlt
        have hcnt0 : countAt b0 idx = 0 := by
          show b0.neighborMineCounts.getD idx _ = 0
          rw [← hb.counts]
          exact h0
        have hcc := hc idx hidx0
        rw [hm0] at hcc
        rw [if_neg Bool.false_ne_true] at hcc
        rw [hcnt0] at hcc
        have hcp0 : (b0.topo.getNeighbors idx).countP (fun n => mineAt b0 n) = 0 := by
          exact_mod_cast hcc.symm
        have hns : ∀ n ∈ b.topo.getNeighbors idx, mineAt b0 n = false := by
          intro n hn
          rw [hb.topo] at hn
          have hnm := List.countP_eq_zero.mp hcp0 n hn
          cases hq : mineAt b0 n
          · rfl
          · exact absurd hq hnm
        have hfold : ∀ (ns : List Nat) (acc : Board),
            (∀ n ∈ ns, mineAt b0 n = false) → OpenOK b0 acc →
            OpenOK b0 (ns.foldl (fun acc n => (openGo fuel acc n).1) acc) := by
          intro ns
          induction ns with
          | nil => intro acc _ h; exact h
          | cons n rest ihn =>
            intro acc hns2 h
            rw [List.foldl_cons]
            exact ihn _ (fun x hx => hns2 x (List.mem_cons_of_mem _ hx))
              (ih acc n h (hns2 n (List.mem_cons_self _ _)))
        exact hfold _ _ hns hb1
      · rw [if_neg h0]
        exact hb1

theorem sound_of_openOK (s : Solver) (hs : Sound s) (b : Board)
    (hb : OpenOK s.board b) : Sound { s with board := b } := by
  have hsz : b.size = s.board.size := by
    show b.topo.width * b.topo.height = _
    rw [hb.topo]
    rfl
  have hmine : ∀ i, mineAt b i = mineAt s.board i := by
    intro i
    show b.mines.getD i false = _
    rw [hb.mines]
    rfl
  have hcnt : ∀ i, countAt b i = countAt s.board i := by
    intro i
    show b.neighborMineCounts.getD i _ = _
    rw [hb.counts]
    rfl
  have hnb : ∀ i, b.topo.getNeighbors i = s.board.topo.getNeighbors i := by
    intro i
    rw [hb.topo]
  refine ⟨?_, ?_, ?_, ?_, ?_, ?_, ?_, ?_, ?_, ?_, ?_⟩
  · show b.mines.length = b.size
    rw [hb.mines, hsz]
    exact hs.lensm
  · show b.status.length = b.size
    rw [hb.len, hsz]
    exact hs.lenst
  · show AdjWF b.topo
    rw [hb.topo]
    exact hs.adj
  · show CountsOK b
    intro i hi
    rw [hsz] at hi
    have hcp : (s.board.topo.getNeighbors i).countP (fun n => mineAt b n) =
        (s.board.topo.getNeighbors i).countP (fun n => mineAt s.board n) :=
      countP_congr_mem _ _ _ (fun a _ => hmine a)
    rw [hcnt i, hmine i, hnb i, hcp]
    exact hs.counts i hi
  · show OpenedSafe b
    intro i hi hop
    rw [hmine i]
    rcases hb.opened i hop with h | h
    · exact hs.osafe i (hb.len ▸ hi) h
    · exact h
  · show NoFlags b
    intro i hi
    rw [hb.flag i]
    exact hs.noflag i (hb.len ▸ hi)
  · show s.totalMines = (minesTotal b : Int)
    have he : minesTotal b = minesTotal s.board := by
      show (List.range b.size).countP (fun i => mineAt b i) =
        (List.range s.board.size).countP (fun i => mineAt s.board i)
      rw [hsz]
      exact countP_congr_mem _ _ _ (fun a _ => hmine a)
    rw [he]
    exact hs.tm
  · intro i hi
    rw [hmine i]
    exact hs.km i hi
  · intro i hi
    rw [hmine i]
    exact hs.ks i hi
  · exact hs.kmnd
  · intro i hi
    show i < b.size
    rw [hsz]
    exact hs.kmlt i hi

theorem step_open_sound (s : Solver) (hs : Sound s) (i : Nat)
    (hm : mineAt s.board i = false) :
    Sound { s with board := (s.board.openCell i).1 } := by
  apply sound_of_openOK s hs
  exact openGo_ok s.board hs.lenst hs.counts _ s.board i (openOK_refl s.board) hm

theorem sound_new (b : Board) (tm : Int)
    (h1 : b.mines.length = b.size) (h2 : b.status.length = b.size)
    (h3 : AdjWF b.topo) (h4 : CountsOK b) (h5 : AllHidden b)
    (h6 : tm = (minesTotal b : Int)) :
    Sound (Solver.new b tm) := by
  refine ⟨h1, h2, h3, h4, ?_, ?_, h6, ?_, ?_, List.nodup_nil, ?_⟩
  · intro i hi hop
    have hop2 : b.status.get? i = some CellStatus.OPENED :=
      (statusIs_iff _ _ _).mp hop
    have hh := (statusIs_iff b i CellStatus.HIDDEN).mp (h5 i hi)
    rw [hh] at hop2
    exact absurd hop2 (by decide)
  · intro i hi
    have hh := (statusIs_iff b i CellStatus.HIDDEN).mp (h5 i hi)
    show decide (b.status.get? i = some CellStatus.FLAGGED) = false
    rw [hh]
    rfl
  · intro i hi
    cases hi
  · intro i hi
    cases hi
  · intro i hi
    cases hi

theorem initialSolver_sound (b : Board) (tm : Int) (start : Nat)
    (h1 : b.mines.length = b.size) (h2 : b.status.length = b.size)
    (h3 : AdjWF b.topo) (h4 : CountsOK b) (h5 : AllHidden b)
    (h6 : tm = (minesTotal b : Int)) (h7 : mineAt b start = false) :
    Sound (initialSolver b tm start) :=
  step_open_sound (Solver.new b tm) (sound_new b tm h1 h2 h3 h4 h5 h6) start h7

/-! ### Every state the checkSolvability loop passes through -/

theorem solverStep_sound (s1 s2 : Solver) (h : SolverStep s1 s2)
    (hs : Sound s1) : Sound s2 ∧ s2.board.mines = s1.board.mines := by
  cases h with
  | basic =>
    exact ⟨(solveBasicStep_sound s1 hs).1, by rw [(solveBasicStep_sound s1 hs).2.2.1]⟩
  | global =>
    exact ⟨(solveGlobalLogic_sound s1 hs).1, by rw [(solveGlobalLogic_sound s1 hs).2.2.1]⟩
  | deep =>
    exact ⟨(solveDeepLogic_sound s1 hs).1, by rw [(solveDeepLogic_sound s1 hs).2.1]⟩
  | openKnownSafe i hi =>
    refine ⟨step_open_sound s1 hs i (hs.ks i hi), ?_⟩
    exact (openGo_ok s1.board hs.lenst hs.counts _ s1.board i (openOK_refl s1.board)
      (hs.ks i hi)).mines

theorem solverReach_sound (s1 s2 : Solver) (h : SolverReach s1 s2)
    (hs : Sound s1) : Sound s2 ∧ s2.board.mines = s1.board.mines := by
  induction h with
  | refl => exact ⟨hs, rfl⟩
  | tail h1 hstep ih =>
    obtain ⟨hsb, hmb⟩ := ih
    obtain ⟨hsc, hmc⟩ := solverStep_sound _ _ hstep hsb
    exact ⟨hsc, hmc.trans hmb⟩

theorem openSafe_reach (l : List Nat) :
    ∀ (s : Solver) (p : Board × Bool), (∀ n ∈ l, n ∈ s.knownSafe) →
      SolverReach { s with board := p.1 }
        { s with board := (l.foldl (fun p n =>
            if statusIs p.1 n CellStatus.HIDDEN then ((p.1.openCell n).1, true)
            else p) p).1 } := by
  induction l with
  | nil => intro s p _; exact Relation.ReflTransGen.refl
  | cons n rest ih =>
    intro s p hl
    rw [List.foldl_cons]
    by_cases hn : statusIs p.1 n CellStatus.HIDDEN = true
    · rw [if_pos hn]
      refine Relation.ReflTransGen.trans (Relation.ReflTransGen.single ?_)
        (ih s _ (fun x hx => hl x (List.mem_cons_of_mem _ hx)))
      exact SolverStep.openKnownSafe { s with board := p.1 } n
        (hl n (List.mem_cons_self _ _))
    · rw [if_neg hn]
      exact ih s p (fun x hx => hl x (List.mem_cons_of_mem _ hx))

theorem condStep_reach (s : Solver) (r : Solver × Bool) (h : SolverReach s r.1)
    (f : Solver → Solver × Bool) (hf : ∀ t, SolverStep t (f t).1) :
    SolverReach s (if r.2 = true then (r.1, true) else f r.1).1 := by
  by_cases hb : r.2 = true
  · rw [if_pos hb]
    exact h
  · rw [if_neg hb]
    exact h.trans (Relation.ReflTransGen.single (hf r.1))

theorem outerLoop_reach (fuel : Nat) : ∀ s : Solver, SolverReach s (outerLoop fuel s) := by
  induction fuel with
  | zero => intro s; exact Relation.ReflTransGen.refl
  | succ fuel ih =>
    intro s
    simp only [outerLoop]
    set r1 := s.solveBasicStep with hr1
    set r2 := if r1.2 = true then (r1.1, true) else r1.1.solveGlobalLogic with hr2
    set r3 := if r2.2 = true then (r2.1, true) else r2.1.solveDeepLogic with hr3
    set r4 := openSafeList r3.1.board r3.1.knownSafe with hr4
    have h1 : SolverReach s r1.1 := Relation.ReflTransGen.single (SolverStep.basic s)
    have h2 : SolverReach s r2.1 := by
      rw [hr2]
      exact condStep_reach s r1 h1 Solver.solveGlobalLogic SolverStep.global
    have h3 : SolverReach s r3.1 := by
      rw [hr3]
      exact condStep_reach s r2 h2 Solver.solveDeepLogic SolverStep.deep
    have h4 : SolverReach r3.1 { r3.1 with board := r4.1 } := by
      rw [hr4]
      exact openSafe_reach r3.1.knownSafe r3.1 (r3.1.board, false) (fun n hn => hn)
    have h5 : SolverReach s { r3.1 with board := r4.1 } := h3.trans h4
    by_cases hc : r3.2 = true ∨ r4.2 = true
    · rw [if_pos hc]
      exact h5.trans (ih _)
    · rw [if_neg hc]
      exact h5

theorem checkSolvability_reach (b : Board) (tm : Int) (start : Nat) :
    SolverReach (initialSolver b tm start)
      ((Solver.new b tm).checkSolvability start).1 :=
  outerLoop_reach _ (initialSolver b tm start)

/-! ### Claim C1: solver soundness -/

/-- C1 (amended): on a well-formed, fully hidden board whose cached counts
agree with its mine array and whose true mine count equals totalMines, and
whose start cell is not a mine, every solver state reached while
checkSolvability(start) runs keeps only true mines in knownMines and only
non-mines in knownSafe; moreover the state checkSolvability returns is
such a reached state.  (The unamended claim, which does not require the
start cell to be mine-free, is refuted by the counterexample.) -/
theorem solver_soundness_amended (b : Board) (tm : Int) (start : Nat)
    (h1 : b.mines.length = b.size) (h2 : b.status.length = b.size)
    (h3 : AdjWF b.topo) (h4 : CountsOK b) (h5 : AllHidden b)
    (h6 : tm = (minesTotal b : Int)) (h7 : mineAt b start = false) :
    (∀ s, SolverReach (initialSolver b tm start) s →
      (∀ i ∈ s.knownMines, mineAt b i = true) ∧
      (∀ i ∈ s.knownSafe, mineAt b i = false)) ∧
    SolverReach (initialSolver b tm start)
      ((Solver.new b tm).checkSolvability start).1 := by
  have h0 := initialSolver_sound b tm start h1 h2 h3 h4 h5 h6 h7
  constructor
  · intro s hr
    obtain ⟨hsnd, hm⟩ := solverReach_sound _ s hr h0
    have hmines : s.board.mines = b.mines := by
      rw [hm]
      exact (openGo_ok b h2 h4 _ b start (openOK_refl b) h7).mines
    constructor
    · intro i hi
      have hx := hsnd.km i hi
      show b.mines.getD i false = true
      rw [← hmines]
      exact hx
    · intro i hi
      have hx := hsnd.ks i hi
      show b.mines.getD i false = false
      rw [← hmines]
      exact hx
  · exact checkSolvability_reach b tm start

/-- C1 counterexample: a 2 x 1 SQUARE board with its only mine on the
start cell satisfies every premise of the claim (counts agree with mines,
totalMines equals the true mine count), yet checkSolvability(0) puts
cell 1 into knownMines although mines[1] = false: opening a mined start
cell makes Tier 2 mark the wrong cell. -/
theorem solver_soundness_cex :
    CountsOK bMineStart ∧
    (1 : Int) = (minesTotal bMineStart : Int) ∧
    ((Solver.new bMineStart 1).checkSolvability 0).1.knownMines.contains 1 = true ∧
    mineAt bMineStart 1 = false := by
  refine ⟨?_, by decide, by decide, by decide⟩
  unfold CountsOK
  decide

/-- C1 witness: the amended soundness theorem applied to the concrete
mine-free 2 x 2 board with start cell 0. -/
theorem solver_soundness_amended_witness :
    (bNoMines.mines.length = bNoMines.size ∧
     bNoMines.status.length = bNoMines.size ∧
     AdjWF bNoMines.topo ∧ CountsOK bNoMines ∧ AllHidden bNoMines ∧
     (0 : Int) = (minesTotal bNoMines : Int) ∧ mineAt bNoMines 0 = false) ∧
    ((∀ s, SolverReach (initialSolver bNoMines 0 0) s →
        (∀ i ∈ s.knownMines, mineAt bNoMines i = true) ∧
        (∀ i ∈ s.knownSafe, mineAt bNoMines i = false)) ∧
      SolverReach (initialSolver bNoMines 0 0)
        ((Solver.new bNoMines 0).checkSolvability 0).1) := by
  have ha : AdjWF bNoMines.topo := by
    unfold AdjWF
    decide
  have hc : CountsOK bNoMines := by
    unfold CountsOK
    decide
  have hh : AllHidden bNoMines := by
    unfold AllHidden
    decide
  exact ⟨⟨by decide, by decide, ha, hc, hh, by decide, by decide⟩,
    solver_soundness_amended bNoMines 0 0 (by decide) (by decide) ha hc hh
      (by decide) (by decide)⟩

/-! ### Claim C9: disjointness and the cardinality bound -/

theorem not_mem_of_contains_false (l : List Nat) (x : Nat)
    (h : l.contains x = false) : x ∉ l := by
  intro hm
  rw [(contains_iff_mem l x).mpr hm] at h
  cases h

theorem basicStepGo_disjoint (l : List Nat) :
    ∀ s changed, (∀ i ∈ s.knownMines, i ∉ s.knownSafe) →
      ∀ i ∈ (basicStepGo s changed l).1.knownMines,
        i ∉ (basicStepGo s changed l).1.knownSafe := by
  induction l with
  | nil => intro s changed h; exact h
  | cons c rest ih =>
    intro s changed hdisj
    simp only [basicStepGo]
    by_cases hguard : statusIs s.board c .OPENED = true ∧ countAt s.board c > 0
    case neg =>
      rw [if_neg hguard]
      exact ih s changed hdisj
    case pos =>
    rw [if_pos hguard]
    have hmemf : ∀ x ∈ (s.board.topo.getNeighbors c).filter (fun n =>
        decide (statusIs s.board n .HIDDEN = true ∧ s.knownSafe.contains n = false ∧
          s.knownMines.contains n = false)),
        s.knownSafe.contains x = false ∧ s.knownMines.contains x = false := by
      intro x hx
      rw [List.mem_filter] at hx
      have hp := of_decide_eq_true hx.2
      exact ⟨hp.2.1, hp.2.2⟩
    split_ifs with h2 h3 c1 c2 c2
    · exact hdisj
    · exact hdisj
    · exfalso
      rcases c2 with ⟨hc2, _⟩
      rcases c1 with ⟨_, hc1⟩
      rw [hc2] at hc1
      exact absurd hc1 (by decide)
    · obtain ⟨f1, _, _⟩ := addMinesFold_facts _ s.knownMines changed
      apply ih
      intro i hi
      rcases f1 i hi with hi2 | hi2
      · exact hdisj i hi2
      · exact not_mem_of_contains_false _ _ (hmemf i hi2).1
    · obtain ⟨g1, _, _⟩ := addSafeFold_facts _ s.knownMines s.knownSafe _
      apply ih
      intro i hi hmem
      rcases g1 i hmem with hm2 | hm2
      · exact hdisj i hi hm2
      · rw [(contains_iff_mem _ _).mpr hi] at hm2
        exact absurd hm2.2 (by simp)
    · apply ih
      exact hdisj

theorem solveBasicStep_disjoint (s : Solver)
    (hdisj : ∀ i ∈ s.knownMines, i ∉ s.knownSafe) :
    ∀ i ∈ s.solveBasicStep.1.knownMines, i ∉ s.solveBasicStep.1.knownSafe :=
  basicStepGo_disjoint _ s false hdisj

theorem solveGlobalLogic_disjoint (s : Solver)
    (hdisj : ∀ i ∈ s.knownMines, i ∉ s.knownSafe) :
    ∀ i ∈ s.solveGlobalLogic.1.knownMines, i ∉ s.solveGlobalLogic.1.knownSafe := by
  simp only [Solver.solveGlobalLogic]
  have hmemf : ∀ x ∈ (List.range (s.board.topo.width * s.board.topo.height)).filter
      (fun i => decide (statusIs s.board i .HIDDEN = true ∧
        s.knownSafe.contains i = false ∧ s.knownMines.contains i = false)),
      s.knownSafe.contains x = false ∧ s.knownMines.contains x = false := by
    intro x hx
    rw [List.mem_filter] at hx
    have hp := of_decide_eq_true hx.2
    exact ⟨hp.2.1, hp.2.2⟩
  split_ifs with h1 h2 h3 h4
  · exact hdisj
  · exact hdisj
  · obtain ⟨f1, _, _⟩ := foldl_sAdd_facts _ s.knownMines
    intro i hi
    rcases f1 i hi with hi2 | hi2
    · exact hdisj i hi2
    · exact not_mem_of_contains_false _ _ (hmemf i hi2).1
  · obtain ⟨f1, _, _⟩ := foldl_sAdd_facts _ s.knownSafe
    intro i hi hmem
    rcases f1 i hmem with hm2 | hm2
    · exact hdisj i hi hm2
    · have := (hmemf i hm2).2
      rw [(contains_iff_mem _ _).mpr hi] at this
      cases this
  · exact hdisj

theorem foldl_preserve_nodup {α : Type} :
    ∀ (l : List α) (f : List Nat → α → List Nat),
      (∀ acc a, a ∈ l → acc.Nodup → (f acc a).Nodup) →
      ∀ acc, acc.Nodup → (l.foldl f acc).Nodup := by
  intro l
  induction l with
  | nil => intro f _ acc h; exact h
  | cons a rest ih =>
    intro f hf acc h
    rw [List.foldl_cons]
    exact ih f (fun acc2 a2 ha2 => hf acc2 a2 (List.mem_cons_of_mem _ ha2)) (f acc a)
      (hf acc a (List.mem_cons_self _ _) h)

theorem frontier_nodup (s : Solver) : s.frontier.Nodup := by
  unfold Solver.frontier
  apply foldl_preserve_nodup
  · intro acc i _ hacc
    split_ifs with hg
    · apply foldl_preserve_nodup
      · intro acc2 n _ hacc2
        split_ifs with hp
        · exact sAdd_nodup _ _ hacc2
        · exact hacc2
      · exact hacc
    · exact hacc
  · exact List.nodup_nil

theorem frontier_unknown (s : Solver) :
    ∀ t ∈ s.frontier, s.knownMines.contains t = false ∧
      s.knownSafe.contains t = false := by
  unfold Solver.frontier
  apply foldl_preserve_mem
  · intro acc i _ hacc t ht
    by_cases hguard : statusIs s.board i .OPENED = true ∧ countAt s.board i > 0
    · rw [if_pos hguard] at ht
      revert t ht
      apply foldl_preserve_mem
      · intro acc2 n _ hacc2 t ht2
        by_cases hin : statusIs s.board n .HIDDEN = true ∧ s.knownSafe.contains n = false ∧
            s.knownMines.contains n = false
        · rw [if_pos hin] at ht2
          rcases (sAdd_mem _ _ _).mp ht2 with ht3 | rfl
          · exact hacc2 t ht3
          · exact ⟨hin.2.2, hin.2.1⟩
        · rw [if_neg hin] at ht2
          exact hacc2 t ht2
      · exact hacc
    · rw [if_neg hguard] at ht
      exact hacc t ht
  · intro t ht
    cases ht

theorem deepGo_disjoint (fuel : Nat) (l : List Nat) :
    ∀ s changed, (∀ i ∈ s.knownMines, i ∉ s.knownSafe) →
      (∀ x ∈ l, x ∉ s.knownMines ∧ x ∉ s.knownSafe) → l.Nodup →
      ∀ i ∈ (deepGo fuel s changed l).1.knownMines,
        i ∉ (deepGo fuel s changed l).1.knownSafe := by
  induction l with
  | nil => intro s changed h _ _; exact h
  | cons t rest ih =>
    intro s changed hdisj hout hnd
    simp only [deepGo]
    have hnd2 : rest.Nodup := (List.nodup_cons.mp hnd).2
    have htrest : t ∉ rest := (List.nodup_cons.mp hnd).1
    split_ifs with hc1 hc2
    · apply ih _ true ?_ ?_ hnd2
      · intro i hi hmem
        rcases (sAdd_mem _ _ _).mp hmem with h2 | rfl
        · exact hdisj i hi h2
        · exact (hout i (List.mem_cons_self _ _)).1 hi
      · intro x hx
        refine ⟨(hout x (List.mem_cons_of_mem _ hx)).1, ?_⟩
        intro hmem
        rcases (sAdd_mem _ _ _).mp hmem with h2 | rfl
        · exact (hout x (List.mem_cons_of_mem _ hx)).2 h2
        · exact htrest hx
    · apply ih _ true ?_ ?_ hnd2
      · intro i hi hmem
        rcases (sAdd_mem _ _ _).mp hi with h2 | rfl
        · exact hdisj i h2 hmem
        · exact (hout i (List.mem_cons_self _ _)).2 hmem
      · intro x hx
        refine ⟨?_, (hout x (List.mem_cons_of_mem _ hx)).2⟩
        intro hmem
        rcases (sAdd_mem _ _ _).mp hmem with h2 | rfl
        · exact (hout x (List.mem_cons_of_mem _ hx)).1 h2
        · exact htrest hx
    · exact ih s changed hdisj (fun x hx => hout x (List.mem_cons_of_mem _ hx)) hnd2

theorem solveDeepLogic_disjoint (s : Solver)
    (hdisj : ∀ i ∈ s.knownMines, i ∉ s.knownSafe) :
    ∀ i ∈ s.solveDeepLogic.1.knownMines, i ∉ s.solveDeepLogic.1.knownSafe := by
  apply deepGo_disjoint _ s.frontier s false hdisj ?_ (frontier_nodup s)
  intro x hx
  obtain ⟨hm1, hm2⟩ := frontier_unknown s x hx
  exact ⟨not_mem_of_contains_false _ _ hm1, not_mem_of_contains_false _ _ hm2⟩

theorem km_le_tm (s : Solver) (hs : Sound s) :
    (s.knownMines.length : Int) ≤ s.totalMines := by
  have he : (List.range s.board.size).countP (fun n => s.knownMines.contains n) =
      s.knownMines.length := countP_range_contains _ _ hs.kmnd hs.kmlt
  have hle : (List.range s.board.size).countP (fun n => s.knownMines.contains n) ≤
      (List.range s.board.size).countP (fun n => mineAt s.board n) := by
    apply countP_mono_mem
    intro a _ hcc
    exact hs.km a ((contains_iff_mem _ _).mp hcc)
  rw [hs.tm]
  have hnat : s.knownMines.length ≤ minesTotal s.board := by
    show s.knownMines.length ≤ (List.range s.board.size).countP (fun n => mineAt s.board n)
    omega
  exact_mod_cast hnat

/-- C9 (amended): the two halves of the claimed invariant behave
differently.  Disjointness of knownMines and knownSafe is preserved by all
three tiers from any state with disjoint sets.  The cardinality bound
|knownMines| <= totalMines holds for a freshly constructed solver when
totalMines is nonnegative, and is preserved by the tiers from any sound
state (counts consistent with mines and totalMines equal to the true mine
count); plain preservation from an arbitrary state satisfying only the
claimed predicate is refuted by the counterexample. -/
theorem solver_invariants_amended (b : Board) (tm : Int) (u s : Solver)
    (htm : 0 ≤ tm)
    (hud : ∀ i ∈ u.knownMines, i ∉ u.knownSafe)
    (hs : Sound s) :
    SolverInv (Solver.new b tm) ∧
    ((∀ i ∈ u.solveBasicStep.1.knownMines, i ∉ u.solveBasicStep.1.knownSafe) ∧
     (∀ i ∈ u.solveGlobalLogic.1.knownMines, i ∉ u.solveGlobalLogic.1.knownSafe) ∧
     (∀ i ∈ u.solveDeepLogic.1.knownMines, i ∉ u.solveDeepLogic.1.knownSafe)) ∧
    (SolverInv s ∧ SolverInv s.solveBasicStep.1 ∧
     SolverInv s.solveGlobalLogic.1 ∧ SolverInv s.solveDeepLogic.1) := by
  have hdof : ∀ t : Solver, Sound t → ∀ i ∈ t.knownMines, i ∉ t.knownSafe := by
    intro t ht i hi hmem
    have hx := ht.km i hi
    have hy := ht.ks i hmem
    rw [hx] at hy
    cases hy
  refine ⟨⟨fun i hi => absurd hi (List.not_mem_nil i), by simpa using htm⟩,
    ⟨solveBasicStep_disjoint u hud, solveGlobalLogic_disjoint u hud,
      solveDeepLogic_disjoint u hud⟩, ⟨hdof s hs, km_le_tm s hs⟩, ?_, ?_, ?_⟩
  · have h1 := (solveBasicStep_sound s hs).1
    exact ⟨hdof _ h1, km_le_tm _ h1⟩
  · have h1 := (solveGlobalLogic_sound s hs).1
    exact ⟨hdof _ h1, km_le_tm _ h1⟩
  · have h1 := (solveDeepLogic_sound s hs).1
    exact ⟨hdof _ h1, km_le_tm _ h1⟩

/-- C9 counterexample: on the 3 x 1 board with a hidden mine whose counts
are consistent, a fresh solver with totalMines = 0 satisfies the claimed
predicate (empty disjoint sets, 0 <= 0), yet a single solveBasicStep marks
the hidden cell as a mine and |knownMines| = 1 > 0 = totalMines: the
claimed predicate alone is not preserved. -/
theorem solver_invariants_cex :
    (∀ i ∈ (Solver.new bThree 0).knownMines, i ∉ (Solver.new bThree 0).knownSafe) ∧
    ((Solver.new bThree 0).knownMines.length : Int) ≤ (Solver.new bThree 0).totalMines ∧
    ¬(((Solver.new bThree 0).solveBasicStep.1.knownMines.length : Int) ≤
        (Solver.new bThree 0).solveBasicStep.1.totalMines) := by
  refine ⟨?_, by decide, by decide⟩
  intro i hi
  cases hi

/-- C9 witness: the amended invariant theorem applied at the concrete
3 x 1 board with the correct totalMines = 1; the same fresh solver serves
as both the disjoint state and the sound state. -/
theorem solver_invariants_amended_witness :
    ((0 : Int) ≤ 1 ∧
     (∀ i ∈ (Solver.new bThree 1).knownMines, i ∉ (Solver.new bThree 1).knownSafe) ∧
     Sound (Solver.new bThree 1)) ∧
    (SolverInv (Solver.new bThree 1) ∧
     ((∀ i ∈ (Solver.new bThree 1).solveBasicStep.1.knownMines,
        i ∉ (Solver.new bThree 1).solveBasicStep.1.knownSafe) ∧
      (∀ i ∈ (Solver.new bThree 1).solveGlobalLogic.1.knownMines,
        i ∉ (Solver.new bThree 1).solveGlobalLogic.1.knownSafe) ∧
      (∀ i ∈ (Solver.new bThree 1).solveDeepLogic.1.knownMines,
        i ∉ (Solver.new bThree 1).solveDeepLogic.1.knownSafe)) ∧
     (SolverInv (Solver.new bThree 1) ∧
      SolverInv (Solver.new bThree 1).solveBasicStep.1 ∧
      SolverInv (Solver.new bThree 1).solveGlobalLogic.1 ∧
      SolverInv (Solver.new bThree 1).solveDeepLogic.1)) := by
  have hsnd : Sound (Solver.new bThree 1) := by
    refine ⟨by decide, by decide, ?_, ?_, ?_, ?_, by decide, ?_, ?_, List.nodup_nil, ?_⟩
    · unfold AdjWF
      decide
    · unfold CountsOK
      decide
    · unfold OpenedSafe
      decide
    · unfold NoFlags
      decide
    · intro i hi
      cases hi
    · intro i hi
      cases hi
    · intro i hi
      cases hi
  have hud : ∀ i ∈ (Solver.new bThree 1).knownMines,
      i ∉ (Solver.new bThree 1).knownSafe := by
    intro i hi
    cases hi
  exact ⟨⟨by decide, hud, hsnd⟩,
    solver_invariants_amended bThree 1 (Solver.new bThree 1) (Solver.new bThree 1)
      (by decide) hud hsnd⟩

/-! ### Claim C2: termination of the flood fill and of the outer loop -/

theorem countP_set_of_get {α : Type} (p : α → Bool) :
    ∀ (l : List α) (i : Nat) (v w : α), l.get? i = some v → p v = true →
      p w = false → (l.set i w).countP p + 1 = l.countP p := by
  intro l
  induction l with
  | nil => intro i v w hg _ _; cases hg
  | cons a t ih =>
    intro i v w hg hpv hpw
    cases i with
    | zero =>
      have ha : a = v := Option.some.inj (hg : some a = some v)
      show (w :: t).countP p + 1 = (a :: t).countP p
      rw [List.countP_cons, List.countP_cons, hpw, ha, hpv]
      simp
    | succ i =>
      have hg2 : t.get? i = some v := hg
      show (a :: t.set i w).countP p + 1 = (a :: t).countP p
      rw [List.countP_cons, List.countP_cons]
      have := ih i v w hg2 hpv hpw
      omega

theorem openGo_comp (fuel : Nat) : ∀ b idx,
    (openGo fuel b idx).1.topo = b.topo ∧
    (openGo fuel b idx).1.mines = b.mines ∧
    (openGo fuel b idx).1.neighborMineCounts = b.neighborMineCounts ∧
    (openGo fuel b idx).1.status.length = b.status.length ∧
    hiddenCount (openGo fuel b idx).1 ≤ hiddenCount b := by
  induction fuel with
  | zero => intro b idx; exact ⟨rfl, rfl, rfl, rfl, le_refl _⟩
  | succ fuel ih =>
    intro b idx
    simp only [openGo]
    by_cases h1 : statusIs b idx CellStatus.HIDDEN = false
    · rw [if_pos h1]
      exact ⟨rfl, rfl, rfl, rfl, le_refl _⟩
    · rw [if_neg h1]
      have hh : statusIs b idx CellStatus.HIDDEN = true := by
        cases hq : statusIs b idx CellStatus.HIDDEN
        · exact absurd hq h1
        · rfl
      have hget : b.status.get? idx = some CellStatus.HIDDEN :=
        (statusIs_iff _ _ _).mp hh
      have hdec : hiddenCount { b with status := b.status.set idx CellStatus.OPENED } + 1 =
          hiddenCount b :=
        countP_set_of_get _ b.status idx CellStatus.HIDDEN CellStatus.OPENED hget rfl rfl
      have hlen1 : ({ b with status := b.status.set idx CellStatus.OPENED } : Board).status.length =
          b.status.length := by
        show (b.status.set idx CellStatus.OPENED).length = b.status.length
        rw [List.length_set]
      by_cases hm : mineAt b idx = true
      · rw [if_pos hm]
        refine ⟨rfl, rfl, rfl, hlen1, ?_⟩
        show hiddenCount { b with status := b.status.set idx CellStatus.OPENED } ≤
          hiddenCount b
        omega
      · rw [if_neg hm]
        by_cases h0 : countAt b idx = 0
        · rw [if_pos h0]
          have hfold : ∀ (ns : List Nat) (acc : Board),
              acc.topo = b.topo → acc.mines = b.mines →
              acc.neighborMineCounts = b.neighborMineCounts →
              acc.status.length = b.status.length → hiddenCount acc ≤ hiddenCount b →
              ((ns.foldl (fun acc n => (openGo fuel acc n).1) acc).topo = b.topo ∧
               (ns.foldl (fun acc n => (openGo fuel acc n).1) acc).mines = b.mines ∧
               (ns.foldl (fun acc n => (openGo fuel acc n).1) acc).neighborMineCounts =
                 b.neighborMineCounts ∧
               (ns.foldl (fun acc n => (openGo fuel acc n).1) acc).status.length =
                 b.status.length ∧
               hiddenCount (ns.foldl (fun acc n => (openGo fuel acc n).1) acc) ≤
                 hiddenCount b) := by
            intro ns
            induction ns with
            | nil => intro acc e1 e2 e3 e4 e5; exact ⟨e1, e2, e3, e4, e5⟩
            | cons n rest ihn =>
              intro acc e1 e2 e3 e4 e5
              rw [List.foldl_cons]
              obtain ⟨g1, g2, g3, g4, g5⟩ := ih acc n
              exact ihn _ (g1.trans e1) (g2.trans e2) (g3.trans e3) (g4.trans e4)
                (le_trans g5 e5)
          exact hfold _ _ rfl rfl rfl hlen1 (by omega)
        · rw [if_neg h0]
          refine ⟨rfl, rfl, rfl, hlen1, ?_⟩
          show hiddenCount { b with status := b.status.set idx CellStatus.OPENED } ≤
            hiddenCount b
          omega

theorem openGo_stab : ∀ fuel b idx, hiddenCount b < fuel →
    openGo fuel b idx = openGo (fuel + 1) b idx := by
  intro fuel
  induction fuel with
  | zero => intro b idx h; exact absurd h (Nat.not_lt_zero _)
  | succ fuel ih =>
    intro b idx hmu
    show openGo (fuel + 1) b idx = openGo (fuel + 1 + 1) b idx
    conv_lhs => rw [openGo]
    conv_rhs => rw [openGo]
    by_cases h1 : statusIs b idx CellStatus.HIDDEN = false
    · rw [if_pos h1, if_pos h1]
    · rw [if_neg h1, if_neg h1]
      have hh : statusIs b idx CellStatus.HIDDEN = true := by
        cases hq : statusIs b idx CellStatus.HIDDEN
        · exact absurd hq h1
        · rfl
      have hget : b.status.get? idx = some CellStatus.HIDDEN :=
        (statusIs_iff _ _ _).mp hh
      have hdec : hiddenCount { b with status := b.status.set idx CellStatus.OPENED } + 1 =
          hiddenCount b :=
        countP_set_of_get _ b.status idx CellStatus.HIDDEN CellStatus.OPENED hget rfl rfl
      by_cases hm : mineAt b idx = true
      · rw [if_pos hm, if_pos hm]
      · rw [if_neg hm, if_neg hm]
        by_cases h0 : countAt b idx = 0
        · rw [if_pos h0, if_pos h0]
          have hmu1 : hiddenCount { b with status := b.status.set idx CellStatus.OPENED } <
              fuel := by omega
          have hfold : ∀ (ns : List Nat) (acc : Board), hiddenCount acc < fuel →
              ns.foldl (fun acc n => (openGo fuel acc n).1) acc =
              ns.foldl (fun acc n => (openGo (fuel + 1) acc n).1) acc := by
            intro ns
            induction ns with
            | nil => intro acc _; rfl
            | cons n rest ihn =>
              intro acc hacc
              rw [List.foldl_cons, List.foldl_cons]
              rw [← ih acc n hacc]
              exact ihn ((openGo fuel acc n).1)
                (lt_of_le_of_lt (openGo_comp fuel acc n).2.2.2.2 hacc)
          rw [hfold (b.topo.getNeighbors idx)
            { b with status := b.status.set idx CellStatus.OPENED } hmu1]
        · rw [if_neg h0, if_neg h0]

theorem openGo_add (b : Board) (idx : Nat) (f : Nat) (h : hiddenCount b < f) :
    ∀ k, openGo f b idx = openGo (f + k) b idx := by
  intro k
  induction k with
  | zero => rfl
  | succ k ihk =>
    rw [ihk]
    exact openGo_stab (f + k) b idx (by omega)

theorem openGo_eq_openCell (b : Board) (idx : Nat) (fuel : Nat)
    (h : hiddenCount b < fuel) :
    openGo fuel b idx = b.openCell idx := by
  have hmu : hiddenCount b < b.status.length + 1 :=
    lt_of_le_of_lt (List.countP_le_length _) (by omega)
  show openGo fuel b idx = openGo (b.status.length + 1) b idx
  rcases le_total fuel (b.status.length + 1) with hle | hle
  · have e := openGo_add b idx fuel h (b.status.length + 1 - fuel)
    rw [show fuel + (b.status.length + 1 - fuel) = b.status.length + 1 from by omega] at e
    exact e
  · have e := openGo_add b idx (b.status.length + 1) hmu (fuel - (b.status.length + 1))
    rw [show b.status.length + 1 + (fuel - (b.status.length + 1)) = fuel from by omega] at e
    exact e.symm

theorem openCell_hidden_dec (b : Board) (n : Nat)
    (h : statusIs b n CellStatus.HIDDEN = true) :
    hiddenCount (b.openCell n).1 < hiddenCount b := by
  show hiddenCount (openGo (b.status.length + 1) b n).1 < hiddenCount b
  simp only [openGo]
  rw [if_neg (show ¬(statusIs b n CellStatus.HIDDEN = false) from fun hc => by
    rw [h] at hc; cases hc)]
  have hget : b.status.get? n = some CellStatus.HIDDEN := (statusIs_iff _ _ _).mp h
  have hdec : hiddenCount { b with status := b.status.set n CellStatus.OPENED } + 1 =
      hiddenCount b :=
    countP_set_of_get _ b.status n CellStatus.HIDDEN CellStatus.OPENED hget rfl rfl
  by_cases hm : mineAt b n = true
  · rw [if_pos hm]
    show hiddenCount { b with status := b.status.set n CellStatus.OPENED } < hiddenCount b
    omega
  · rw [if_neg hm]
    by_cases h0 : countAt b n = 0
    · rw [if_pos h0]
      have hfold : ∀ (ns : List Nat) (acc : Board),
          hiddenCount (ns.foldl (fun acc m => (openGo b.status.length acc m).1) acc) ≤
          hiddenCount acc := by
        intro ns
        induction ns with
        | nil => intro acc; exact le_refl _
        | cons m rest ihn =>
          intro acc
          rw [List.foldl_cons]
          exact le_trans (ihn _) (openGo_comp b.status.length acc m).2.2.2.2
      show hiddenCount ((b.topo.getNeighbors n).foldl
        (fun acc m => (openGo b.status.length acc m).1)
        { b with status := b.status.set n CellStatus.OPENED }) < hiddenCount b
      exact lt_of_le_of_lt (hfold _ _) (by omega)
    · rw [if_neg h0]
      show hiddenCount { b with status := b.status.set n CellStatus.OPENED } < hiddenCount b
      omega

theorem nodup_length_le (l : List Nat) (n : Nat) (nd : l.Nodup)
    (hb : ∀ x ∈ l, x < n) : l.length ≤ n := by
  rw [← countP_range_contains n l nd hb]
  exact le_trans (List.countP_le_length _) (le_of_eq (List.length_range n))

theorem addMinesFold_grow (ns : List Nat) :
    ∀ km changed,
      km.length ≤ (addMinesFold km changed ns).1.length ∧
      ((addMinesFold km changed ns).2 = changed ∨
        ((addMinesFold km changed ns).2 = true ∧
          km.length < (addMinesFold km changed ns).1.length)) := by
  induction ns with
  | nil => intro km changed; exact ⟨le_refl _, Or.inl rfl⟩
  | cons n rest ih =>
    intro km changed
    by_cases hc : km.contains n
    · have e : addMinesFold km changed (n :: rest) = addMinesFold km changed rest := by
        unfold addMinesFold
        rw [List.foldl_cons]
        congr 1
        show (if km.contains n = true then (km, changed) else (km ++ [n], true)) =
          (km, changed)
        rw [if_pos hc]
      rw [e]
      exact ih km changed
    · have e : addMinesFold km changed (n :: rest) = addMinesFold (km ++ [n]) true rest := by
        unfold addMinesFold
        rw [List.foldl_cons]
        congr 1
        show (if km.contains n = true then (km, changed) else (km ++ [n], true)) =
          (km ++ [n], true)
        rw [if_neg hc]
      rw [e]
      obtain ⟨g1, g2⟩ := ih (km ++ [n]) true
      have hlen : (km ++ [n]).length = km.length + 1 := by simp
      refine ⟨by omega, Or.inr ⟨?_, by omega⟩⟩
      rcases g2 with h | h
      · exact h
      · exact h.1

theorem addSafeFold_grow (ns : List Nat) (km : List Nat) :
    ∀ ks changed,
      ks.length ≤ (addSafeFold ks km changed ns).1.length ∧
      ((addSafeFold ks km changed ns).2 = changed ∨
        ((addSafeFold ks km changed ns).2 = true ∧
          ks.length < (addSafeFold ks km changed ns).1.length)) := by
  induction ns with
  | nil => intro ks changed; exact ⟨le_refl _, Or.inl rfl⟩
  | cons n rest ih =>
    intro ks changed
    by_cases hc : ks.contains n = false ∧ km.contains n = false
    · have e : addSafeFold ks km changed (n :: rest) = addSafeFold (ks ++ [n]) km true rest := by
        unfold addSafeFold
        rw [List.foldl_cons]
        congr 1
        show (if ks.contains n = false ∧ km.contains n = false then (ks ++ [n], true)
          else (ks, changed)) = (ks ++ [n], true)
        rw [if_pos hc]
      rw [e]
      obtain ⟨g1, g2⟩ := ih (ks ++ [n]) true
      have hlen : (ks ++ [n]).length = ks.length + 1 := by simp
      refine ⟨by omega, Or.inr ⟨?_, by omega⟩⟩
      rcases g2 with h | h
      · exact h
      · exact h.1
    · have e : addSafeFold ks km changed (n :: rest) = addSafeFold ks km changed rest := by
        unfold addSafeFold
        rw [List.foldl_cons]
        congr 1
        show (if ks.contains n = false ∧ km.contains n = false then (ks ++ [n], true)
          else (ks, changed)) = (ks, changed)
        rw [if_neg hc]
      rw [e]
      exact ih ks changed

theorem foldl_sAdd_length (ns : List Nat) :
    ∀ l, l.length ≤ (ns.foldl sAdd l).length ∧
      ((∃ x ∈ ns, x ∉ l) → l.length < (ns.foldl sAdd l).length) := by
  induction ns with
  | nil =>
    intro l
    refine ⟨le_refl _, ?_⟩
    rintro ⟨x, hx, _⟩
    exact absurd hx (List.not_mem_nil x)
  | cons n rest ih =>
    intro l
    rw [List.foldl_cons]
    obtain ⟨g1, g2⟩ := ih (sAdd l n)
    have hlen : l.length ≤ (sAdd l n).length := by
      unfold sAdd
      split_ifs
      · exact le_refl _
      · simp
    refine ⟨le_trans hlen g1, ?_⟩
    rintro ⟨x, hx, hxl⟩
    rcases List.mem_cons.mp hx with heq | hx2
    · have hnl : n ∉ l := by rw [← heq]; exact hxl
      have hstep : (sAdd l n).length = l.length + 1 := by
        unfold sAdd
        rw [if_neg (fun hcc => hnl ((contains_iff_mem _ _).mp hcc))]
        simp
      omega
    · by_cases hxn : x ∈ sAdd l n
      · rcases (sAdd_mem l n x).mp hxn with h3 | heq2
        · exact absurd h3 hxl
        · have hnl : n ∉ l := by rw [← heq2]; exact hxl
          have hstep : (sAdd l n).length = l.length + 1 := by
            unfold sAdd
            rw [if_neg (fun hcc => hnl ((contains_iff_mem _ _).mp hcc))]
            simp
          omega
      · exact lt_of_le_of_lt hlen (g2 ⟨x, hx2, hxn⟩)

theorem basicStepGo_term (l : List Nat) :
    ∀ s changed, LoopWF s →
      LoopWF (basicStepGo s changed l).1 ∧
      (basicStepGo s changed l).1.board = s.board ∧
      setSum s ≤ setSum (basicStepGo s changed l).1 ∧
      ((basicStepGo s changed l).2 = true → changed = true ∨
        setSum s < setSum (basicStepGo s changed l).1) := by
  induction l with
  | nil => intro s changed hwf; exact ⟨hwf, rfl, le_refl _, fun h => Or.inl h⟩
  | cons c rest ih =>
    intro s changed hwf
    simp only [basicStepGo]
    by_cases hguard : statusIs s.board c .OPENED = true ∧ countAt s.board c > 0
    case neg =>
      rw [if_neg hguard]
      exact ih s changed hwf
    case pos =>
    rw [if_pos hguard]
    have hcsz : c < s.board.size := by
      rw [← hwf.lenst]
      exact statusIs_lt _ _ _ hguard.1
    have hmemf : ∀ x ∈ (s.board.topo.getNeighbors c).filter (fun n =>
        decide (statusIs s.board n .HIDDEN = true ∧ s.knownSafe.contains n = false ∧
          s.knownMines.contains n = false)), x < s.board.size := by
      intro x hx
      rw [List.mem_filter] at hx
      exact hwf.adj c hcsz x hx.1
    split_ifs with h2 h3 c1 c2 c2
    · exact ⟨⟨hwf.lenst, hwf.adj, hwf.kmnd, hwf.ksnd, hwf.kmlt, hwf.kslt⟩, rfl,
        le_refl _, fun h => absurd h (by simp)⟩
    · exact ⟨⟨hwf.lenst, hwf.adj, hwf.kmnd, hwf.ksnd, hwf.kmlt, hwf.kslt⟩, rfl,
        le_refl _, fun h => absurd h (by simp)⟩
    · exfalso
      rcases c2 with ⟨hc2, _⟩
      rcases c1 with ⟨_, hc1⟩
      rw [hc2] at hc1
      exact absurd hc1 (by decide)
    · -- mines branch
      obtain ⟨f1, f2, _⟩ := addMinesFold_facts _ s.knownMines changed
      obtain ⟨glen, gflag⟩ := addMinesFold_grow _ s.knownMines changed
      have hwf2 : LoopWF { s with
          knownMines := (addMinesFold s.knownMines changed
            ((s.board.topo.getNeighbors c).filter (fun n =>
              decide (statusIs s.board n .HIDDEN = true ∧
                s.knownSafe.contains n = false ∧
                s.knownMines.contains n = false)))).1,
          knownSafe := s.knownSafe } := by
        refine ⟨hwf.lenst, hwf.adj, f2 hwf.kmnd, hwf.ksnd, ?_, hwf.kslt⟩
        intro i hi
        rcases f1 i hi with h | h
        · exact hwf.kmlt i h
        · exact hmemf i h
      obtain ⟨iw, ib, isum, iflag⟩ := ih _ _ hwf2
      have hstep : setSum s ≤ setSum { s with
          knownMines := (addMinesFold s.knownMines changed
            ((s.board.topo.getNeighbors c).filter (fun n =>
              decide (statusIs s.board n .HIDDEN = true ∧
                s.knownSafe.contains n = false ∧
                s.knownMines.contains n = false)))).1,
          knownSafe := s.knownSafe } := Nat.add_le_add_right glen _
      refine ⟨iw, ib, le_trans hstep isum, ?_⟩
      intro hx
      rcases iflag hx with hc' | hstrict
      · rcases gflag with hg | hg
        · rw [← hg]
          exact Or.inl hc'
        · exact Or.inr (lt_of_lt_of_le (Nat.add_lt_add_right hg.2 _) isum)
      · exact Or.inr (lt_of_le_of_lt hstep hstrict)
    · -- safe branch
      obtain ⟨g1, g2, _⟩ := addSafeFold_facts _ s.knownMines s.knownSafe changed
      obtain ⟨glen, gflag⟩ := addSafeFold_grow _ s.knownMines s.knownSafe changed
      have hwf2 : LoopWF { s with
          knownMines := s.knownMines,
          knownSafe := (addSafeFold s.knownSafe s.knownMines changed
            ((s.board.topo.getNeighbors c).filter (fun n =>
              decide (statusIs s.board n .HIDDEN = true ∧
                s.knownSafe.contains n = false ∧
                s.knownMines.contains n = false)))).1 } := by
        refine ⟨hwf.lenst, hwf.adj, hwf.kmnd, g2 hwf.ksnd, hwf.kmlt, ?_⟩
        intro i hi
        rcases g1 i hi with h | h
        · exact hwf.kslt i h
        · exact hmemf i h.1
      obtain ⟨iw, ib, isum, iflag⟩ := ih _ _ hwf2
      have hstep : setSum s ≤ setSum { s with
          knownMines := s.knownMines,
          knownSafe := (addSafeFold s.knownSafe s.knownMines changed
            ((s.board.topo.getNeighbors c).filter (fun n =>
              decide (statusIs s.board n .HIDDEN = true ∧
                s.knownSafe.contains n = false ∧
                s.knownMines.contains n = false)))).1 } := Nat.add_le_add_left glen _
      refine ⟨iw, ib, le_trans hstep isum, ?_⟩
      intro hx
      rcases iflag hx with hc' | hstrict
      · rcases gflag with hg | hg
        · rw [← hg]
          exact Or.inl hc'
        · exact Or.inr (lt_of_lt_of_le (Nat.add_lt_add_left hg.2 _) isum)
      · exact Or.inr (lt_of_le_of_lt hstep hstrict)
    · exact ih s changed hwf

theorem solveGlobalLogic_term (s : Solver) (hwf : LoopWF s) :
    LoopWF s.solveGlobalLogic.1 ∧ s.solveGlobalLogic.1.board = s.board ∧
    setSum s ≤ setSum s.solveGlobalLogic.1 ∧
    (s.solveGlobalLogic.2 = true → setSum s < setSum s.solveGlobalLogic.1) := by
  simp only [Solver.solveGlobalLogic]
  have hUmem : ∀ x ∈ (List.range (s.board.topo.width * s.board.topo.height)).filter
      (fun i => decide (statusIs s.board i .HIDDEN = true ∧
        s.knownSafe.contains i = false ∧ s.knownMines.contains i = false)),
      x < s.board.size ∧ s.knownSafe.contains x = false ∧
        s.knownMines.contains x = false := by
    intro x hx
    rw [List.mem_filter] at hx
    have hp := of_decide_eq_true hx.2
    exact ⟨List.mem_range.mp hx.1, hp.2.1, hp.2.2⟩
  split_ifs with h1 h2 h3 h4
  · exact ⟨hwf, rfl, le_refl _, fun h => absurd h (by simp)⟩
  · exact ⟨⟨hwf.lenst, hwf.adj, hwf.kmnd, hwf.ksnd, hwf.kmlt, hwf.kslt⟩, rfl,
      le_refl _, fun h => absurd h (by simp)⟩
  · obtain ⟨f1, f2, _⟩ := foldl_sAdd_facts _ s.knownMines
    obtain ⟨g1, g2⟩ := foldl_sAdd_length _ s.knownMines
    have hne0 : (List.range (s.board.topo.width * s.board.topo.height)).filter
        (fun i => decide (statusIs s.board i .HIDDEN = true ∧
          s.knownSafe.contains i = false ∧ s.knownMines.contains i = false)) ≠ [] := by
      intro he
      rw [he] at h1
      exact h1 rfl
    obtain ⟨x, hx⟩ := List.exists_mem_of_ne_nil _ hne0
    have hxkm : x ∉ s.knownMines :=
      not_mem_of_contains_false _ _ (hUmem x hx).2.2
    refine ⟨⟨hwf.lenst, hwf.adj, f2 hwf.kmnd, hwf.ksnd, ?_, hwf.kslt⟩, rfl, ?_, fun _ => ?_⟩
    · intro i hi
      rcases f1 i hi with h | h
      · exact hwf.kmlt i h
      · exact (hUmem i h).1
    · exact Nat.add_le_add_right g1 _
    · exact Nat.add_lt_add_right (g2 ⟨x, hx, hxkm⟩) _
  · obtain ⟨f1, f2, _⟩ := foldl_sAdd_facts _ s.knownSafe
    obtain ⟨g1, g2⟩ := foldl_sAdd_length _ s.knownSafe
    have hne0 : (List.range (s.board.topo.width * s.board.topo.height)).filter
        (fun i => decide (statusIs s.board i .HIDDEN = true ∧
          s.knownSafe.contains i = false ∧ s.knownMines.contains i = false)) ≠ [] := by
      intro he
      rw [he] at h1
      exact h1 rfl
    obtain ⟨x, hx⟩ := List.exists_mem_of_ne_nil _ hne0
    have hxks : x ∉ s.knownSafe :=
      not_mem_of_contains_false _ _ (hUmem x hx).2.1
    refine ⟨⟨hwf.lenst, hwf.adj, hwf.kmnd, f2 hwf.ksnd, hwf.kmlt, ?_⟩, rfl, ?_, fun _ => ?_⟩
    · intro i hi
      rcases f1 i hi with h | h
      · exact hwf.kslt i h
      · exact (hUmem i h).1
    · exact Nat.add_le_add_left g1 _
    · exact Nat.add_lt_add_left (g2 ⟨x, hx, hxks⟩) _
  · exact ⟨hwf, rfl, le_refl _, fun h => absurd h (by simp)⟩

theorem deepGo_term (fuel : Nat) (l : List Nat) :
    ∀ s changed, LoopWF s → (∀ t ∈ l, t < s.board.size) →
      LoopWF (deepGo fuel s changed l).1 ∧
      (deepGo fuel s changed l).1.board = s.board ∧
      setSum s ≤ setSum (deepGo fuel s changed l).1 ∧
      ((deepGo fuel s changed l).2 = true → changed = true ∨
        setSum s < setSum (deepGo fuel s changed l).1) := by
  induction l with
  | nil => intro s changed hwf _; exact ⟨hwf, rfl, le_refl _, fun h => Or.inl h⟩
  | cons t rest ih =>
    intro s changed hwf hlt
    simp only [deepGo]
    have hrest : ∀ x ∈ rest, x < s.board.size :=
      fun x hx => hlt x (List.mem_cons_of_mem _ hx)
    split_ifs with hc1 hc2
    · have hgrow : (sAdd s.knownSafe t).length = s.knownSafe.length + 1 := by
        unfold sAdd
        rw [if_neg (by rw [hc1.2]; exact Bool.false_ne_true)]
        simp
      have hwf2 : LoopWF { s with knownSafe := sAdd s.knownSafe t } := by
        refine ⟨hwf.lenst, hwf.adj, hwf.kmnd, sAdd_nodup _ _ hwf.ksnd, hwf.kmlt, ?_⟩
        intro i hi
        rcases (sAdd_mem _ _ _).mp hi with h | heq
        · exact hwf.kslt i h
        · rw [heq]
          exact hlt t (List.mem_cons_self _ _)
      obtain ⟨g1, g2, g3, _⟩ := ih _ true hwf2 hrest
      have hstep : setSum s < setSum { s with knownSafe := sAdd s.knownSafe t } := by
        show s.knownMines.length + s.knownSafe.length <
          s.knownMines.length + (sAdd s.knownSafe t).length
        omega
      exact ⟨g1, g2, le_trans (le_of_lt hstep) g3,
        fun _ => Or.inr (lt_of_lt_of_le hstep g3)⟩
    · have hgrow : (sAdd s.knownMines t).length = s.knownMines.length + 1 := by
        unfold sAdd
        rw [if_neg (by rw [hc2.2]; exact Bool.false_ne_true)]
        simp
      have hwf2 : LoopWF { s with knownMines := sAdd s.knownMines t } := by
        refine ⟨hwf.lenst, hwf.adj, sAdd_nodup _ _ hwf.kmnd, hwf.ksnd, ?_, hwf.kslt⟩
        intro i hi
        rcases (sAdd_mem _ _ _).mp hi with h | heq
        · exact hwf.kmlt i h
        · rw [heq]
          exact hlt t (List.mem_cons_self _ _)
      obtain ⟨g1, g2, g3, _⟩ := ih _ true hwf2 hrest
      have hstep : setSum s < setSum { s with knownMines := sAdd s.knownMines t } := by
        show s.knownMines.length + s.knownSafe.length <
          (sAdd s.knownMines t).length + s.knownSafe.length
        omega
      exact ⟨g1, g2, le_trans (le_of_lt hstep) g3,
        fun _ => Or.inr (lt_of_lt_of_le hstep g3)⟩
    · exact ih s changed hwf hrest

theorem solveDeepLogic_term (s : Solver) (hwf : LoopWF s) :
    LoopWF s.solveDeepLogic.1 ∧ s.solveDeepLogic.1.board = s.board ∧
    setSum s ≤ setSum s.solveDeepLogic.1 ∧
    (s.solveDeepLogic.2 = true → setSum s < setSum s.solveDeepLogic.1) := by
  obtain ⟨g1, g2, g3, g4⟩ := deepGo_term _ s.frontier s false hwf
    (fun t ht => (frontier_facts s hwf.adj t ht).1)
  refine ⟨g1, g2, g3, fun hx => ?_⟩
  rcases g4 hx with h | h
  · exact absurd h (by simp)
  · exact h

theorem openSafePairs (l : List Nat) :
    ∀ p : Board × Bool,
      (l.foldl (fun p n => if statusIs p.1 n CellStatus.HIDDEN then
          ((p.1.openCell n).1, true) else p) p).1.topo = p.1.topo ∧
      (l.foldl (fun p n => if statusIs p.1 n CellStatus.HIDDEN then
          ((p.1.openCell n).1, true) else p) p).1.status.length = p.1.status.length ∧
      hiddenCount (l.foldl (fun p n => if statusIs p.1 n CellStatus.HIDDEN then
          ((p.1.openCell n).1, true) else p) p).1 ≤ hiddenCount p.1 ∧
      ((l.foldl (fun p n => if statusIs p.1 n CellStatus.HIDDEN then
          ((p.1.openCell n).1, true) else p) p).2 = true →
        p.2 = true ∨ hiddenCount (l.foldl (fun p n =>
          if statusIs p.1 n CellStatus.HIDDEN then
            ((p.1.openCell n).1, true) else p) p).1 < hiddenCount p.1) := by
  induction l with
  | nil => intro p; exact ⟨rfl, rfl, le_refl _, fun h => Or.inl h⟩
  | cons n rest ih =>
    intro p
    rw [List.foldl_cons]
    by_cases hn : statusIs p.1 n CellStatus.HIDDEN = true
    · rw [if_pos hn]
      obtain ⟨g1, g2, g3, _⟩ := ih ((p.1.openCell n).1, true)
      have hoc := openGo_comp (p.1.status.length + 1) p.1 n
      have hdec := openCell_hidden_dec p.1 n hn
      refine ⟨g1.trans hoc.1, g2.trans hoc.2.2.2.1, le_trans g3 (le_of_lt hdec), ?_⟩
      intro _
      exact Or.inr (lt_of_le_of_lt g3 hdec)
    · rw [if_neg hn]
      exact ih p

theorem outerLoop_body (fuel : Nat) (s : Solver) :
    outerLoop (fuel + 1) s =
      if (outerBody s).2 = true then outerLoop fuel (outerBody s).1
      else (outerBody s).1 := by
  simp only [outerLoop, outerBody]
  set r1 := s.solveBasicStep with hr1
  set r2 := if r1.2 = true then (r1.1, true) else r1.1.solveGlobalLogic with hr2
  set r3 := if r2.2 = true then (r2.1, true) else r2.1.solveDeepLogic with hr3
  set r4 := openSafeList r3.1.board r3.1.knownSafe with hr4
  by_cases hc : r3.2 = true ∨ r4.2 = true
  · rw [if_pos hc,
      if_pos (show (({ r3.1 with board := r4.1 }, decide (r3.2 = true ∨ r4.2 = true)) :
        Solver × Bool).2 = true from decide_eq_true hc)]
  · rw [if_neg hc,
      if_neg (show ¬((({ r3.1 with board := r4.1 }, decide (r3.2 = true ∨ r4.2 = true)) :
        Solver × Bool).2 = true) from fun hd => hc (of_decide_eq_true hd))]

theorem outerBody_facts (s : Solver) (hwf : LoopWF s) :
    LoopWF (outerBody s).1 ∧
    ((outerBody s).2 = true → loopMeasure (outerBody s).1 < loopMeasure s) := by
  simp only [outerBody]
  set r1 := s.solveBasicStep with hr1
  set r2 := if r1.2 = true then (r1.1, true) else r1.1.solveGlobalLogic with hr2
  set r3 := if r2.2 = true then (r2.1, true) else r2.1.solveDeepLogic with hr3
  set r4 := openSafeList r3.1.board r3.1.knownSafe with hr4
  have hF1 : LoopWF r1.1 ∧ r1.1.board = s.board ∧ setSum s ≤ setSum r1.1 ∧
      (r1.2 = true → setSum s < setSum r1.1) := by
    rw [hr1]
    obtain ⟨a, b, c, d⟩ := basicStepGo_term
      (List.range (s.board.topo.width * s.board.topo.height)) s false hwf
    refine ⟨a, b, c, fun hx => ?_⟩
    rcases d hx with h | h
    · exact absurd h (by simp)
    · exact h
  obtain ⟨hw1, hb1, hs1, hf1⟩ := hF1
  have hF2 : LoopWF r2.1 ∧ r2.1.board = s.board ∧ setSum s ≤ setSum r2.1 ∧
      (r2.2 = true → setSum s < setSum r2.1) := by
    rw [hr2]
    by_cases hb : r1.2 = true
    · rw [if_pos hb]
      exact ⟨hw1, hb1, hs1, fun _ => hf1 hb⟩
    · rw [if_neg hb]
      obtain ⟨a, b, c, d⟩ := solveGlobalLogic_term r1.1 hw1
      exact ⟨a, b.trans hb1, le_trans hs1 c, fun hx => lt_of_le_of_lt hs1 (d hx)⟩
  obtain ⟨hw2, hb2, hs2, hf2⟩ := hF2
  have hF3 : LoopWF r3.1 ∧ r3.1.board = s.board ∧ setSum s ≤ setSum r3.1 ∧
      (r3.2 = true → setSum s < setSum r3.1) := by
    rw [hr3]
    by_cases hb : r2.2 = true
    · rw [if_pos hb]
      exact ⟨hw2, hb2, hs2, fun _ => hf2 hb⟩
    · rw [if_neg hb]
      obtain ⟨a, b, c, d⟩ := solveDeepLogic_term r2.1 hw2
      exact ⟨a, b.trans hb2, le_trans hs2 c, fun hx => lt_of_le_of_lt hs2 (d hx)⟩
  obtain ⟨hw3, hb3, hs3, hf3⟩ := hF3
  have hF4 : r4.1.topo = r3.1.board.topo ∧
      r4.1.status.length = r3.1.board.status.length ∧
      hiddenCount r4.1 ≤ hiddenCount r3.1.board ∧
      (r4.2 = true → hiddenCount r4.1 < hiddenCount r3.1.board) := by
    rw [hr4]
    obtain ⟨a, b, c, d⟩ := openSafePairs r3.1.knownSafe (r3.1.board, false)
    refine ⟨a, b, c, fun hx => ?_⟩
    rcases d hx with h | h
    · exact absurd h (by simp)
    · exact h
  obtain ⟨ht4, hl4, hc4, hd4⟩ := hF4
  have hsz4 : r4.1.size = s.board.size := by
    show r4.1.topo.width * r4.1.topo.height = s.board.size
    rw [ht4, hb3]
    rfl
  have hwf4 : LoopWF { r3.1 with board := r4.1 } := by
    refine ⟨?_, ?_, hw3.kmnd, hw3.ksnd, ?_, ?_⟩
    · show r4.1.status.length = r4.1.size
      rw [hl4, hsz4, hb3]
      exact hwf.lenst
    · show AdjWF r4.1.topo
      rw [ht4, hb3]
      exact hwf.adj
    · intro i hi
      show i < r4.1.size
      rw [hsz4]
      have hx := hw3.kmlt i hi
      rw [hb3] at hx
      exact hx
    · intro i hi
      show i < r4.1.size
      rw [hsz4]
      have hx := hw3.kslt i hi
      rw [hb3] at hx
      exact hx
  refine ⟨hwf4, ?_⟩
  intro hflag
  have hor : r3.2 = true ∨ r4.2 = true := of_decide_eq_true hflag
  have hkm3 : r3.1.knownMines.length ≤ s.board.size := by
    have hx := nodup_length_le r3.1.knownMines r3.1.board.size hw3.kmnd hw3.kmlt
    rw [hb3] at hx
    exact hx
  have hks3 : r3.1.knownSafe.length ≤ s.board.size := by
    have hx := nodup_length_le r3.1.knownSafe r3.1.board.size hw3.ksnd hw3.kslt
    rw [hb3] at hx
    exact hx
  have hkm0 : s.knownMines.length ≤ s.board.size :=
    nodup_length_le _ _ hwf.kmnd hwf.kmlt
  have hks0 : s.knownSafe.length ≤ s.board.size :=
    nodup_length_le _ _ hwf.ksnd hwf.kslt
  have hmu4 : hiddenCount r4.1 ≤ hiddenCount s.board := by
    rw [← hb3]
    exact hc4
  have hsum0 : s.knownMines.length + s.knownSafe.length ≤
      r3.1.knownMines.length + r3.1.knownSafe.length := hs3
  show hiddenCount r4.1 + (r4.1.size - r3.1.knownMines.length) +
      (r4.1.size - r3.1.knownSafe.length) <
    hiddenCount s.board + (s.board.size - s.knownMines.length) +
      (s.board.size - s.knownSafe.length)
  rw [hsz4]
  rcases hor with h | h
  · have hstrict : s.knownMines.length + s.knownSafe.length <
        r3.1.knownMines.length + r3.1.knownSafe.length := hf3 h
    omega
  · have hstrict : hiddenCount r4.1 < hiddenCount s.board := by
      rw [← hb3]
      exact hd4 h
    omega

theorem outerLoop_stab : ∀ fuel s, LoopWF s → loopMeasure s < fuel →
    outerLoop fuel s = outerLoop (fuel + 1) s := by
  intro fuel
  induction fuel with
  | zero => intro s _ h; exact absurd h (Nat.not_lt_zero _)
  | succ fuel ih =>
    intro s hwf hM
    rw [outerLoop_body fuel s, outerLoop_body (fuel + 1) s]
    obtain ⟨hwf4, hdec⟩ := outerBody_facts s hwf
    by_cases hc : (outerBody s).2 = true
    · rw [if_pos hc, if_pos hc]
      exact ih (outerBody s).1 hwf4 (by have := hdec hc; omega)
    · rw [if_neg hc, if_neg hc]

theorem outerLoop_add (f k : Nat) (s : Solver) (hwf : LoopWF s)
    (h : loopMeasure s < f) : outerLoop f s = outerLoop (f + k) s := by
  induction k with
  | zero => rfl
  | succ k ihk =>
    rw [ihk]
    exact outerLoop_stab (f + k) s hwf (by omega)

/-- C2: both loops of the claim stabilise at the canonical fuels, which is
how termination is expressed for the fuelled embedding.  The flood fill of
Board.open has reached its fixpoint by fuel |status| + 1 (each cell opens
at most once, so the hidden-cell count bounds the recursion depth), and for
every well-formed board the outer deduce-and-open loop of
checkSolvability(start) has reached its fixpoint by fuel 3 * size + 2 (a
pass that continues either opens a hidden cell or strictly grows a
knowledge set, and each is bounded by size). -/
theorem checkSolvability_terminates (b : Board) (tm : Int) (start idx : Nat)
    (hlen : b.status.length = b.size) (hadj : AdjWF b.topo) :
    (∀ fuel, b.status.length < fuel → openGo fuel b idx = b.openCell idx) ∧
    (∀ fuel, 3 * b.size + 2 ≤ fuel →
      checkSolvabilityF fuel (Solver.new b tm) start =
        (Solver.new b tm).checkSolvability start) := by
  constructor
  · intro fuel hf
    exact openGo_eq_openCell b idx fuel
      (lt_of_le_of_lt (List.countP_le_length _) hf)
  · intro fuel hf
    have hcomp := openGo_comp (b.status.length + 1) b start
    have hsz0 : (openGo (b.status.length + 1) b start).1.size = b.size := by
      show (openGo (b.status.length + 1) b start).1.topo.width *
        (openGo (b.status.length + 1) b start).1.topo.height = b.size
      rw [hcomp.1]
      rfl
    have hwf0 : LoopWF { Solver.new b tm with board := (b.openCell start).1 } := by
      refine ⟨?_, ?_, List.nodup_nil, List.nodup_nil, ?_, ?_⟩
      · show (openGo (b.status.length + 1) b start).1.status.length =
          (openGo (b.status.length + 1) b start).1.size
        rw [hcomp.2.2.2.1, hsz0]
        exact hlen
      · show AdjWF (openGo (b.status.length + 1) b start).1.topo
        rw [hcomp.1]
        exact hadj
      · intro i hi
        cases hi
      · intro i hi
        cases hi
    have hmu : hiddenCount (openGo (b.status.length + 1) b start).1 ≤ b.size := by
      have h2 : hiddenCount (openGo (b.status.length + 1) b start).1 ≤
          (openGo (b.status.length + 1) b start).1.status.length :=
        List.countP_le_length _
      rw [hcomp.2.2.2.1] at h2
      exact le_trans h2 (le_of_eq hlen)
    have hM0 : loopMeasure { Solver.new b tm with board := (b.openCell start).1 } ≤
        3 * b.size := by
      show hiddenCount (openGo (b.status.length + 1) b start).1 +
        ((openGo (b.status.length + 1) b start).1.size - 0) +
        ((openGo (b.status.length + 1) b start).1.size - 0) ≤ 3 * b.size
      omega
    have key := outerLoop_add (3 * b.size + 2) (fuel - (3 * b.size + 2))
      { Solver.new b tm with board := (b.openCell start).1 } hwf0 (by omega)
    rw [show 3 * b.size + 2 + (fuel - (3 * b.size + 2)) = fuel from by omega] at key
    calc checkSolvabilityF fuel (Solver.new b tm) start
        = (outerLoop fuel { Solver.new b tm with board := (b.openCell start).1 },
           (List.range b.size).all (fun i =>
             mineAt (outerLoop fuel
               { Solver.new b tm with board := (b.openCell start).1 }).board i ||
             statusIs (outerLoop fuel
               { Solver.new b tm with board := (b.openCell start).1 }).board i
               CellStatus.OPENED)) := rfl
      _ = (outerLoop (3 * b.size + 2)
             { Solver.new b tm with board := (b.openCell start).1 },
           (List.range b.size).all (fun i =>
             mineAt (outerLoop (3 * b.size + 2)
               { Solver.new b tm with board := (b.openCell start).1 }).board i ||
             statusIs (outerLoop (3 * b.size + 2)
               { Solver.new b tm with board := (b.openCell start).1 }).board i
               CellStatus.OPENED)) := by rw [← key]
      _ = (Solver.new b tm).checkSolvability start := rfl

/-- C2 witness: the stabilisation theorem applied to the concrete mine-free
2 x 2 board. -/
theorem checkSolvability_terminates_witness :
    (bNoMines.status.length = bNoMines.size ∧ AdjWF bNoMines.topo) ∧
    ((∀ fuel, bNoMines.status.length < fuel →
        openGo fuel bNoMines 0 = bNoMines.openCell 0) ∧
     (∀ fuel, 3 * bNoMines.size + 2 ≤ fuel →
        checkSolvabilityF fuel (Solver.new bNoMines 0) 0 =
          (Solver.new bNoMines 0).checkSolvability 0)) := by
  have ha : AdjWF bNoMines.topo := by
    unfold AdjWF
    decide
  exact ⟨⟨by decide, ha⟩, checkSolvability_terminates bNoMines 0 0 0 (by decide) ha⟩
